import Mathlib

/-!
# Jetson overlay installers: embedding and verification

Shallow embedding of the two board installers
(`installers/jetson_agx_orin/src/main.go`, `installers/jetson_orin_nano/src/main.go`).

* Go strings that the program takes apart (paths) are lists of characters.
  `filepath.Clean` only ever compares a byte with `/` and `.`, so nothing depends
  on the rest of the alphabet.
* A Go `error` result is an `Option`: `none` is `nil`.
* The operating system is reached through five calls (`os.OpenFile`, `f.Sync`,
  `f.Close`, `os.MkdirAll`, `copy.File`).  `Install` is written once against an
  arbitrary system `Sys` (every outcome of every call is possible) and records
  each call it makes in a log; a concrete POSIX file-system model instantiates
  `Sys` further down.
-/

namespace SbcJetson

/-- A Go string, as the sequence of its characters. -/
abbrev GoString := List Char

/-! ## `path/filepath` (Unix build) -/

namespace filepath

/-- The backtracking of the `..` case of `Clean`:
`out.w--; for out.w > dotdot && !os.IsPathSeparator(out.index(out.w)) { out.w-- }`.
The buffer is kept newest character first, so `out.w` is the length of the list and
`out.index(out.w)` after a decrement is the character just dropped. -/
def backtrack (dotdot : Nat) : List Char → List Char
  | [] => []
  | c :: rest => if dotdot < rest.length ∧ c ≠ '/' then backtrack dotdot rest else rest

/-- The main loop of `Clean` (`for r < n { switch ... }`): `path` is what is left to
read (`path[r:]`), `out` the buffer written so far (newest character first), `dotdot`
the index where `..` must stop.  Every iteration reads at least one character, so the
fuel `len(path)` given by `Clean` is never exhausted (`cleanLoop_spec`). -/
def cleanLoop (rooted : Bool) : Nat → List Char → List Char → Nat → List Char
  | 0, _, out, _ => out
  | _, [], out, _ => out
  | fuel + 1, c :: rest, out, dotdot =>
    if c = '/' then
      -- empty path element
      cleanLoop rooted fuel rest out dotdot
    else if c = '.' ∧ (rest = [] ∨ rest.head? = some '/') then
      -- . element
      cleanLoop rooted fuel rest out dotdot
    else if c = '.' ∧ rest.head? = some '.' ∧ (rest.tail = [] ∨ rest.tail.head? = some '/') then
      -- .. element: remove to last separator
      if dotdot < out.length then
        cleanLoop rooted fuel rest.tail (backtrack dotdot out) dotdot
      else if rooted = false then
        -- cannot backtrack, but not rooted, so append .. element
        let out1 := if 0 < out.length then '/' :: out else out
        cleanLoop rooted fuel rest.tail ('.' :: '.' :: out1) ('.' :: '.' :: out1).length
      else
        cleanLoop rooted fuel rest.tail out dotdot
    else
      -- real path element: add slash if needed, then copy element
      let out1 :=
        if (rooted = true ∧ out.length ≠ 1) ∨ (rooted = false ∧ out.length ≠ 0) then '/' :: out
        else out
      cleanLoop rooted fuel ((c :: rest).dropWhile (· ≠ '/'))
        (((c :: rest).takeWhile (· ≠ '/')).reverse ++ out1) dotdot

/-- Go `filepath.Clean`: the shortest path equivalent to `path` by purely lexical processing. -/
def Clean (path : GoString) : GoString :=
  match path with
  | [] => ['.']
  | c :: rest =>
    let out :=
      if c = '/' then cleanLoop true path.length rest ['/'] 1
      else cleanLoop false path.length path [] 0
    -- Turn empty string into "."
    if out.length = 0 then ['.'] else out.reverse

/-- Go `strings.Join`. -/
def stringsJoin (elems : List GoString) (sep : GoString) : GoString :=
  sep.intercalate elems

/-- Go `filepath.Join`: the elements from the first non-empty one on are joined with
`/` and the result is cleaned; no non-empty element gives the empty string. -/
def Join : List GoString → GoString
  | [] => []
  | e :: rest => if e ≠ [] then Clean (stringsJoin (e :: rest) ['/']) else Join rest

/-- The slice `path[:i+1]` of `Dir`: everything up to and including the last separator. -/
def dirPart (path : GoString) : GoString :=
  (path.reverse.dropWhile (· ≠ '/')).reverse

/-- Go `filepath.Dir`: all but the last element of `path`, cleaned. -/
def Dir (path : GoString) : GoString :=
  Clean (dirPart path)

end filepath

/-! ## `overlay` types used by the installers -/

/-- The fields of `overlay.Options` that the installers set. -/
structure Options where
  Name : String
  KernelArgs : List String
  deriving DecidableEq, Repr

/-- The type `overlay.InstallOptions[T]`. -/
structure InstallOptions (T : Type) where
  InstallDisk : GoString
  MountPrefix : GoString
  ArtifactsPath : GoString
  ExtraOptions : T

/-! ## The system interface -/

/-- `os.O_RDWR` (Linux). -/
def O_RDWR : Nat := 0x2
/-- `os.O_RDONLY`. -/
def O_RDONLY : Nat := 0x0
/-- `os.O_CREATE` (Linux `O_CREAT`). -/
def O_CREATE : Nat := 0x40
/-- `os.O_TRUNC` (Linux). -/
def O_TRUNC : Nat := 0x200
/-- `unix.O_CLOEXEC` (Linux). -/
def O_CLOEXEC : Nat := 0x80000

/-- The calls an installer makes, with their arguments. -/
inductive Call (F : Type) where
  | openFile (name : GoString) (flag : Nat) (perm : Nat)
  | sync (f : F)
  | close (f : F)
  | mkdirAll (path : GoString) (perm : Nat)
  | copyFile (src dst : GoString)
  deriving DecidableEq, Repr

/-- Is the call a `Close`? -/
def Call.isClose {F : Type} : Call F → Bool
  | .close _ => true
  | _ => false

/-- An arbitrary operating system: a state `σ`, error values `ε`, file handles `F`,
and for each call the error it returns (if any) and the state it leaves. -/
structure Sys (σ ε F : Type) where
  OpenFile : GoString → Nat → Nat → σ → Except ε F × σ
  Sync : F → σ → Option ε × σ
  Close : F → σ → Option ε × σ
  MkdirAll : GoString → Nat → σ → Option ε × σ
  CopyFile : GoString → GoString → σ → Option ε × σ

/-- The system state together with the log of the calls made so far, oldest first. -/
structure World (σ F : Type) where
  st : σ
  log : List (Call F)

section Calls
variable {σ ε F : Type}

/-- Go `os.OpenFile(name, flag, perm)`, logged. -/
def os.OpenFile (sys : Sys σ ε F) (name : GoString) (flag perm : Nat) (w : World σ F) :
    Except ε F × World σ F :=
  let r := sys.OpenFile name flag perm w.st
  (r.1, ⟨r.2, w.log ++ [.openFile name flag perm]⟩)

/-- Go `(*os.File).Sync`, logged. -/
def File.Sync (sys : Sys σ ε F) (f : F) (w : World σ F) : Option ε × World σ F :=
  let r := sys.Sync f w.st
  (r.1, ⟨r.2, w.log ++ [.sync f]⟩)

/-- Go `(*os.File).Close`, logged. -/
def File.Close (sys : Sys σ ε F) (f : F) (w : World σ F) : Option ε × World σ F :=
  let r := sys.Close f w.st
  (r.1, ⟨r.2, w.log ++ [.close f]⟩)

/-- Go `os.MkdirAll(path, perm)`, logged. -/
def os.MkdirAll (sys : Sys σ ε F) (path : GoString) (perm : Nat) (w : World σ F) :
    Option ε × World σ F :=
  let r := sys.MkdirAll path perm w.st
  (r.1, ⟨r.2, w.log ++ [.mkdirAll path perm]⟩)

/-- The library call `copy.File(src, dst)`, logged. -/
def copy.File (sys : Sys σ ε F) (src dst : GoString) (w : World σ F) : Option ε × World σ F :=
  let r := sys.CopyFile src dst w.st
  (r.1, ⟨r.2, w.log ++ [.copyFile src dst]⟩)

end Calls

/-! ## `installers/jetson_agx_orin/src/main.go` -/

namespace jetson_agx_orin

/-- The constant `dtb`. -/
def dtb : GoString := "nvidia/tegra234-p3701-0000+p3737-0000.dtb".toList

/-- The type `jetsonAGXOrinExtraOptions struct{}`. -/
structure jetsonAGXOrinExtraOptions where
  deriving DecidableEq, Repr

/-- The method `(*JetsonAGXOrinInstaller).GetOptions`. -/
def JetsonAGXOrinInstaller.GetOptions (_extra : jetsonAGXOrinExtraOptions) :
    Options × Option Unit :=
  ({ Name := "jetson_agx_orin"
     KernelArgs := [
       "console=tty0",
       "console=ttyS0,115200",
       "sysctl.kernel.kexec_load_disabled=1",
       "talos.dashboard.disabled=1",
       "tegra_fbmem=0x2000000@0x278000000",
       "lut_mem=0x2008@0x276000000",
       "nvdec_enabled",
       "nvidia_drm.modeset=1" ] }, none)

/-- The part of `Install` after `defer f.Close()`. -/
def JetsonAGXOrinInstaller.installBody {σ ε F : Type} (sys : Sys σ ε F)
    (options : InstallOptions jetsonAGXOrinExtraOptions) (f : F) (w1 : World σ F) :
    Option ε × World σ F :=
  match File.Sync sys f w1 with
  | (some err, w2) => (some err, w2)
  | (none, w2) =>
    let src := filepath.Join [options.ArtifactsPath, "arm64/dtb".toList, dtb]
    let dst := filepath.Join [options.MountPrefix, "/boot/EFI/dtb".toList, dtb]
    match os.MkdirAll sys (filepath.Dir dst) 0o600 w2 with
    | (some err, w3) => (some err, w3)
    | (none, w3) =>
      match copy.File sys src dst w3 with
      | (some err, w4) => (some err, w4)
      | (none, w4) => (none, w4)

/-- The method `(*JetsonAGXOrinInstaller).Install`.  The deferred `f.Close()` runs when
the function returns, after the body, and its error is dropped. -/
def JetsonAGXOrinInstaller.Install {σ ε F : Type} (sys : Sys σ ε F)
    (options : InstallOptions jetsonAGXOrinExtraOptions) (w : World σ F) :
    Option ε × World σ F :=
  match os.OpenFile sys options.InstallDisk (O_RDWR ||| O_CLOEXEC) 0o666 w with
  | (.error err, w1) => (some err, w1)
  | (.ok f, w1) =>
    let r := JetsonAGXOrinInstaller.installBody sys options f w1
    (r.1, (File.Close sys f r.2).2)

end jetson_agx_orin

/-! ## `installers/jetson_orin_nano/src/main.go` -/

namespace jetson_orin_nano

/-- The constant `dtb`. -/
def dtb : GoString := "nvidia/tegra234-p3768-0000+p3767-0000.dtb".toList

/-- The type `jetsonOrinNanoExtraOptions struct{}`. -/
structure jetsonOrinNanoExtraOptions where
  deriving DecidableEq, Repr

/-- The method `(*JetsonOrinNanoInstaller).GetOptions`. -/
def JetsonOrinNanoInstaller.GetOptions (_extra : jetsonOrinNanoExtraOptions) :
    Options × Option Unit :=
  ({ Name := "jetson_orin_nano"
     KernelArgs := [
       "console=tty0",
       "console=ttyS0,115200",
       "sysctl.kernel.kexec_load_disabled=1",
       "talos.dashboard.disabled=1",
       "tegra_fbmem=0x800000@0x278800000",
       "lut_mem=0x2008@0x278000000" ] }, none)

/-- The part of `Install` after `defer f.Close()`. -/
def JetsonOrinNanoInstaller.installBody {σ ε F : Type} (sys : Sys σ ε F)
    (options : InstallOptions jetsonOrinNanoExtraOptions) (f : F) (w1 : World σ F) :
    Option ε × World σ F :=
  match File.Sync sys f w1 with
  | (some err, w2) => (some err, w2)
  | (none, w2) =>
    let src := filepath.Join [options.ArtifactsPath, "arm64/dtb".toList, dtb]
    let dst := filepath.Join [options.MountPrefix, "/boot/EFI/dtb".toList, dtb]
    match os.MkdirAll sys (filepath.Dir dst) 0o600 w2 with
    | (some err, w3) => (some err, w3)
    | (none, w3) =>
      match copy.File sys src dst w3 with
      | (some err, w4) => (some err, w4)
      | (none, w4) => (none, w4)

/-- The method `(*JetsonOrinNanoInstaller).Install`.  The deferred `f.Close()` runs when
the function returns, after the body, and its error is dropped. -/
def JetsonOrinNanoInstaller.Install {σ ε F : Type} (sys : Sys σ ε F)
    (options : InstallOptions jetsonOrinNanoExtraOptions) (w : World σ F) :
    Option ε × World σ F :=
  match os.OpenFile sys options.InstallDisk (O_RDWR ||| O_CLOEXEC) 0o666 w with
  | (.error err, w1) => (some err, w1)
  | (.ok f, w1) =>
    let r := JetsonOrinNanoInstaller.installBody sys options f w1
    (r.1, (File.Close sys f r.2).2)

end jetson_orin_nano

/-- Both `Install` methods are this procedure, with the board's `dtb`. -/
def installWith {σ ε F T : Type} (dtb : GoString) (sys : Sys σ ε F)
    (options : InstallOptions T) (w : World σ F) : Option ε × World σ F :=
  match os.OpenFile sys options.InstallDisk (O_RDWR ||| O_CLOEXEC) 0o666 w with
  | (.error err, w1) => (some err, w1)
  | (.ok f, w1) =>
    let r : Option ε × World σ F :=
      match File.Sync sys f w1 with
      | (some err, w2) => (some err, w2)
      | (none, w2) =>
        match os.MkdirAll sys
            (filepath.Dir (filepath.Join [options.MountPrefix, "/boot/EFI/dtb".toList, dtb]))
            0o600 w2 with
        | (some err, w3) => (some err, w3)
        | (none, w3) =>
          match copy.File sys (filepath.Join [options.ArtifactsPath, "arm64/dtb".toList, dtb])
              (filepath.Join [options.MountPrefix, "/boot/EFI/dtb".toList, dtb]) w3 with
          | (some err, w4) => (some err, w4)
          | (none, w4) => (none, w4)
    (r.1, (File.Close sys f r.2).2)

/-! ## A POSIX file-system model

The state of the machine the installer runs on: a tree of directories and regular
files, the working directory and the credentials of the process.  Directories and
regular files carry owner, group and permission bits: `Install` chooses the mode of the
directories it creates, and the copy gives the destination the mode of the source.
Symbolic links, supplementary groups, set-id and sticky bits, time stamps and I/O
faults are not modelled. -/

/-- A path component. -/
abbrev Name := List Char

/-- An absolute location: the component names from the root directory down. -/
abbrev Loc := List Name

/-- The error numbers the model produces. -/
inductive Errno where
  | ENOENT | ENOTDIR | EACCES | EEXIST | EISDIR | EPERM
  deriving DecidableEq, Repr

/-- A directory with its owner, group and mode, or a regular file with its owner, group,
mode and bytes. -/
inductive Node where
  | dir (uid gid mode : Nat)
  | file (uid gid mode : Nat) (data : List Nat)
  deriving DecidableEq, Repr

/-- Is the node a directory (`FileInfo.IsDir`)? -/
def Node.IsDir : Node → Bool
  | .dir _ _ _ => true
  | .file _ _ _ _ => false

/-- The permission bits of the node (`FileInfo.Mode`). -/
def Node.Mode : Node → Nat
  | .dir _ _ mode => mode
  | .file _ _ mode _ => mode

/-- The file system and the process: what is stored at each location, the working
directory, the effective user and group, the umask. -/
structure FS where
  nodes : Loc → Option Node
  cwd : Loc
  euid : Nat
  egid : Nat
  umask : Nat

/-- The state after storing `n` at `loc`. -/
def FS.store (fs : FS) (loc : Loc) (n : Node) : FS :=
  { fs with nodes := fun l => if l = loc then some n else fs.nodes l }

/-- POSIX permission check on a directory or file: `bit` is 0 for search, 1 for write,
2 for read.  A process with effective user 0 passes every check; otherwise the owner, group
or other class of `mode` is consulted. -/
def FS.permits (fs : FS) (uid gid mode bit : Nat) : Bool :=
  fs.euid == 0 ||
    mode.testBit (bit + (if fs.euid == uid then 6 else if fs.egid == gid then 3 else 0))

/-- The components of a path: the maximal runs of characters other than `/`.
`cur` is the component being read, newest character first. -/
def splitAux : List Char → List Char → List Name
  | cur, [] => if cur = [] then [] else [cur.reverse]
  | cur, c :: cs =>
    if c = '/' then (if cur = [] then splitAux [] cs else cur.reverse :: splitAux [] cs)
    else splitAux (c :: cur) cs

/-- The components of a path. -/
def splitPath (path : GoString) : List Name :=
  splitAux [] path

/-- One step of path resolution from the directory `cur`. -/
def stepLoc (cur : Loc) (c : Name) : Loc :=
  if c = ['.', '.'] then cur.dropLast else if c = ['.'] then cur else cur ++ [c]

/-- May the process look names up in `loc`?  It must be a directory with search permission. -/
def FS.searchable (fs : FS) (loc : Loc) : Option Errno :=
  match fs.nodes loc with
  | none => some .ENOENT
  | some (.file _ _ _ _) => some .ENOTDIR
  | some (.dir uid gid mode) => if fs.permits uid gid mode 0 then none else some .EACCES

/-- Path resolution: follow the components from `cur`; each is looked up in a
searchable directory. -/
def FS.walk (fs : FS) : Loc → List Name → Except Errno Loc
  | cur, [] => .ok cur
  | cur, c :: cs =>
    match fs.searchable cur with
    | some e => .error e
    | none => fs.walk (stepLoc cur c) cs

/-- The location a path names (whether or not something is stored there). -/
def FS.namei (fs : FS) (path : GoString) : Except Errno Loc :=
  match path with
  | [] => .error .ENOENT
  | c :: _ => fs.walk (if c = '/' then [] else fs.cwd) (splitPath path)

/-- Go `os.Stat` (and `os.Lstat`: there are no symbolic links). -/
def FS.Stat (fs : FS) (path : GoString) : Except Errno Node :=
  match fs.namei path with
  | .error e => .error e
  | .ok loc =>
    match fs.nodes loc with
    | none => .error .ENOENT
    | some n => .ok n

/-- Creating an entry at `loc`, which must be free, in its parent directory, which
must be writable. -/
def FS.create (fs : FS) (loc : Loc) (n : Node) : Option Errno × FS :=
  match fs.nodes loc.dropLast with
  | some (.dir uid gid mode) =>
    if fs.permits uid gid mode 1 then (none, fs.store loc n) else (some .EACCES, fs)
  | some (.file _ _ _ _) => (some .ENOTDIR, fs)
  | none => (some .ENOENT, fs)

/-- Go `os.Mkdir(path, perm)`: the new directory belongs to the process and has mode
`perm &^ umask`. -/
def FS.Mkdir (fs : FS) (path : GoString) (perm : Nat) : Option Errno × FS :=
  match fs.namei path with
  | .error e => (some e, fs)
  | .ok loc =>
    match fs.nodes loc with
    | some _ => (some .EEXIST, fs)
    | none => fs.create loc (.dir fs.euid fs.egid (perm ^^^ (perm &&& fs.umask)))

/-- The slice `path[:i+1]` of `os.MkdirAll`: `path` without its trailing separators
and without its last element. -/
def parentOf (path : GoString) : GoString :=
  ((path.reverse.dropWhile (· = '/')).dropWhile (· ≠ '/')).reverse

/-- Go `os.MkdirAll`, with fuel for the recursion on the parent; `FS.MkdirAll` gives
more fuel than the recursion can use (`mkdirAllFuel_enough`). -/
def FS.mkdirAllFuel : Nat → FS → GoString → Nat → Option Errno × FS
  | 0, fs, _, _ => (some .ENOENT, fs)
  | fuel + 1, fs, path, perm =>
    -- Fast path: if we can tell whether path is a directory or file, stop.
    match fs.Stat path with
    | .ok dir => if dir.IsDir then (none, fs) else (some .ENOTDIR, fs)
    | .error _ =>
      -- Slow path: make sure parent exists and then call Mkdir for path.
      let r : Option Errno × FS :=
        if 0 < (parentOf path).length then FS.mkdirAllFuel fuel fs (parentOf path) perm
        else (none, fs)
      match r with
      | (some err, fs1) => (some err, fs1)
      | (none, fs1) =>
        match fs1.Mkdir path perm with
        | (none, fs2) => (none, fs2)
        | (some err, fs2) =>
          -- double-check that the directory doesn't exist
          match fs2.Stat path with
          | .ok dir => if dir.IsDir then (none, fs2) else (some err, fs2)
          | .error _ => (some err, fs2)

/-- Go `os.MkdirAll(path, perm)`. -/
def FS.MkdirAll (fs : FS) (path : GoString) (perm : Nat) : Option Errno × FS :=
  FS.mkdirAllFuel (path.length + 1) fs path perm

/-- May the process open a file of the given owner, group and mode with the flags
`flag`?  The access mode is `flag & 3`: reading is asked for unless it is `O_WRONLY`,
writing unless it is `O_RDONLY`; truncating needs write permission too. -/
def FS.mayOpen (fs : FS) (uid gid mode flag : Nat) : Bool :=
  (flag &&& 3 == 1 || fs.permits uid gid mode 2) &&
    ((flag &&& 3 == 0 && flag &&& O_TRUNC == 0) || fs.permits uid gid mode 1)

/-- Go `os.OpenFile(name, flag, perm)` on the model; the handle is the location of the
file.  An existing file is opened when its mode permits the access asked for, and
`O_TRUNC` then empties it; a directory cannot be opened for writing; a name with a
trailing separator must name a directory.  Without `O_CREATE` a missing file is an
error, with it the file is created empty, owned by the process, with mode
`perm &^ umask`. -/
def FS.OpenFile (fs : FS) (name : GoString) (flag perm : Nat) : Except Errno Loc × FS :=
  match fs.namei name with
  | .error e => (.error e, fs)
  | .ok loc =>
    match fs.nodes loc with
    | some (.dir uid gid mode) =>
      if flag &&& 3 ≠ 0 then (.error .EISDIR, fs)
      else if fs.permits uid gid mode 2 then (.ok loc, fs) else (.error .EACCES, fs)
    | some (.file uid gid mode data) =>
      if name.getLast? = some '/' then (.error .ENOTDIR, fs)
      else if fs.mayOpen uid gid mode flag then
        (.ok loc, if flag &&& O_TRUNC ≠ 0 then fs.store loc (.file uid gid mode []) else fs)
      else (.error .EACCES, fs)
    | none =>
      if flag &&& O_CREATE ≠ 0 then
        if name.getLast? = some '/' then (.error .EISDIR, fs)
        else
          match fs.create loc (.file fs.euid fs.egid (perm ^^^ (perm &&& fs.umask)) []) with
          | (some e, fs1) => (.error e, fs1)
          | (none, fs1) => (.ok loc, fs1)
      else (.error .ENOENT, fs)

/-- Go `os.Chmod(name, mode)`: only the owner of the file and a process with effective
user 0 may change the mode. -/
def FS.Chmod (fs : FS) (name : GoString) (mode : Nat) : Option Errno × FS :=
  match fs.namei name with
  | .error e => (some e, fs)
  | .ok loc =>
    match fs.nodes loc with
    | none => (some .ENOENT, fs)
    | some (.dir uid gid _) =>
      if fs.euid = 0 ∨ fs.euid = uid then (none, fs.store loc (.dir uid gid mode))
      else (some .EPERM, fs)
    | some (.file uid gid _ data) =>
      if fs.euid = 0 ∨ fs.euid = uid then (none, fs.store loc (.file uid gid mode data))
      else (some .EPERM, fs)

/-- The library function `copy.File(src, dst)` of `github.com/siderolabs/go-copy`
(not part of this repository): `os.Open(src)`, then `os.Create(dst)`, then
`io.Copy(d, s)`, then `os.Stat(src)` and `os.Chmod(dst, info.Mode())`, which gives the
destination the mode of the source; the first error is returned. -/
def FS.CopyFile (fs : FS) (src dst : GoString) : Option Errno × FS :=
  match fs.OpenFile src O_RDONLY 0 with
  | (.error e, fs1) => (some e, fs1)
  | (.ok s, fs1) =>
    match fs1.OpenFile dst (O_RDWR ||| O_CREATE ||| O_TRUNC) 0o666 with
    | (.error e, fs2) => (some e, fs2)
    | (.ok d, fs2) =>
      match fs2.nodes s, fs2.nodes d with
      | some (.file _ _ _ data), some (.file uid gid mode _) =>
        let fs3 := fs2.store d (.file uid gid mode data)
        match fs3.Stat src with
        | .error e => (some e, fs3)
        | .ok info => fs3.Chmod dst info.Mode
      | _, _ => (some .EISDIR, fs2)

/-- The model as a system: file handles are locations; `Sync` and `Close` succeed and
change nothing. -/
def posix : Sys FS Errno Loc where
  OpenFile := fun name flag perm fs => fs.OpenFile name flag perm
  Sync := fun _ fs => (none, fs)
  Close := fun _ fs => (none, fs)
  MkdirAll := fun path perm fs => fs.MkdirAll path perm
  CopyFile := fun src dst fs => fs.CopyFile src dst

/-! ## Vocabulary of the specification -/

/-- The value of the local `src` of `Install`. -/
def srcPath (dtb artifactsPath : GoString) : GoString :=
  filepath.Join [artifactsPath, "arm64/dtb".toList, dtb]

/-- The value of the local `dst` of `Install`. -/
def dstPath (dtb mountPrefix : GoString) : GoString :=
  filepath.Join [mountPrefix, "/boot/EFI/dtb".toList, dtb]

/-- An assignment of outcomes to the steps of one invocation: the first step that
fails, with its error and the handle the open returned, or none. -/
inductive Outcome (ε F : Type) where
  | openFailed (err : ε)
  | syncFailed (f : F) (err : ε)
  | mkdirFailed (f : F) (err : ε)
  | copyFailed (f : F) (err : ε)
  | allSucceeded (f : F)

/-- The error of the first failing step; `nil` when every step succeeds. -/
def Outcome.firstError {ε F : Type} : Outcome ε F → Option ε
  | .openFailed err => some err
  | .syncFailed _ err => some err
  | .mkdirFailed _ err => some err
  | .copyFailed _ err => some err
  | .allSucceeded _ => none

/-- The handle returned by the open, when the open succeeded. -/
def Outcome.handle {ε F : Type} : Outcome ε F → Option F
  | .openFailed _ => none
  | .syncFailed f _ => some f
  | .mkdirFailed f _ => some f
  | .copyFailed f _ => some f
  | .allSucceeded f => some f

/-- The steps in the order open, sync, mkdir, copy, each attempted once and none after
a failure: the outcome that the system `sys` gives them from the state `s`. -/
def outcomeOf {σ ε F : Type} (sys : Sys σ ε F) (disk dir src dst : GoString) (s : σ) :
    Outcome ε F :=
  match sys.OpenFile disk (O_RDWR ||| O_CLOEXEC) 0o666 s with
  | (.error err, _) => .openFailed err
  | (.ok f, s1) =>
    match sys.Sync f s1 with
    | (some err, _) => .syncFailed f err
    | (none, s2) =>
      match sys.MkdirAll dir 0o600 s2 with
      | (some err, _) => .mkdirFailed f err
      | (none, s3) =>
        match sys.CopyFile src dst s3 with
        | (some err, _) => .copyFailed f err
        | (none, _) => .allSucceeded f

/-- The calls a run with the given outcome makes, in order. -/
def callsOf {ε F : Type} (disk dir src dst : GoString) : Outcome ε F → List (Call F)
  | .openFailed _ => [.openFile disk (O_RDWR ||| O_CLOEXEC) 0o666]
  | .syncFailed f _ => [.openFile disk (O_RDWR ||| O_CLOEXEC) 0o666, .sync f, .close f]
  | .mkdirFailed f _ =>
    [.openFile disk (O_RDWR ||| O_CLOEXEC) 0o666, .sync f, .mkdirAll dir 0o600, .close f]
  | .copyFailed f _ =>
    [.openFile disk (O_RDWR ||| O_CLOEXEC) 0o666, .sync f, .mkdirAll dir 0o600,
      .copyFile src dst, .close f]
  | .allSucceeded f =>
    [.openFile disk (O_RDWR ||| O_CLOEXEC) 0o666, .sync f, .mkdirAll dir 0o600,
      .copyFile src dst, .close f]

/-- The effect of one call on the state of the system. -/
def Sys.effect {σ ε F : Type} (sys : Sys σ ε F) : Call F → σ → σ
  | .openFile name flag perm, s => (sys.OpenFile name flag perm s).2
  | .sync f, s => (sys.Sync f s).2
  | .close f, s => (sys.Close f s).2
  | .mkdirAll path perm, s => (sys.MkdirAll path perm s).2
  | .copyFile src dst, s => (sys.CopyFile src dst s).2

/-- The state after a sequence of calls, made in order. -/
def Sys.effects {σ ε F : Type} (sys : Sys σ ε F) (calls : List (Call F)) (s : σ) : σ :=
  calls.foldl (fun s c => sys.effect c s) s

/-- Did the open and the sync both succeed? -/
def Outcome.synced {ε F : Type} : Outcome ε F → Bool
  | .openFailed _ => false
  | .syncFailed _ _ => false
  | _ => true

/-- The outcome of the steps of an `Install` with device tree `dtb` on the system `sys`
from the state `s`. -/
def stepsOutcome {σ ε F T : Type} (dtb : GoString) (sys : Sys σ ε F)
    (options : InstallOptions T) (s : σ) : Outcome ε F :=
  outcomeOf sys options.InstallDisk (filepath.Dir (dstPath dtb options.MountPrefix))
    (srcPath dtb options.ArtifactsPath) (dstPath dtb options.MountPrefix) s

/-- The calls of a run of `Install` with device tree `dtb` that has the outcome `o`. -/
def stepsCalls {ε F T : Type} (dtb : GoString) (options : InstallOptions T)
    (o : Outcome ε F) : List (Call F) :=
  callsOf options.InstallDisk (filepath.Dir (dstPath dtb options.MountPrefix))
    (srcPath dtb options.ArtifactsPath) (dstPath dtb options.MountPrefix) o

/-- The first call after the first `Sync` in a log. -/
def nextAfterSync {F : Type} : List (Call F) → Option (Call F)
  | [] => none
  | .sync _ :: rest => rest.head?
  | _ :: rest => nextAfterSync rest

/-- A file system for the examples: `/mnt` is an empty directory owned by user 1000,
`/art` holds the AGX Orin device tree with bytes `1, 2, 3` and the Orin Nano device tree
with bytes `4, 5, 6`, `/disk.img` is the disk image; the three files belong to user 1000
and have mode `0o644`.  The process runs as `euid` with umask 022. -/
def imgFS (euid : Nat) : FS where
  nodes := fun l =>
    if l = [] then some (.dir 0 0 0o755)
    else if l = ["mnt".toList] then some (.dir 1000 1000 0o755)
    else if l = ["art".toList] then some (.dir 1000 1000 0o755)
    else if l = ["art".toList, "arm64".toList] then some (.dir 1000 1000 0o755)
    else if l = ["art".toList, "arm64".toList, "dtb".toList] then some (.dir 1000 1000 0o755)
    else if l = ["art".toList, "arm64".toList, "dtb".toList, "nvidia".toList] then
      some (.dir 1000 1000 0o755)
    else if l = ["art".toList, "arm64".toList, "dtb".toList, "nvidia".toList,
        "tegra234-p3701-0000+p3737-0000.dtb".toList] then
      some (.file 1000 1000 0o644 [1, 2, 3])
    else if l = ["art".toList, "arm64".toList, "dtb".toList, "nvidia".toList,
        "tegra234-p3768-0000+p3767-0000.dtb".toList] then
      some (.file 1000 1000 0o644 [4, 5, 6])
    else if l = ["disk.img".toList] then some (.file 1000 1000 0o644 [9])
    else none
  cwd := []
  euid := euid
  egid := euid
  umask := 0o022

/-- A file system for the examples in which the destination directory
`/mnt/boot/EFI/dtb/nvidia` exists already (owned by user 1000, mode `0o755`) and the
two device trees under `/art` belong to user 1000 and have mode `srcMode`.  The process
runs as user 1000 with umask 022. -/
def preparedFS (srcMode : Nat) : FS where
  nodes := fun l =>
    if l = [] then some (.dir 0 0 0o755)
    else if l = ["mnt".toList] then some (.dir 1000 1000 0o755)
    else if l = ["mnt".toList, "boot".toList] then some (.dir 1000 1000 0o755)
    else if l = ["mnt".toList, "boot".toList, "EFI".toList] then some (.dir 1000 1000 0o755)
    else if l = ["mnt".toList, "boot".toList, "EFI".toList, "dtb".toList] then
      some (.dir 1000 1000 0o755)
    else if l = ["mnt".toList, "boot".toList, "EFI".toList, "dtb".toList, "nvidia".toList] then
      some (.dir 1000 1000 0o755)
    else if l = ["art".toList] then some (.dir 1000 1000 0o755)
    else if l = ["art".toList, "arm64".toList] then some (.dir 1000 1000 0o755)
    else if l = ["art".toList, "arm64".toList, "dtb".toList] then some (.dir 1000 1000 0o755)
    else if l = ["art".toList, "arm64".toList, "dtb".toList, "nvidia".toList] then
      some (.dir 1000 1000 0o755)
    else if l = ["art".toList, "arm64".toList, "dtb".toList, "nvidia".toList,
        "tegra234-p3701-0000+p3737-0000.dtb".toList] then
      some (.file 1000 1000 srcMode [1, 2, 3])
    else if l = ["art".toList, "arm64".toList, "dtb".toList, "nvidia".toList,
        "tegra234-p3768-0000+p3767-0000.dtb".toList] then
      some (.file 1000 1000 srcMode [4, 5, 6])
    else if l = ["disk.img".toList] then some (.file 1000 1000 0o644 [9])
    else none
  cwd := []
  euid := 1000
  egid := 1000
  umask := 0o022

/-- Install options for the examples. -/
def imgOptions (T : Type) (extra : T) (disk : String) : InstallOptions T where
  InstallDisk := disk.toList
  MountPrefix := "/mnt".toList
  ArtifactsPath := "/art".toList
  ExtraOptions := extra

/-- Install options for the examples, with the artifacts under `artifacts`. -/
def imgOptionsAt (T : Type) (extra : T) (disk artifacts : String) : InstallOptions T where
  InstallDisk := disk.toList
  MountPrefix := "/mnt".toList
  ArtifactsPath := artifacts.toList
  ExtraOptions := extra

/-! ## Definitions used in the proofs

`Clean` is described on path components: the state is the number of leading `..`
elements kept so far and the stack of names kept so far. -/

/-- One step of the component-level description of `Clean`: the state is the number of
leading `..` elements kept and the stack of names kept (newest first). -/
def stepComp (rooted : Bool) (st : Nat × List Name) (c : Name) : Nat × List Name :=
  if c = ['.'] then st
  else if c = ['.', '.'] then
    match st.2 with
    | _ :: ns => (st.1, ns)
    | [] => if rooted = true then st else (st.1 + 1, [])
  else (st.1, c :: st.2)

/-- The buffer after appending the element `n` (with a separator if needed). -/
def push (rooted : Bool) (out : List Char) (n : Name) : List Char :=
  n.reverse ++
    (if (rooted = true ∧ out.length ≠ 1) ∨ (rooted = false ∧ out.length ≠ 0) then '/' :: out
     else out)

/-- The buffer holding `k` elements `..` (newest character first). -/
def dots : Nat → List Char
  | 0 => []
  | k + 1 => '.' :: '.' :: (if 0 < (dots k).length then '/' :: dots k else dots k)

/-- The buffer of `Clean` in a component-level state (newest character first). -/
def rbuf (rooted : Bool) (st : Nat × List Name) : List Char :=
  st.2.foldr (fun n out => push rooted out n) (if rooted = true then ['/'] else dots st.1)

/-- The value of `dotdot` in a component-level state. -/
def ddOf (rooted : Bool) (k : Nat) : Nat :=
  if rooted = true then 1 else (dots k).length

/-- A path element as `splitPath` yields them: not empty, no separator inside. -/
def IsElem (n : Name) : Prop := n ≠ [] ∧ '/' ∉ n

/-- The component-level states that occur. -/
def ValidSt (rooted : Bool) (st : Nat × List Name) : Prop :=
  (rooted = true → st.1 = 0) ∧ ∀ n ∈ st.2, IsElem n

/-- The elements of the path a component-level state stands for, in order. -/
def compsOf (st : Nat × List Name) : List Name :=
  List.replicate st.1 ['.', '.'] ++ st.2.reverse

/-- A name that `Clean` keeps as it is: a path element other than `.` and `..`. -/
def IsName (n : Name) : Prop := IsElem n ∧ n ≠ ['.'] ∧ n ≠ ['.', '.']

/-- The component-level states reached from the initial one. -/
def NormalSt (rooted : Bool) (st : Nat × List Name) : Prop :=
  (rooted = true → st.1 = 0) ∧ ∀ n ∈ st.2, IsName n

/-- The result of `Clean` in a component-level state. -/
def render (rooted : Bool) (st : Nat × List Name) : GoString :=
  if (rbuf rooted st).length = 0 then ['.'] else (rbuf rooted st).reverse

/-- Is the path that `dstPath` cleans rooted?  The second element, `/boot/EFI/dtb`,
starts with a separator, so an empty mount prefix gives a rooted path. -/
def dstRooted (m : GoString) : Bool :=
  decide (m = []) || decide (m.head? = some '/')

/-- Is the path that `srcPath` cleans rooted? -/
def srcRooted (a : GoString) : Bool :=
  decide (a.head? = some '/')

/-- The component-level state of `Clean` after reading the path `m`. -/
def stOf (rooted : Bool) (m : GoString) : Nat × List Name :=
  (splitPath m).foldl (stepComp rooted) (0, [])

/-- The same process in a file system where every directory of `fs` is still the same
directory and every regular file of `fs` is still a regular file. -/
def FS.Pres (fs fs' : FS) : Prop :=
  fs'.cwd = fs.cwd ∧ fs'.euid = fs.euid ∧ fs'.egid = fs.egid ∧ fs'.umask = fs.umask ∧
    (∀ l u g m, fs.nodes l = some (.dir u g m) → fs'.nodes l = some (.dir u g m)) ∧
    (∀ l u g m d, fs.nodes l = some (.file u g m d) →
      ∃ u' g' m' d', fs'.nodes l = some (.file u' g' m' d'))

/-- The same process in a file system that differs from `fs` only by new directories,
owned by the process, with mode `perm &^ umask`. -/
def FS.Grew (perm : Nat) (fs fs' : FS) : Prop :=
  fs'.cwd = fs.cwd ∧ fs'.euid = fs.euid ∧ fs'.egid = fs.egid ∧ fs'.umask = fs.umask ∧
    ∀ l, fs'.nodes l = fs.nodes l ∨
      (fs.nodes l = none ∧
        fs'.nodes l = some (.dir fs.euid fs.egid (perm ^^^ (perm &&& fs.umask))))

/-- The working directory of the process and all its ancestors exist. -/
def FS.CwdExists (fs : FS) : Prop :=
  ∀ j, fs.nodes (List.dropLast^[j] fs.cwd) ≠ none

/-- The location `cur` is where the cleaned path of the component-level state `st`
leads from `start`, every directory on the way being searchable. -/
def Reach (fs : FS) (start : Loc) (rooted : Bool) (k : Nat) : List Name → Loc → Prop
  | [], cur => fs.walk start (List.replicate k ['.', '.']) = .ok cur ∧ (rooted = true → cur = [])
  | n :: ns, cur => ∃ prev, cur = prev ++ [n] ∧ Reach fs start rooted k ns prev ∧
      fs.searchable prev = none

/-! ## Theorems -/

open filepath

section Abstract
variable {σ ε F T : Type}

theorem agx_Install_eq (sys : Sys σ ε F)
    (options : InstallOptions jetson_agx_orin.jetsonAGXOrinExtraOptions) (w : World σ F) :
    jetson_agx_orin.JetsonAGXOrinInstaller.Install sys options w
      = installWith jetson_agx_orin.dtb sys options w := by
  unfold jetson_agx_orin.JetsonAGXOrinInstaller.Install installWith
    jetson_agx_orin.JetsonAGXOrinInstaller.installBody
  rfl

theorem nano_Install_eq (sys : Sys σ ε F)
    (options : InstallOptions jetson_orin_nano.jetsonOrinNanoExtraOptions) (w : World σ F) :
    jetson_orin_nano.JetsonOrinNanoInstaller.Install sys options w
      = installWith jetson_orin_nano.dtb sys options w := by
  unfold jetson_orin_nano.JetsonOrinNanoInstaller.Install installWith
    jetson_orin_nano.JetsonOrinNanoInstaller.installBody
  rfl

theorem installWith_error (dtb : GoString) (sys : Sys σ ε F) (options : InstallOptions T)
    (w : World σ F) :
    (installWith dtb sys options w).1
      = (outcomeOf sys options.InstallDisk (filepath.Dir (dstPath dtb options.MountPrefix))
          (srcPath dtb options.ArtifactsPath) (dstPath dtb options.MountPrefix) w.st).firstError := by
  unfold installWith outcomeOf os.OpenFile File.Sync os.MkdirAll copy.File File.Close
    srcPath dstPath
  rcases h1 : sys.OpenFile options.InstallDisk (O_RDWR ||| O_CLOEXEC) 0o666 w.st with ⟨_ | f, s1⟩
  · simp [Outcome.firstError]
  · simp only []
    rcases h2 : sys.Sync f s1 with ⟨_ | e2, s2⟩
    · simp only []
      rcases h3 : sys.MkdirAll (filepath.Dir (filepath.Join [options.MountPrefix, "/boot/EFI/dtb".toList, dtb])) 0o600 s2 with ⟨_ | e3, s3⟩
      · simp only []
        rcases h4 : sys.CopyFile (filepath.Join [options.ArtifactsPath, "arm64/dtb".toList, dtb]) (filepath.Join [options.MountPrefix, "/boot/EFI/dtb".toList, dtb]) s3 with ⟨_ | e4, s4⟩
        · simp [Outcome.firstError]
        · simp [Outcome.firstError]
      · simp [Outcome.firstError]
    · simp [Outcome.firstError]

theorem installWith_log (dtb : GoString) (sys : Sys σ ε F) (options : InstallOptions T)
    (w : World σ F) :
    (installWith dtb sys options w).2.log
      = w.log ++ callsOf options.InstallDisk (filepath.Dir (dstPath dtb options.MountPrefix))
          (srcPath dtb options.ArtifactsPath) (dstPath dtb options.MountPrefix)
        (outcomeOf sys options.InstallDisk (filepath.Dir (dstPath dtb options.MountPrefix))
          (srcPath dtb options.ArtifactsPath) (dstPath dtb options.MountPrefix) w.st) := by
  unfold installWith outcomeOf os.OpenFile File.Sync os.MkdirAll copy.File File.Close
    srcPath dstPath
  rcases h1 : sys.OpenFile options.InstallDisk (O_RDWR ||| O_CLOEXEC) 0o666 w.st with ⟨_ | f, s1⟩
  · simp [callsOf]
  · simp only []
    rcases h2 : sys.Sync f s1 with ⟨_ | e2, s2⟩
    · simp only []
      rcases h3 : sys.MkdirAll (filepath.Dir (filepath.Join [options.MountPrefix, "/boot/EFI/dtb".toList, dtb])) 0o600 s2 with ⟨_ | e3, s3⟩
      · simp only []
        rcases h4 : sys.CopyFile (filepath.Join [options.ArtifactsPath, "arm64/dtb".toList, dtb]) (filepath.Join [options.MountPrefix, "/boot/EFI/dtb".toList, dtb]) s3 with ⟨_ | e4, s4⟩
        · simp [callsOf]
        · simp [callsOf]
      · simp [callsOf]
    · simp [callsOf]

theorem installWith_st (dtb : GoString) (sys : Sys σ ε F) (options : InstallOptions T)
    (w : World σ F) :
    (installWith dtb sys options w).2.st
      = sys.effects (callsOf options.InstallDisk (filepath.Dir (dstPath dtb options.MountPrefix))
          (srcPath dtb options.ArtifactsPath) (dstPath dtb options.MountPrefix)
        (outcomeOf sys options.InstallDisk (filepath.Dir (dstPath dtb options.MountPrefix))
          (srcPath dtb options.ArtifactsPath) (dstPath dtb options.MountPrefix) w.st)) w.st := by
  unfold installWith outcomeOf os.OpenFile File.Sync os.MkdirAll copy.File File.Close
    srcPath dstPath
  rcases h1 : sys.OpenFile options.InstallDisk (O_RDWR ||| O_CLOEXEC) 0o666 w.st with ⟨_ | f, s1⟩
  · simp only [callsOf, Sys.effects, Sys.effect, List.foldl, h1]
  · simp only []
    rcases h2 : sys.Sync f s1 with ⟨_ | e2, s2⟩
    · simp only []
      rcases h3 : sys.MkdirAll (filepath.Dir (filepath.Join [options.MountPrefix, "/boot/EFI/dtb".toList, dtb])) 0o600 s2 with ⟨_ | e3, s3⟩
      · simp only []
        rcases h4 : sys.CopyFile (filepath.Join [options.ArtifactsPath, "arm64/dtb".toList, dtb]) (filepath.Join [options.MountPrefix, "/boot/EFI/dtb".toList, dtb]) s3 with ⟨_ | e4, s4⟩
        · simp only [callsOf, Sys.effects, Sys.effect, List.foldl, h1, h2, h3, h4]
        · simp only [callsOf, Sys.effects, Sys.effect, List.foldl, h1, h2, h3, h4]
      · simp only [callsOf, Sys.effects, Sys.effect, List.foldl, h1, h2, h3]
    · simp only [callsOf, Sys.effects, Sys.effect, List.foldl, h1, h2]

end Abstract

/-! ### Path components -/

theorem splitAux_eq (cur p : List Char) :
    splitAux cur p =
      if cur.reverse ++ p.takeWhile (· ≠ '/') = [] then splitPath (p.dropWhile (· ≠ '/'))
      else (cur.reverse ++ p.takeWhile (· ≠ '/')) :: splitPath (p.dropWhile (· ≠ '/')) := by
  induction p generalizing cur with
  | nil => simp [splitAux, splitPath]
  | cons c cs ih =>
    by_cases hc : c = '/'
    · subst hc
      by_cases hcur : cur = [] <;> simp [splitAux, splitPath, hcur]
    · rw [splitAux, if_neg hc, ih]
      simp [hc]

theorem splitPath_nil : splitPath [] = [] := rfl

theorem splitPath_slash (rest : List Char) : splitPath ('/' :: rest) = splitPath rest := by
  simp [splitPath, splitAux]

theorem splitPath_cons (c : Char) (rest : List Char) (hc : c ≠ '/') :
    splitPath (c :: rest) =
      (c :: rest).takeWhile (· ≠ '/') :: splitPath ((c :: rest).dropWhile (· ≠ '/')) := by
  rw [splitPath, splitAux_eq]
  simp [hc]

theorem splitAux_append (cur A B : List Char) :
    splitAux cur (A ++ '/' :: B) = splitAux cur A ++ splitPath B := by
  induction A generalizing cur with
  | nil => by_cases hcur : cur = [] <;> simp [splitAux, splitPath, hcur]
  | cons a A ih =>
    by_cases ha : a = '/'
    · subst ha
      by_cases hcur : cur = [] <;> simp [splitAux, hcur, ih]
    · simp [splitAux, ha, ih]

theorem splitPath_append (A B : List Char) :
    splitPath (A ++ '/' :: B) = splitPath A ++ splitPath B :=
  splitAux_append [] A B

theorem splitPath_elem (n : Name) (h : IsElem n) : splitPath n = [n] := by
  obtain ⟨hne, hs⟩ := h
  cases n with
  | nil => exact absurd rfl hne
  | cons c cs =>
    have hc : c ≠ '/' := fun h => hs (h ▸ List.mem_cons_self _ _)
    rw [splitPath_cons c cs hc]
    have h1 : (c :: cs).takeWhile (· ≠ '/') = c :: cs := by
      rw [List.takeWhile_eq_self_iff]
      intro x hx
      have : x ≠ '/' := fun h => hs (h ▸ hx)
      simpa using this
    have h2 : (c :: cs).dropWhile (· ≠ '/') = [] := by
      rw [List.dropWhile_eq_nil_iff]
      intro x hx
      have : x ≠ '/' := fun h => hs (h ▸ hx)
      simpa using this
    rw [h1, h2, splitPath_nil]

theorem splitAux_isElem (cur p : List Char) (hcur : '/' ∉ cur) :
    ∀ n ∈ splitAux cur p, IsElem n := by
  induction p generalizing cur with
  | nil =>
    intro n hn
    by_cases h : cur = []
    · simp [splitAux, h] at hn
    · simp [splitAux, h] at hn
      subst hn
      exact ⟨by simpa using h, by simpa using hcur⟩
  | cons c cs ih =>
    intro n hn
    by_cases hc : c = '/'
    · subst hc
      by_cases h : cur = []
      · simp only [splitAux, h, if_true] at hn
        exact ih [] (by simp) n hn
      · simp only [splitAux, h, if_true, if_false] at hn
        rcases List.mem_cons.1 hn with rfl | hn
        · exact ⟨by simpa using h, by simpa using hcur⟩
        · exact ih [] (by simp) n hn
    · simp only [splitAux, hc, if_false] at hn
      refine ih (c :: cur) ?_ n hn
      intro hmem
      rcases List.mem_cons.1 hmem with h | h
      · exact hc h.symm
      · exact hcur h

theorem splitPath_isElem (p : List Char) : ∀ n ∈ splitPath p, IsElem n :=
  splitAux_isElem [] p (by simp)

/-! ### The buffer of `Clean` in component-level states -/

theorem backtrack_append (dd : Nat) (l out : List Char) (hl : ∀ c ∈ l, c ≠ '/') (hne : l ≠ []) :
    (dd ≤ out.length → backtrack dd (l ++ '/' :: out) = out) ∧
      (out.length = dd → backtrack dd (l ++ out) = out) := by
  induction l with
  | nil => exact absurd rfl hne
  | cons c l ih =>
    have hc : c ≠ '/' := hl c (List.mem_cons_self _ _)
    have hl' : ∀ x ∈ l, x ≠ '/' := fun x hx => hl x (List.mem_cons_of_mem _ hx)
    cases l with
    | nil =>
      constructor
      · intro h
        have h1 : dd < out.length + 1 := by omega
        simp [backtrack, hc, h1]
      · intro h
        simp [backtrack, h]
    | cons c' l' =>
      obtain ⟨ih1, ih2⟩ := ih hl' (by simp)
      constructor
      · intro h
        have h1 : dd < (c' :: l' ++ '/' :: out).length := by simp; omega
        rw [List.cons_append, backtrack, if_pos ⟨h1, hc⟩]
        exact ih1 h
      · intro h
        have h1 : dd < (c' :: l' ++ out).length := by simp; omega
        rw [List.cons_append, backtrack, if_pos ⟨h1, hc⟩]
        exact ih2 h

theorem push_length (rooted : Bool) (out : List Char) (n : Name) :
    out.length ≤ (push rooted out n).length := by
  unfold push
  split
  · simp; omega
  · simp

theorem rbuf_cons (rooted : Bool) (k : Nat) (n : Name) (ns : List Name) :
    rbuf rooted (k, n :: ns) = push rooted (rbuf rooted (k, ns)) n := rfl

theorem ddOf_le_rbuf (rooted : Bool) (k : Nat) (ns : List Name) :
    ddOf rooted k ≤ (rbuf rooted (k, ns)).length := by
  induction ns with
  | nil => cases rooted <;> simp [rbuf, ddOf]
  | cons n ns ih =>
    rw [rbuf_cons]
    exact le_trans ih (push_length _ _ _)

theorem backtrack_push (rooted : Bool) (k : Nat) (n : Name) (ns : List Name) (hn : IsElem n) :
    backtrack (ddOf rooted k) (push rooted (rbuf rooted (k, ns)) n) = rbuf rooted (k, ns) := by
  have hle := ddOf_le_rbuf rooted k ns
  have hl : ∀ c ∈ n.reverse, c ≠ '/' := by
    intro c hc h
    exact hn.2 (h ▸ List.mem_reverse.1 hc)
  have hne : n.reverse ≠ [] := by simpa using hn.1
  obtain ⟨h1, h2⟩ := backtrack_append (ddOf rooted k) n.reverse (rbuf rooted (k, ns)) hl hne
  unfold push
  split
  · exact h1 hle
  · rename_i hsep
    apply h2
    cases rooted
    · have hlen : (rbuf false (k, ns)).length = 0 := by simpa using hsep
      omega
    · have hlen : (rbuf true (k, ns)).length = 1 := by simpa using hsep
      simp [ddOf, hlen]

theorem rbuf_length_pos_of_cons (rooted : Bool) (k : Nat) (n : Name) (ns : List Name)
    (hn : IsElem n) : ddOf rooted k < (rbuf rooted (k, n :: ns)).length := by
  have hle := ddOf_le_rbuf rooted k ns
  have : 0 < n.length := List.length_pos.2 hn.1
  rw [rbuf_cons]
  unfold push
  split
  · simp; omega
  · simp; omega

theorem rbuf_nil_length (rooted : Bool) (k : Nat) :
    (rbuf rooted (k, [])).length = ddOf rooted k := by
  cases rooted <;> simp [rbuf, ddOf]

theorem stepComp_valid (rooted : Bool) (st : Nat × List Name) (c : Name) (hst : ValidSt rooted st)
    (hc : IsElem c) : ValidSt rooted (stepComp rooted st c) := by
  obtain ⟨k, ns⟩ := st
  obtain ⟨h1, h2⟩ := hst
  unfold stepComp
  split
  · exact ⟨h1, h2⟩
  · split
    · cases ns with
      | nil =>
        cases rooted
        · exact ⟨by simp, by simp⟩
        · exact ⟨h1, h2⟩
      | cons n ns => exact ⟨h1, fun m hm => h2 m (List.mem_cons_of_mem _ hm)⟩
    · refine ⟨h1, ?_⟩
      intro m hm
      rcases List.mem_cons.1 hm with rfl | hm
      · exact hc
      · exact h2 m hm

theorem foldl_stepComp_valid (rooted : Bool) (cs : List Name) (st : Nat × List Name)
    (hst : ValidSt rooted st) (hcs : ∀ c ∈ cs, IsElem c) :
    ValidSt rooted (cs.foldl (stepComp rooted) st) := by
  induction cs generalizing st with
  | nil => exact hst
  | cons c cs ih =>
    exact ih _ (stepComp_valid rooted st c hst (hcs c (List.mem_cons_self _ _)))
      (fun d hd => hcs d (List.mem_cons_of_mem _ hd))

/-! ### `Clean` computes the component-level result -/

theorem splitPath_dot (rest : List Char) (h : rest = [] ∨ rest.head? = some '/') :
    splitPath ('.' :: rest) = ['.'] :: splitPath rest := by
  rw [splitPath_cons '.' rest (by decide)]
  cases rest with
  | nil => simp
  | cons d r =>
    have hd : d = '/' := by simpa using h
    subst hd
    simp

theorem splitPath_dotdot (rest : List Char) (h : rest = [] ∨ rest.head? = some '/') :
    splitPath ('.' :: '.' :: rest) = ['.', '.'] :: splitPath rest := by
  rw [splitPath_cons '.' _ (by decide)]
  cases rest with
  | nil => simp
  | cons d r =>
    have hd : d = '/' := by simpa using h
    subst hd
    simp

theorem takeWhile_ne_dot (c : Char) (rest : List Char) (hc : c ≠ '/')
    (h : ¬(c = '.' ∧ (rest = [] ∨ rest.head? = some '/'))) :
    (c :: rest).takeWhile (· ≠ '/') ≠ ['.'] := by
  intro heq
  apply h
  cases rest with
  | nil => simpa [List.takeWhile, hc] using heq
  | cons d r =>
    by_cases hd : d = '/'
    · subst hd
      simpa [List.takeWhile, hc] using heq
    · simp [List.takeWhile, hc, hd] at heq

theorem takeWhile_ne_dotdot (c : Char) (rest : List Char) (hc : c ≠ '/')
    (h : ¬(c = '.' ∧ rest.head? = some '.' ∧ (rest.tail = [] ∨ rest.tail.head? = some '/'))) :
    (c :: rest).takeWhile (· ≠ '/') ≠ ['.', '.'] := by
  intro heq
  apply h
  cases rest with
  | nil => simp [List.takeWhile, hc] at heq
  | cons d r =>
    by_cases hd : d = '/'
    · subst hd
      simp [List.takeWhile, hc] at heq
    · cases r with
      | nil => simpa [List.takeWhile, hc, hd] using heq
      | cons e r' =>
        by_cases he : e = '/'
        · subst he
          simpa [List.takeWhile, hc, hd] using heq
        · simp [List.takeWhile, hc, hd, he] at heq

theorem cleanLoop_spec (rooted : Bool) (fuel : Nat) :
    ∀ (path : List Char) (st : Nat × List Name), path.length ≤ fuel → ValidSt rooted st →
      cleanLoop rooted fuel path (rbuf rooted st) (ddOf rooted st.1)
        = rbuf rooted ((splitPath path).foldl (stepComp rooted) st) := by
  induction fuel with
  | zero =>
    intro path st h _
    have hp : path = [] := List.eq_nil_of_length_eq_zero (Nat.le_zero.1 h)
    subst hp
    simp [cleanLoop, splitPath_nil]
  | succ fuel ih =>
    intro path st h hst
    cases path with
    | nil => simp [cleanLoop, splitPath_nil]
    | cons c rest =>
      have hrest : rest.length ≤ fuel := by simpa using h
      rw [cleanLoop]
      by_cases h1 : c = '/'
      · subst h1
        rw [if_pos rfl, splitPath_slash]
        exact ih rest st hrest hst
      · rw [if_neg h1]
        by_cases h2 : c = '.' ∧ (rest = [] ∨ rest.head? = some '/')
        · rw [if_pos h2]
          obtain ⟨rfl, h2'⟩ := h2
          rw [splitPath_dot rest h2', List.foldl_cons]
          have : stepComp rooted st ['.'] = st := by simp [stepComp]
          rw [this]
          exact ih rest st hrest hst
        · rw [if_neg h2]
          by_cases h3 : c = '.' ∧ rest.head? = some '.' ∧
              (rest.tail = [] ∨ rest.tail.head? = some '/')
          · rw [if_pos h3]
            obtain ⟨rfl, h3a, h3b⟩ := h3
            cases rest with
            | nil => simp at h3a
            | cons d r =>
              have hd : d = '.' := by simpa using h3a
              subst hd
              simp only [List.tail_cons] at h3b ⊢
              have hr : r.length ≤ fuel := by simp at hrest; omega
              rw [splitPath_dotdot r h3b, List.foldl_cons]
              obtain ⟨k, ns⟩ := st
              cases ns with
              | nil =>
                have hlen : ¬ (ddOf rooted k < (rbuf rooted (k, [])).length) := by
                  rw [rbuf_nil_length]; exact lt_irrefl _
                rw [if_neg hlen]
                cases rooted with
                | true =>
                  simp only [Bool.true_eq_false, if_false]
                  have : stepComp true (k, []) ['.', '.'] = (k, []) := by simp [stepComp]
                  rw [this]
                  exact ih r (k, []) hr hst
                | false =>
                  simp only [if_true]
                  have hs : stepComp false (k, []) ['.', '.'] = (k + 1, []) := by simp [stepComp]
                  rw [hs]
                  have hv : ValidSt false (k + 1, []) := ⟨by simp, by simp⟩
                  have := ih r (k + 1, []) hr hv
                  simpa [rbuf, ddOf, dots] using this
              | cons n ns =>
                have hn : IsElem n := hst.2 n (List.mem_cons_self _ _)
                rw [if_pos (rbuf_length_pos_of_cons rooted k n ns hn)]
                have hs : stepComp rooted (k, n :: ns) ['.', '.'] = (k, ns) := by simp [stepComp]
                rw [hs, rbuf_cons, backtrack_push rooted k n ns hn]
                exact ih r (k, ns) hr ⟨hst.1, fun m hm => hst.2 m (List.mem_cons_of_mem _ hm)⟩
          · rw [if_neg h3, splitPath_cons c rest h1, List.foldl_cons]
            have hne1 := takeWhile_ne_dot c rest h1 h2
            have hne2 := takeWhile_ne_dotdot c rest h1 h3
            have hs : stepComp rooted st ((c :: rest).takeWhile (· ≠ '/'))
                = (st.1, (c :: rest).takeWhile (· ≠ '/') :: st.2) := by
              simp only [stepComp, if_neg hne1, if_neg hne2]
            rw [hs]
            have helem : IsElem ((c :: rest).takeWhile (· ≠ '/')) := by
              have := splitPath_isElem (c :: rest)
              rw [splitPath_cons c rest h1] at this
              exact this _ (List.mem_cons_self _ _)
            have hv : ValidSt rooted (st.1, (c :: rest).takeWhile (· ≠ '/') :: st.2) := by
              refine ⟨hst.1, ?_⟩
              intro m hm
              rcases List.mem_cons.1 hm with rfl | hm
              · exact helem
              · exact hst.2 m hm
            have hlen : ((c :: rest).dropWhile (· ≠ '/')).length ≤ fuel := by
              have : ((c :: rest).dropWhile (· ≠ '/')) = rest.dropWhile (· ≠ '/') := by
                simp [List.dropWhile, h1]
              rw [this]
              exact le_trans (List.Sublist.length_le (List.dropWhile_sublist _)) hrest
            have := ih _ _ hlen hv
            rw [← this]
            rfl

theorem NormalSt.valid {rooted : Bool} {st : Nat × List Name} (h : NormalSt rooted st) :
    ValidSt rooted st :=
  ⟨h.1, fun n hn => (h.2 n hn).1⟩

theorem stepComp_normal (rooted : Bool) (st : Nat × List Name) (c : Name)
    (hst : NormalSt rooted st) (hc : IsElem c) : NormalSt rooted (stepComp rooted st c) := by
  obtain ⟨k, ns⟩ := st
  obtain ⟨h1, h2⟩ := hst
  unfold stepComp
  split
  · exact ⟨h1, h2⟩
  · rename_i hdot
    split
    · cases ns with
      | nil =>
        cases rooted
        · exact ⟨by simp, by simp⟩
        · exact ⟨h1, h2⟩
      | cons n ns => exact ⟨h1, fun m hm => h2 m (List.mem_cons_of_mem _ hm)⟩
    · rename_i hdd
      refine ⟨h1, ?_⟩
      intro m hm
      rcases List.mem_cons.1 hm with rfl | hm
      · exact ⟨hc, hdot, hdd⟩
      · exact h2 m hm

theorem foldl_stepComp_normal (rooted : Bool) (cs : List Name) (st : Nat × List Name)
    (hst : NormalSt rooted st) (hcs : ∀ c ∈ cs, IsElem c) :
    NormalSt rooted (cs.foldl (stepComp rooted) st) := by
  induction cs generalizing st with
  | nil => exact hst
  | cons c cs ih =>
    exact ih _ (stepComp_normal rooted st c hst (hcs c (List.mem_cons_self _ _)))
      (fun d hd => hcs d (List.mem_cons_of_mem _ hd))

theorem foldl_stepComp_names (rooted : Bool) (l : List Name) (k : Nat) (acc : List Name)
    (hl : ∀ n ∈ l, IsName n) :
    l.foldl (stepComp rooted) (k, acc) = (k, l.reverse ++ acc) := by
  induction l generalizing acc with
  | nil => rfl
  | cons n l ih =>
    have hn := hl n (List.mem_cons_self _ _)
    have hs : stepComp rooted (k, acc) n = (k, n :: acc) := by
      simp only [stepComp, if_neg hn.2.1, if_neg hn.2.2]
    rw [List.foldl_cons, hs, ih _ (fun m hm => hl m (List.mem_cons_of_mem _ hm))]
    simp

theorem foldl_stepComp_dots (k j : Nat) :
    (List.replicate k ['.', '.']).foldl (stepComp false) (j, []) = (j + k, []) := by
  induction k generalizing j with
  | zero => rfl
  | succ k ih =>
    have hs : stepComp false (j, []) ['.', '.'] = (j + 1, []) := by simp [stepComp]
    rw [List.replicate_succ, List.foldl_cons, hs, ih]
    congr 1
    omega

theorem foldl_stepComp_compsOf (rooted : Bool) (st : Nat × List Name) (hst : NormalSt rooted st) :
    (compsOf st).foldl (stepComp rooted) (0, []) = st := by
  obtain ⟨k, ns⟩ := st
  unfold compsOf
  rw [List.foldl_append]
  have hk : (List.replicate k ['.', '.']).foldl (stepComp rooted) (0, []) = (k, []) := by
    cases rooted
    · simpa using foldl_stepComp_dots k 0
    · have : k = 0 := hst.1 rfl
      subst this
      rfl
  rw [hk, foldl_stepComp_names rooted ns.reverse k [] (fun n hn => hst.2 n (List.mem_reverse.1 hn))]
  simp

theorem dots_eq_nil (k : Nat) (h : dots k = []) : k = 0 := by
  cases k with
  | zero => rfl
  | succ k => simp [dots] at h

theorem splitPath_dots (k : Nat) : splitPath (dots k).reverse = List.replicate k ['.', '.'] := by
  induction k with
  | zero => rfl
  | succ k ih =>
    rw [dots]
    split
    · rename_i h
      have : ('.' :: '.' :: '/' :: dots k).reverse = (dots k).reverse ++ '/' :: ['.', '.'] := by
        simp
      rw [this, splitPath_append, ih, List.replicate_succ']
      rfl
    · rename_i h
      have h0 : dots k = [] := by
        cases hd : dots k with
        | nil => rfl
        | cons a b => rw [hd] at h; simp at h
      have hk := dots_eq_nil k h0
      subst hk
      rfl

theorem rbuf_nosep_nil (rooted : Bool) (k : Nat) (ns : List Name) (hst : ValidSt rooted (k, ns))
    (h : ¬((rooted = true ∧ (rbuf rooted (k, ns)).length ≠ 1) ∨
      (rooted = false ∧ (rbuf rooted (k, ns)).length ≠ 0))) :
    ns = [] ∧ k = 0 := by
  cases ns with
  | nil =>
    refine ⟨rfl, ?_⟩
    cases rooted
    · have : (rbuf false (k, [])).length = 0 := by simpa using h
      exact dots_eq_nil k (List.eq_nil_of_length_eq_zero (by simpa [rbuf] using this))
    · exact hst.1 rfl
  | cons n ns =>
    exfalso
    have hpos := rbuf_length_pos_of_cons rooted k n ns (hst.2 n (List.mem_cons_self _ _))
    cases rooted
    · have : (rbuf false (k, n :: ns)).length = 0 := by simpa using h
      omega
    · have : (rbuf true (k, n :: ns)).length = 1 := by simpa using h
      simp [ddOf] at hpos
      omega

theorem splitPath_rbuf (rooted : Bool) (k : Nat) (ns : List Name)
    (hst : ValidSt rooted (k, ns)) :
    splitPath (rbuf rooted (k, ns)).reverse = compsOf (k, ns) := by
  induction ns with
  | nil =>
    cases rooted
    · simpa [rbuf, compsOf] using splitPath_dots k
    · have : k = 0 := hst.1 rfl
      subst this
      rfl
  | cons n ns ih =>
    have hst' : ValidSt rooted (k, ns) := ⟨hst.1, fun m hm => hst.2 m (List.mem_cons_of_mem _ hm)⟩
    have hn : IsElem n := hst.2 n (List.mem_cons_self _ _)
    rw [rbuf_cons]
    unfold push
    split
    · have : (n.reverse ++ '/' :: rbuf rooted (k, ns)).reverse
          = (rbuf rooted (k, ns)).reverse ++ '/' :: n := by simp
      rw [this, splitPath_append, ih hst', splitPath_elem n hn]
      simp [compsOf]
    · rename_i h
      obtain ⟨hns, hk⟩ := rbuf_nosep_nil rooted k ns hst' h
      subst hns hk
      cases rooted
      · simpa [rbuf, dots, compsOf] using splitPath_elem n hn
      · simpa [rbuf, compsOf, splitPath_slash] using splitPath_elem n hn

theorem rbuf_true_last (k : Nat) (ns : List Name) :
    ∃ X, rbuf true (k, ns) = X ++ ['/'] := by
  induction ns with
  | nil => exact ⟨[], rfl⟩
  | cons n ns ih =>
    obtain ⟨X, hX⟩ := ih
    rw [rbuf_cons]
    unfold push
    split
    · exact ⟨n.reverse ++ '/' :: X, by simp [hX]⟩
    · exact ⟨n.reverse ++ X, by simp [hX]⟩

theorem dots_getLast (k : Nat) : (dots k).getLast? ≠ some '/' := by
  induction k with
  | zero => simp [dots]
  | succ k ih =>
    rw [dots]
    split
    · rename_i h
      cases hd : dots k with
      | nil => rw [hd] at h; simp at h
      | cons a b =>
        rw [hd] at ih
        simpa [List.getLast?_cons_cons] using ih
    · rename_i h
      have h0 : dots k = [] := by
        cases hd : dots k with
        | nil => rfl
        | cons a b => rw [hd] at h; simp at h
      rw [h0]
      decide

theorem rbuf_false_last (k : Nat) (ns : List Name) (hst : ValidSt false (k, ns)) :
    (rbuf false (k, ns)).getLast? ≠ some '/' := by
  induction ns with
  | nil => simpa [rbuf] using dots_getLast k
  | cons n ns ih =>
    have hst' : ValidSt false (k, ns) := ⟨hst.1, fun m hm => hst.2 m (List.mem_cons_of_mem _ hm)⟩
    have hn : IsElem n := hst.2 n (List.mem_cons_self _ _)
    have ih' := ih hst'
    rw [rbuf_cons]
    unfold push
    split
    · rw [List.getLast?_append]
      cases hb : rbuf false (k, ns) with
      | nil => simp [hb] at *
      | cons a b =>
        rw [hb] at ih'
        simpa [List.getLast?_cons_cons] using ih'
    · rename_i h
      obtain ⟨hns, hk⟩ := rbuf_nosep_nil false k ns hst' h
      subst hns hk
      simp only [rbuf, dots, List.foldr_nil, Bool.false_eq_true, if_false, List.append_nil]
      rw [List.getLast?_reverse]
      intro hh
      have : '/' ∈ n := List.mem_of_mem_head? hh
      exact hn.2 this

theorem Clean_eq (p : GoString) (hp : p ≠ []) :
    Clean p = render (decide (p.head? = some '/'))
      ((splitPath p).foldl (stepComp (decide (p.head? = some '/'))) (0, [])) := by
  cases p with
  | nil => exact absurd rfl hp
  | cons c rest =>
    unfold Clean render
    by_cases hc : c = '/'
    · subst hc
      have h := cleanLoop_spec true ('/' :: rest).length rest (0, []) (by simp)
        ⟨fun _ => rfl, by simp⟩
      have hb : rbuf true (0, []) = ['/'] := rfl
      have hd : ddOf true ((0, []) : Nat × List Name).1 = 1 := rfl
      rw [hb, hd] at h
      simp only [if_true, List.head?_cons, decide_True, splitPath_slash]
      rw [h]
    · have h := cleanLoop_spec false (c :: rest).length (c :: rest) (0, []) (le_refl _)
        ⟨by simp, by simp⟩
      have hb : rbuf false (0, []) = [] := rfl
      have hd : ddOf false ((0, []) : Nat × List Name).1 = 0 := rfl
      rw [hb, hd] at h
      have hdec : decide ((c :: rest).head? = some '/') = false := by simp [hc]
      simp only [if_neg hc, hdec]
      rw [h]

theorem rbuf_cons_cons (rooted : Bool) (k : Nat) (f n : Name) (ns : List Name) (hn : IsElem n) :
    rbuf rooted (k, f :: n :: ns) = f.reverse ++ '/' :: rbuf rooted (k, n :: ns) := by
  have hpos := rbuf_length_pos_of_cons rooted k n ns hn
  rw [rbuf_cons rooted k f]
  unfold push
  rw [if_pos]
  cases rooted
  · right
    exact ⟨rfl, by omega⟩
  · left
    refine ⟨rfl, ?_⟩
    simp [ddOf] at hpos
    omega

theorem rbuf_ne_nil (rooted : Bool) (k : Nat) (n : Name) (ns : List Name) (hn : IsElem n) :
    rbuf rooted (k, n :: ns) ≠ [] := by
  have hpos := rbuf_length_pos_of_cons rooted k n ns hn
  intro h
  rw [h] at hpos
  simp at hpos

theorem render_cons (rooted : Bool) (k : Nat) (n : Name) (ns : List Name) (hn : IsElem n) :
    render rooted (k, n :: ns) = (rbuf rooted (k, n :: ns)).reverse := by
  unfold render
  rw [if_neg]
  intro h
  exact rbuf_ne_nil rooted k n ns hn (List.eq_nil_of_length_eq_zero h)

theorem head_rbuf_reverse (rooted : Bool) (k : Nat) (n : Name) (ns : List Name)
    (hst : ValidSt rooted (k, n :: ns)) (Y : List Char) :
    decide (((rbuf rooted (k, n :: ns)).reverse ++ Y).head? = some '/') = rooted := by
  have hne := rbuf_ne_nil rooted k n ns (hst.2 n (List.mem_cons_self _ _))
  cases rooted
  · have hl := rbuf_false_last k (n :: ns) hst
    cases hb : (rbuf false (k, n :: ns)).reverse with
    | nil => simp at hb; exact absurd hb hne
    | cons a b =>
      have : (rbuf false (k, n :: ns)).getLast? = some a := by
        rw [← List.head?_reverse, hb]; rfl
      rw [this] at hl
      have ha : a ≠ '/' := fun h => hl (by rw [h])
      simp [ha]
  · obtain ⟨X, hX⟩ := rbuf_true_last k (n :: ns)
    rw [hX]
    simp

theorem dropWhile_append_of_all (l : List Char) (B : List Char) (hl : ∀ c ∈ l, c ≠ '/') :
    (l ++ '/' :: B).dropWhile (· ≠ '/') = '/' :: B := by
  induction l with
  | nil => simp
  | cons a l ih =>
    have ha : a ≠ '/' := hl a (List.mem_cons_self _ _)
    simp only [List.cons_append, List.dropWhile, ha, ne_eq, not_false_eq_true, decide_True]
    exact ih (fun c hc => hl c (List.mem_cons_of_mem _ hc))

theorem Dir_rbuf (rooted : Bool) (k : Nat) (file n : Name) (ns : List Name)
    (hst : NormalSt rooted (k, n :: ns)) (hfile : IsElem file) :
    (rbuf rooted (k, file :: n :: ns)).reverse
        = (rbuf rooted (k, n :: ns)).reverse ++ '/' :: file ∧
      filepath.Dir ((rbuf rooted (k, file :: n :: ns)).reverse)
        = (rbuf rooted (k, n :: ns)).reverse := by
  have hn : IsElem n := (hst.2 n (List.mem_cons_self _ _)).1
  have hcc := rbuf_cons_cons rooted k file n ns hn
  have h1 : (rbuf rooted (k, file :: n :: ns)).reverse
      = (rbuf rooted (k, n :: ns)).reverse ++ '/' :: file := by
    rw [hcc]; simp
  refine ⟨h1, ?_⟩
  unfold filepath.Dir filepath.dirPart
  rw [List.reverse_reverse, hcc, dropWhile_append_of_all file.reverse _
    (fun c hc h => hfile.2 (h ▸ List.mem_reverse.1 hc))]
  have h2 : ('/' :: rbuf rooted (k, n :: ns)).reverse
      = (rbuf rooted (k, n :: ns)).reverse ++ '/' :: [] := by simp
  rw [h2, Clean_eq _ (by simp), head_rbuf_reverse rooted k n ns hst.valid, splitPath_append,
    splitPath_rbuf rooted k (n :: ns) hst.valid, splitPath_nil, List.append_nil,
    foldl_stepComp_compsOf rooted _ hst, render_cons rooted k n ns hn]

theorem Clean_tail (inp m : GoString) (t : Name) (tl : List Name) (hinp : inp ≠ [])
    (hsplit : splitPath inp = splitPath m ++ t :: tl) (hnames : ∀ n ∈ t :: tl, IsName n) :
    NormalSt (decide (inp.head? = some '/'))
        ((splitPath m).foldl (stepComp (decide (inp.head? = some '/'))) (0, [])) ∧
      Clean inp = (rbuf (decide (inp.head? = some '/'))
        (((splitPath m).foldl (stepComp (decide (inp.head? = some '/'))) (0, [])).1,
          (t :: tl).reverse ++
            ((splitPath m).foldl (stepComp (decide (inp.head? = some '/'))) (0, [])).2)).reverse := by
  have hnorm := foldl_stepComp_normal (decide (inp.head? = some '/')) (splitPath m) (0, [])
    ⟨fun _ => rfl, by simp⟩ (splitPath_isElem m)
  refine ⟨hnorm, ?_⟩
  rw [Clean_eq inp hinp, hsplit, List.foldl_append]
  generalize (splitPath m).foldl (stepComp (decide (inp.head? = some '/'))) (0, []) = st at *
  obtain ⟨k, ns⟩ := st
  rw [foldl_stepComp_names _ (t :: tl) k ns hnames]
  unfold render
  rw [if_neg]
  intro h
  have hl : ((t :: tl).reverse ++ ns) = (tl.reverse ++ [t] ++ ns) := by simp
  cases hr : (t :: tl).reverse ++ ns with
  | nil => simp at hr
  | cons a b =>
    have ha : IsElem a := by
      have : a ∈ (t :: tl).reverse ++ ns := by rw [hr]; exact List.mem_cons_self _ _
      rcases List.mem_append.1 this with h' | h'
      · exact (hnames a (List.mem_reverse.1 h')).1
      · exact (hnorm.2 a h').1
    rw [hr] at h
    exact rbuf_ne_nil _ k a b ha (List.eq_nil_of_length_eq_zero h)

/-! ### The paths of `Install` -/

theorem isName_of_decide (n : Name) (h1 : n ≠ []) (h2 : '/' ∉ n) (h3 : n ≠ ['.'])
    (h4 : n ≠ ['.', '.']) : IsName n :=
  ⟨⟨h1, h2⟩, h3, h4⟩

theorem isName_boot : IsName "boot".toList :=
  isName_of_decide _ (by decide) (by decide) (by decide) (by decide)

theorem isName_EFI : IsName "EFI".toList :=
  isName_of_decide _ (by decide) (by decide) (by decide) (by decide)

theorem isName_dtb : IsName "dtb".toList :=
  isName_of_decide _ (by decide) (by decide) (by decide) (by decide)

theorem isName_nvidia : IsName "nvidia".toList :=
  isName_of_decide _ (by decide) (by decide) (by decide) (by decide)

theorem isName_arm64 : IsName "arm64".toList :=
  isName_of_decide _ (by decide) (by decide) (by decide) (by decide)

theorem stOf_normal (rooted : Bool) (m : GoString) : NormalSt rooted (stOf rooted m) :=
  foldl_stepComp_normal rooted (splitPath m) (0, []) ⟨fun _ => rfl, by simp⟩ (splitPath_isElem m)

theorem splitPath_dstTail (file : Name) (hfile : IsName file) :
    splitPath ("/boot/EFI/dtb".toList ++ '/' :: ("nvidia/".toList ++ file))
      = ["boot".toList, "EFI".toList, "dtb".toList, "nvidia".toList, file] := by
  have h1 : "nvidia/".toList ++ file = "nvidia".toList ++ '/' :: file := by simp
  rw [splitPath_append, h1, splitPath_append, splitPath_elem file hfile.1]
  rfl

theorem splitPath_srcTail (file : Name) (hfile : IsName file) :
    splitPath ("arm64/dtb".toList ++ '/' :: ("nvidia/".toList ++ file))
      = ["arm64".toList, "dtb".toList, "nvidia".toList, file] := by
  have h1 : "nvidia/".toList ++ file = "nvidia".toList ++ '/' :: file := by simp
  rw [splitPath_append, h1, splitPath_append, splitPath_elem file hfile.1]
  rfl

theorem dstPath_eq (file : Name) (hfile : IsName file) (m : GoString) :
    dstPath ("nvidia/".toList ++ file) m
      = (rbuf (dstRooted m) ((stOf (dstRooted m) m).1,
          file :: "nvidia".toList :: "dtb".toList :: "EFI".toList :: "boot".toList ::
            (stOf (dstRooted m) m).2)).reverse := by
  have hnames : ∀ n ∈ ["boot".toList, "EFI".toList, "dtb".toList, "nvidia".toList, file],
      IsName n := by
    intro n hn
    simp only [List.mem_cons, List.mem_singleton, List.not_mem_nil, or_false] at hn
    rcases hn with rfl | rfl | rfl | rfl | rfl
    · exact isName_boot
    · exact isName_EFI
    · exact isName_dtb
    · exact isName_nvidia
    · exact hfile
  cases m with
  | nil =>
    have hj : dstPath ("nvidia/".toList ++ file) []
        = filepath.Clean ("/boot/EFI/dtb".toList ++ '/' :: ("nvidia/".toList ++ file)) := by
      simp [dstPath, filepath.Join, filepath.stringsJoin, List.intercalate, List.intersperse]
    have ht := Clean_tail ("/boot/EFI/dtb".toList ++ '/' :: ("nvidia/".toList ++ file)) []
      "boot".toList ["EFI".toList, "dtb".toList, "nvidia".toList, file] (by simp)
      (by rw [splitPath_dstTail file hfile]; rfl) hnames
    rw [hj, ht.2]
    rfl
  | cons c m' =>
    have hj : dstPath ("nvidia/".toList ++ file) (c :: m')
        = filepath.Clean ((c :: m') ++ '/' ::
            ("/boot/EFI/dtb".toList ++ '/' :: ("nvidia/".toList ++ file))) := by
      simp [dstPath, filepath.Join, filepath.stringsJoin, List.intercalate, List.intersperse]
    have ht := Clean_tail ((c :: m') ++ '/' ::
        ("/boot/EFI/dtb".toList ++ '/' :: ("nvidia/".toList ++ file))) (c :: m')
      "boot".toList ["EFI".toList, "dtb".toList, "nvidia".toList, file] (by simp)
      (by rw [splitPath_append, splitPath_dstTail file hfile]) hnames
    rw [hj, ht.2]
    have hr : decide (((c :: m') ++ '/' ::
        ("/boot/EFI/dtb".toList ++ '/' :: ("nvidia/".toList ++ file))).head? = some '/')
        = dstRooted (c :: m') := by
      simp [dstRooted]
    rw [hr]
    simp [stOf]

theorem srcPath_eq (file : Name) (hfile : IsName file) (a : GoString) :
    srcPath ("nvidia/".toList ++ file) a
      = (rbuf (srcRooted a) ((stOf (srcRooted a) a).1,
          file :: "nvidia".toList :: "dtb".toList :: "arm64".toList ::
            (stOf (srcRooted a) a).2)).reverse := by
  have hnames : ∀ n ∈ ["arm64".toList, "dtb".toList, "nvidia".toList, file], IsName n := by
    intro n hn
    simp only [List.mem_cons, List.mem_singleton, List.not_mem_nil, or_false] at hn
    rcases hn with rfl | rfl | rfl | rfl
    · exact isName_arm64
    · exact isName_dtb
    · exact isName_nvidia
    · exact hfile
  cases a with
  | nil =>
    have hj : srcPath ("nvidia/".toList ++ file) []
        = filepath.Clean ("arm64/dtb".toList ++ '/' :: ("nvidia/".toList ++ file)) := by
      simp [srcPath, filepath.Join, filepath.stringsJoin, List.intercalate, List.intersperse]
    have ht := Clean_tail ("arm64/dtb".toList ++ '/' :: ("nvidia/".toList ++ file)) []
      "arm64".toList ["dtb".toList, "nvidia".toList, file] (by simp)
      (by rw [splitPath_srcTail file hfile]; rfl) hnames
    rw [hj, ht.2]
    rfl
  | cons c a' =>
    have hj : srcPath ("nvidia/".toList ++ file) (c :: a')
        = filepath.Clean ((c :: a') ++ '/' ::
            ("arm64/dtb".toList ++ '/' :: ("nvidia/".toList ++ file))) := by
      simp [srcPath, filepath.Join, filepath.stringsJoin, List.intercalate, List.intersperse]
    have ht := Clean_tail ((c :: a') ++ '/' ::
        ("arm64/dtb".toList ++ '/' :: ("nvidia/".toList ++ file))) (c :: a')
      "arm64".toList ["dtb".toList, "nvidia".toList, file] (by simp)
      (by rw [splitPath_append, splitPath_srcTail file hfile]) hnames
    rw [hj, ht.2]
    have hr : decide (((c :: a') ++ '/' ::
        ("arm64/dtb".toList ++ '/' :: ("nvidia/".toList ++ file))).head? = some '/')
        = srcRooted (c :: a') := by
      simp [srcRooted]
    rw [hr]
    simp [stOf]

theorem normalSt_cons (rooted : Bool) (k : Nat) (n : Name) (ns : List Name) (hn : IsName n)
    (h : NormalSt rooted (k, ns)) : NormalSt rooted (k, n :: ns) := by
  refine ⟨h.1, ?_⟩
  intro m hm
  rcases List.mem_cons.1 hm with rfl | hm
  · exact hn
  · exact h.2 m hm

theorem dstDir_normal (m : GoString) :
    NormalSt (dstRooted m) ((stOf (dstRooted m) m).1,
      "nvidia".toList :: "dtb".toList :: "EFI".toList :: "boot".toList ::
        (stOf (dstRooted m) m).2) :=
  normalSt_cons _ _ _ _ isName_nvidia (normalSt_cons _ _ _ _ isName_dtb
    (normalSt_cons _ _ _ _ isName_EFI (normalSt_cons _ _ _ _ isName_boot
      (stOf_normal (dstRooted m) m))))

theorem Dir_dstPath (file : Name) (hfile : IsName file) (m : GoString) :
    filepath.Dir (dstPath ("nvidia/".toList ++ file) m)
      = (rbuf (dstRooted m) ((stOf (dstRooted m) m).1,
          "nvidia".toList :: "dtb".toList :: "EFI".toList :: "boot".toList ::
            (stOf (dstRooted m) m).2)).reverse := by
  rw [dstPath_eq file hfile m]
  exact (Dir_rbuf _ _ file _ _ (dstDir_normal m) hfile.1).2

theorem dstPath_eq_Dir (file : Name) (hfile : IsName file) (m : GoString) :
    dstPath ("nvidia/".toList ++ file) m
      = filepath.Dir (dstPath ("nvidia/".toList ++ file) m) ++ '/' :: file := by
  rw [Dir_dstPath file hfile m, dstPath_eq file hfile m]
  exact (Dir_rbuf _ _ file _ _ (dstDir_normal m) hfile.1).1

theorem dstPath_suffix (file : Name) (hfile : IsName file) (m : GoString) :
    ("boot/EFI/dtb/".toList ++ ("nvidia/".toList ++ file))
      <:+ dstPath ("nvidia/".toList ++ file) m := by
  rw [dstPath_eq file hfile m]
  generalize stOf (dstRooted m) m = st
  obtain ⟨k, ns⟩ := st
  rw [rbuf_cons_cons _ _ _ _ _ isName_nvidia.1, rbuf_cons_cons _ _ _ _ _ isName_dtb.1,
    rbuf_cons_cons _ _ _ _ _ isName_EFI.1, rbuf_cons_cons _ _ _ _ _ isName_boot.1, rbuf_cons]
  unfold push
  split
  · exact ⟨(rbuf (dstRooted m) (k, ns)).reverse ++ ['/'], by simp⟩
  · exact ⟨(rbuf (dstRooted m) (k, ns)).reverse, by simp⟩

theorem srcPath_suffix (file : Name) (hfile : IsName file) (a : GoString) :
    ("arm64/dtb/".toList ++ ("nvidia/".toList ++ file))
      <:+ srcPath ("nvidia/".toList ++ file) a := by
  rw [srcPath_eq file hfile a]
  generalize stOf (srcRooted a) a = st
  obtain ⟨k, ns⟩ := st
  rw [rbuf_cons_cons _ _ _ _ _ isName_nvidia.1, rbuf_cons_cons _ _ _ _ _ isName_dtb.1,
    rbuf_cons_cons _ _ _ _ _ isName_arm64.1, rbuf_cons]
  unfold push
  split
  · exact ⟨(rbuf (srcRooted a) (k, ns)).reverse ++ ['/'], by simp⟩
  · exact ⟨(rbuf (srcRooted a) (k, ns)).reverse, by simp⟩

theorem getLast_of_suffix (file : Name) (hfile : IsName file) (x : GoString)
    (h : file <:+ x) : x.getLast? ≠ some '/' := by
  obtain ⟨pre, rfl⟩ := h
  intro hl
  rw [List.getLast?_append] at hl
  cases hf : file.getLast? with
  | none => exact hfile.1.1 (List.getLast?_eq_none_iff.1 hf)
  | some c =>
    rw [hf] at hl
    have hc : c = '/' := by simpa [Option.or] using hl
    subst hc
    exact hfile.1.2 (List.mem_of_mem_getLast? hf)

theorem srcPath_getLast (file : Name) (hfile : IsName file) (a : GoString) :
    (srcPath ("nvidia/".toList ++ file) a).getLast? ≠ some '/' := by
  apply getLast_of_suffix file hfile
  obtain ⟨pre, hpre⟩ := srcPath_suffix file hfile a
  exact ⟨pre ++ "arm64/dtb/".toList ++ "nvidia/".toList, by rw [← hpre]; simp⟩

theorem dstPath_getLast (file : Name) (hfile : IsName file) (m : GoString) :
    (dstPath ("nvidia/".toList ++ file) m).getLast? ≠ some '/' := by
  apply getLast_of_suffix file hfile
  obtain ⟨pre, hpre⟩ := dstPath_suffix file hfile m
  exact ⟨pre ++ "boot/EFI/dtb/".toList ++ "nvidia/".toList, by rw [← hpre]; simp⟩

theorem agx_dtb_eq :
    jetson_agx_orin.dtb = "nvidia/".toList ++ "tegra234-p3701-0000+p3737-0000.dtb".toList := by
  decide

theorem nano_dtb_eq :
    jetson_orin_nano.dtb = "nvidia/".toList ++ "tegra234-p3768-0000+p3767-0000.dtb".toList := by
  decide

theorem isName_agx_file : IsName "tegra234-p3701-0000+p3737-0000.dtb".toList :=
  isName_of_decide _ (by decide) (by decide) (by decide) (by decide)

theorem isName_nano_file : IsName "tegra234-p3768-0000+p3767-0000.dtb".toList :=
  isName_of_decide _ (by decide) (by decide) (by decide) (by decide)

theorem suffix_of_dtb (file : Name) (pre x : GoString)
    (h : (pre ++ ("nvidia/".toList ++ file)) <:+ x) : ("nvidia/".toList ++ file) <:+ x :=
  (List.suffix_append pre _).trans h

/-! ### Outcomes and calls of a run -/

theorem installWith_none_iff {σ ε F T : Type} (dtb : GoString) (sys : Sys σ ε F)
    (options : InstallOptions T) (w : World σ F) :
    (installWith dtb sys options w).1 = none ↔
      ∃ f s1 s2 s3 s4,
        sys.OpenFile options.InstallDisk (O_RDWR ||| O_CLOEXEC) 0o666 w.st = (.ok f, s1) ∧
        sys.Sync f s1 = (none, s2) ∧
        sys.MkdirAll (filepath.Dir (dstPath dtb options.MountPrefix)) 0o600 s2 = (none, s3) ∧
        sys.CopyFile (srcPath dtb options.ArtifactsPath) (dstPath dtb options.MountPrefix) s3
          = (none, s4) := by
  rw [installWith_error]
  unfold outcomeOf
  rcases h1 : sys.OpenFile options.InstallDisk (O_RDWR ||| O_CLOEXEC) 0o666 w.st with ⟨_ | f, s1⟩
  · simp [Outcome.firstError]
  · simp only []
    rcases h2 : sys.Sync f s1 with ⟨_ | e2, s2⟩
    · simp only []
      rcases h3 : sys.MkdirAll (filepath.Dir (dstPath dtb options.MountPrefix)) 0o600 s2
        with ⟨_ | e3, s3⟩
      · simp only []
        rcases h4 : sys.CopyFile (srcPath dtb options.ArtifactsPath)
          (dstPath dtb options.MountPrefix) s3 with ⟨_ | e4, s4⟩
        · simp only [Outcome.firstError, true_iff]
          exact ⟨f, s1, s2, s3, s4, rfl, h2, h3, h4⟩
        · simp only [Outcome.firstError]
          refine ⟨fun h => (by cases h), ?_⟩
          rintro ⟨f', t1, t2, t3, t4, g1, g2, g3, g4⟩
          cases g1
          rw [h2] at g2; cases g2
          rw [h3] at g3; cases g3
          rw [h4] at g4; cases g4
      · simp only [Outcome.firstError]
        refine ⟨fun h => (by cases h), ?_⟩
        rintro ⟨f', t1, t2, t3, t4, g1, g2, g3, g4⟩
        cases g1
        rw [h2] at g2; cases g2
        rw [h3] at g3; cases g3
    · simp only [Outcome.firstError]
      refine ⟨fun h => (by cases h), ?_⟩
      rintro ⟨f', t1, t2, t3, t4, g1, g2, g3, g4⟩
      cases g1
      rw [h2] at g2; cases g2

theorem outcomeOf_close_irrelevant {σ ε F : Type} (sys : Sys σ ε F)
    (close' : F → σ → Option ε × σ) (disk dir src dst : GoString) (s : σ) :
    outcomeOf { sys with Close := close' } disk dir src dst s = outcomeOf sys disk dir src dst s :=
  rfl

theorem posix_open_rdwr_st (fs : FS) (name : GoString) (perm : Nat) :
    (fs.OpenFile name (O_RDWR ||| O_CLOEXEC) perm).2 = fs := by
  unfold FS.OpenFile
  have h1 : ¬ ((O_RDWR ||| O_CLOEXEC) &&& O_TRUNC ≠ 0) := by decide
  have h2 : ¬ ((O_RDWR ||| O_CLOEXEC) &&& O_CREATE ≠ 0) := by decide
  cases fs.namei name with
  | error e => rfl
  | ok loc =>
    simp only []
    cases fs.nodes loc with
    | none => simp only [if_neg h2]
    | some nd =>
      cases nd with
      | dir u g m =>
        simp only []
        split
        · rfl
        · split <;> rfl
      | file u g m d =>
        simp only [if_neg h1]
        split
        · rfl
        · split <;> rfl

theorem posix_unsynced_st {T : Type} (dtb : GoString) (options : InstallOptions T) (fs : FS)
    (log : List (Call Loc))
    (h : (stepsOutcome dtb posix options fs).synced = false) :
    (installWith dtb posix options ⟨fs, log⟩).2.st = fs := by
  rw [installWith_st]
  have hopen := posix_open_rdwr_st fs options.InstallDisk 0o666
  revert h
  unfold stepsOutcome outcomeOf
  simp only []
  rcases h1 : posix.OpenFile options.InstallDisk (O_RDWR ||| O_CLOEXEC) 0o666 fs
    with ⟨_ | f, s1⟩
  · intro _
    have : s1 = fs := by
      have := congrArg Prod.snd h1
      simpa [posix, hopen] using this.symm
    subst this
    simp only [callsOf, Sys.effects, Sys.effect, List.foldl, h1]
  · simp only []
    have hs : s1 = fs := by
      have := congrArg Prod.snd h1
      simpa [posix, hopen] using this.symm
    subst hs
    have h2 : posix.Sync f s1 = (none, s1) := rfl
    rw [h2]
    simp only []
    rcases posix.MkdirAll (filepath.Dir (dstPath dtb options.MountPrefix)) 0o600 s1
      with ⟨_ | e3, s3⟩
    · simp only []
      rcases posix.CopyFile (srcPath dtb options.ArtifactsPath)
        (dstPath dtb options.MountPrefix) s3 with ⟨_ | e4, s4⟩
      · simp [Outcome.synced]
      · simp [Outcome.synced]
    · simp [Outcome.synced]

theorem callsOf_close {ε F : Type} (disk dir src dst : GoString) (o : Outcome ε F) :
    match o.handle with
    | some f =>
      (callsOf disk dir src dst o).filter Call.isClose = [.close f] ∧
        (callsOf disk dir src dst o).getLast? = some (.close f)
    | none => (callsOf disk dir src dst o).filter Call.isClose = [] := by
  cases o <;> simp [Outcome.handle, callsOf, Call.isClose]

theorem outcomeOf_handle_none {σ ε F : Type} (sys : Sys σ ε F) (disk dir src dst : GoString)
    (s : σ) :
    (outcomeOf sys disk dir src dst s).handle = none ↔
      ∃ err s1, sys.OpenFile disk (O_RDWR ||| O_CLOEXEC) 0o666 s = (.error err, s1) := by
  unfold outcomeOf
  rcases h1 : sys.OpenFile disk (O_RDWR ||| O_CLOEXEC) 0o666 s with ⟨e | f, s1⟩
  · simp [Outcome.handle]
  · simp only []
    rcases sys.Sync f s1 with ⟨_ | e2, s2⟩
    · simp only []
      rcases sys.MkdirAll dir 0o600 s2 with ⟨_ | e3, s3⟩
      · simp only []
        rcases sys.CopyFile src dst s3 with ⟨_ | e4, s4⟩ <;> simp [Outcome.handle]
      · simp [Outcome.handle]
    · simp [Outcome.handle]

theorem callsOf_synced {ε F : Type} (disk dir src dst : GoString) (o : Outcome ε F)
    (h : o.synced = true) :
    nextAfterSync (callsOf disk dir src dst o) = some (.mkdirAll dir 0o600) ∧
      ∃ f mid, callsOf disk dir src dst o
          = [.openFile disk (O_RDWR ||| O_CLOEXEC) 0o666, .sync f, .mkdirAll dir 0o600]
              ++ mid ++ [.close f] ∧
        (mid = [] ∨ mid = [.copyFile src dst]) := by
  cases o with
  | openFailed e => simp [Outcome.synced] at h
  | syncFailed f e => simp [Outcome.synced] at h
  | mkdirFailed f e => exact ⟨rfl, f, [], rfl, Or.inl rfl⟩
  | copyFailed f e => exact ⟨rfl, f, [.copyFile src dst], rfl, Or.inr rfl⟩
  | allSucceeded f => exact ⟨rfl, f, [.copyFile src dst], rfl, Or.inr rfl⟩

/-! ### What the calls of the model preserve -/

theorem FS.pres_refl (fs : FS) : fs.Pres fs :=
  ⟨rfl, rfl, rfl, rfl, fun _ _ _ _ h => h, fun _ u g m d h => ⟨u, g, m, d, h⟩⟩

theorem FS.pres_trans {a b c : FS} (h1 : a.Pres b) (h2 : b.Pres c) : a.Pres c := by
  obtain ⟨a1, a2, a3, a4, a5, a6⟩ := h1
  obtain ⟨b1, b2, b3, b4, b5, b6⟩ := h2
  refine ⟨b1.trans a1, b2.trans a2, b3.trans a3, b4.trans a4,
    fun l u g m h => b5 l u g m (a5 l u g m h), fun l u g m d h => ?_⟩
  obtain ⟨u', g', m', d', hd'⟩ := a6 l u g m d h
  exact b6 l u' g' m' d' hd'

theorem FS.grew_refl (perm : Nat) (fs : FS) : FS.Grew perm fs fs :=
  ⟨rfl, rfl, rfl, rfl, fun _ => Or.inl rfl⟩

theorem FS.grew_trans {perm : Nat} {a b c : FS} (h1 : FS.Grew perm a b) (h2 : FS.Grew perm b c) :
    FS.Grew perm a c := by
  obtain ⟨a1, a2, a3, a4, a5⟩ := h1
  obtain ⟨b1, b2, b3, b4, b5⟩ := h2
  refine ⟨b1.trans a1, b2.trans a2, b3.trans a3, b4.trans a4, fun l => ?_⟩
  rcases a5 l with ha | ⟨ha1, ha2⟩
  · rcases b5 l with hb | ⟨hb1, hb2⟩
    · exact Or.inl (hb.trans ha)
    · right
      refine ⟨ha ▸ hb1, ?_⟩
      rw [hb2, a2, a3, a4]
  · rcases b5 l with hb | ⟨hb1, hb2⟩
    · right
      exact ⟨ha1, hb.trans ha2⟩
    · rw [ha2] at hb1
      cases hb1

theorem FS.Grew.pres {perm : Nat} {a b : FS} (h : FS.Grew perm a b) : a.Pres b := by
  obtain ⟨a1, a2, a3, a4, a5⟩ := h
  refine ⟨a1, a2, a3, a4, fun l u g m hl => ?_, fun l u g m d hl => ?_⟩
  · rcases a5 l with h | ⟨h, _⟩
    · rw [h, hl]
    · rw [hl] at h; cases h
  · rcases a5 l with h | ⟨h, _⟩
    · exact ⟨u, g, m, d, by rw [h, hl]⟩
    · rw [hl] at h; cases h

theorem FS.Pres.permits {fs fs' : FS} (h : fs.Pres fs') (u g m b : Nat) :
    fs'.permits u g m b = fs.permits u g m b := by
  unfold FS.permits
  rw [h.2.1, h.2.2.1]

theorem FS.Pres.searchable {fs fs' : FS} (h : fs.Pres fs') (l : Loc)
    (hs : fs.searchable l = none) : fs'.searchable l = none := by
  unfold FS.searchable at hs ⊢
  cases hn : fs.nodes l with
  | none => rw [hn] at hs; cases hs
  | some nd =>
    cases nd with
    | file d => rw [hn] at hs; cases hs
    | dir u g m =>
      rw [hn] at hs
      rw [h.2.2.2.2.1 l u g m hn]
      simp only [h.permits] at hs ⊢
      exact hs

theorem FS.Pres.walk {fs fs' : FS} (h : fs.Pres fs') (cs : List Name) :
    ∀ (cur loc : Loc), fs.walk cur cs = .ok loc → fs'.walk cur cs = .ok loc := by
  induction cs with
  | nil => intro cur loc hw; exact hw
  | cons c cs ih =>
    intro cur loc hw
    unfold FS.walk at hw ⊢
    cases hs : fs.searchable cur with
    | some e => rw [hs] at hw; cases hw
    | none =>
      rw [hs] at hw
      rw [h.searchable cur hs]
      exact ih _ _ hw

theorem FS.Pres.namei {fs fs' : FS} (h : fs.Pres fs') (p : GoString) (loc : Loc)
    (hn : fs.namei p = .ok loc) : fs'.namei p = .ok loc := by
  unfold FS.namei at hn ⊢
  cases p with
  | nil => cases hn
  | cons c rest =>
    simp only [] at hn ⊢
    rw [h.1]
    exact h.walk _ _ _ hn

theorem FS.Pres.stat_dir {fs fs' : FS} (h : fs.Pres fs') (p : GoString) (nd : Node)
    (hs : fs.Stat p = .ok nd) (hd : nd.IsDir = true) : fs'.Stat p = .ok nd := by
  unfold FS.Stat at hs ⊢
  cases hn : fs.namei p with
  | error e => rw [hn] at hs; cases hs
  | ok loc =>
    rw [hn] at hs
    rw [h.namei p loc hn]
    simp only [] at hs ⊢
    cases hl : fs.nodes loc with
    | none => rw [hl] at hs; cases hs
    | some n =>
      rw [hl] at hs
      cases hs
      cases nd with
      | file d => cases hd
      | dir u g m => rw [h.2.2.2.2.1 loc u g m hl]

theorem FS.store_grew (perm : Nat) (fs : FS) (loc : Loc) (h : fs.nodes loc = none) :
    FS.Grew perm fs (fs.store loc (.dir fs.euid fs.egid (perm ^^^ (perm &&& fs.umask)))) := by
  refine ⟨rfl, rfl, rfl, rfl, fun l => ?_⟩
  by_cases hl : l = loc
  · subst hl
    right
    exact ⟨h, by simp [FS.store]⟩
  · left
    simp [FS.store, hl]

theorem FS.store_pres_file (fs : FS) (loc : Loc) (u g m : Nat) (d : List Nat)
    (h : ∀ u g m, fs.nodes loc ≠ some (.dir u g m)) :
    fs.Pres (fs.store loc (.file u g m d)) := by
  refine ⟨rfl, rfl, rfl, rfl, fun l u' g' m' hl => ?_, fun l u' g' m' d' hl => ?_⟩
  · by_cases hloc : l = loc
    · subst hloc; exact absurd hl (h u' g' m')
    · simp [FS.store, hloc, hl]
  · by_cases hloc : l = loc
    · subst hloc; exact ⟨u, g, m, d, by simp [FS.store]⟩
    · exact ⟨u', g', m', d', by simp [FS.store, hloc, hl]⟩

theorem FS.Mkdir_grew (fs : FS) (p : GoString) (perm : Nat) :
    FS.Grew perm fs (fs.Mkdir p perm).2 := by
  unfold FS.Mkdir
  cases fs.namei p with
  | error e => exact FS.grew_refl perm fs
  | ok loc =>
    simp only []
    cases hl : fs.nodes loc with
    | some n => exact FS.grew_refl perm fs
    | none =>
      simp only []
      unfold FS.create
      cases fs.nodes loc.dropLast with
      | none => exact FS.grew_refl perm fs
      | some nd =>
        cases nd with
        | file d => exact FS.grew_refl perm fs
        | dir u g m =>
          simp only []
          split
          · exact FS.store_grew perm fs loc hl
          · exact FS.grew_refl perm fs

theorem FS.Mkdir_ok (fs : FS) (p : GoString) (perm : Nat) (fs' : FS)
    (h : fs.Mkdir p perm = (none, fs')) :
    ∃ loc, fs.namei p = .ok loc ∧ fs.nodes loc = none ∧
      fs' = fs.store loc (.dir fs.euid fs.egid (perm ^^^ (perm &&& fs.umask))) := by
  unfold FS.Mkdir at h
  cases hn : fs.namei p with
  | error e => rw [hn] at h; cases h
  | ok loc =>
    rw [hn] at h
    simp only [] at h
    cases hl : fs.nodes loc with
    | some n => rw [hl] at h; cases h
    | none =>
      rw [hl] at h
      simp only [] at h
      unfold FS.create at h
      cases hp : fs.nodes loc.dropLast with
      | none => rw [hp] at h; cases h
      | some nd =>
        rw [hp] at h
        cases nd with
        | file d => cases h
        | dir u g m =>
          simp only [] at h
          split at h
          · cases h
            exact ⟨loc, rfl, hl, rfl⟩
          · cases h

theorem FS.mkdirAllFuel_grew (perm : Nat) (fuel : Nat) :
    ∀ (fs : FS) (p : GoString), FS.Grew perm fs (FS.mkdirAllFuel fuel fs p perm).2 := by
  induction fuel with
  | zero => intro fs p; exact FS.grew_refl perm fs
  | succ fuel ih =>
    intro fs p
    unfold FS.mkdirAllFuel
    cases fs.Stat p with
    | ok nd => simp only []; split <;> exact FS.grew_refl perm fs
    | error e =>
      simp only []
      have hr : FS.Grew perm fs
          (if 0 < (parentOf p).length then FS.mkdirAllFuel fuel fs (parentOf p) perm
            else (none, fs)).2 := by
        split
        · exact ih fs (parentOf p)
        · exact FS.grew_refl perm fs
      rcases hrr : (if 0 < (parentOf p).length then FS.mkdirAllFuel fuel fs (parentOf p) perm
            else (none, fs)) with ⟨_ | e1, fs1⟩
      · rw [hrr] at hr
        simp only [] at hr ⊢
        have hm := FS.Mkdir_grew fs1 p perm
        rcases hmm : fs1.Mkdir p perm with ⟨_ | e2, fs2⟩
        · rw [hmm] at hm
          exact FS.grew_trans hr hm
        · rw [hmm] at hm
          simp only [] at hm ⊢
          have := FS.grew_trans hr hm
          cases fs2.Stat p with
          | ok nd => simp only []; split <;> exact this
          | error e => exact this
      · rw [hrr] at hr
        exact hr

theorem FS.mkdirAllFuel_stat (perm : Nat) (fuel : Nat) (fs : FS) (p : GoString) (fs' : FS)
    (h : FS.mkdirAllFuel fuel fs p perm = (none, fs')) :
    ∃ nd, fs'.Stat p = .ok nd ∧ nd.IsDir = true := by
  cases fuel with
  | zero => unfold FS.mkdirAllFuel at h; cases h
  | succ fuel =>
    unfold FS.mkdirAllFuel at h
    cases hs : fs.Stat p with
    | ok nd =>
      rw [hs] at h
      simp only [] at h
      split at h
      · rename_i hd
        cases h
        exact ⟨nd, hs, hd⟩
      · cases h
    | error e =>
      rw [hs] at h
      simp only [] at h
      rcases hrr : (if 0 < (parentOf p).length then FS.mkdirAllFuel fuel fs (parentOf p) perm
            else (none, fs)) with ⟨_ | e1, fs1⟩
      · rw [hrr] at h
        simp only [] at h
        rcases hmm : fs1.Mkdir p perm with ⟨_ | e2, fs2⟩
        · rw [hmm] at h
          simp only [] at h
          cases h
          obtain ⟨loc, hn, hl, hfs⟩ := FS.Mkdir_ok fs1 p perm _ hmm
          have hg : FS.Grew perm fs1 fs' := by rw [hfs]; exact FS.store_grew perm fs1 loc hl
          refine ⟨.dir fs1.euid fs1.egid (perm ^^^ (perm &&& fs1.umask)), ?_, rfl⟩
          unfold FS.Stat
          rw [hg.pres.namei p loc hn]
          simp [hfs, FS.store]
        · rw [hmm] at h
          simp only [] at h
          cases hs2 : fs2.Stat p with
          | ok nd =>
            rw [hs2] at h
            simp only [] at h
            split at h
            · rename_i hd
              cases h
              exact ⟨nd, hs2, hd⟩
            · cases h
          | error e => rw [hs2] at h; cases h
      · rw [hrr] at h
        cases h

theorem FS.MkdirAll_fast (fs : FS) (p : GoString) (perm : Nat) (nd : Node)
    (hs : fs.Stat p = .ok nd) (hd : nd.IsDir = true) : fs.MkdirAll p perm = (none, fs) := by
  unfold FS.MkdirAll FS.mkdirAllFuel
  rw [hs]
  simp [hd]

theorem FS.store_self (fs : FS) (l : Loc) (n : Node) (h : fs.nodes l = some n) :
    fs.store l n = fs := by
  cases fs with
  | mk nodes cwd euid egid umask =>
    simp only [FS.store, FS.mk.injEq, and_true]
    funext l'
    by_cases hl : l' = l
    · subst hl; simp [h.symm]
    · simp [hl]

theorem FS.store_store (fs : FS) (l : Loc) (a b : Node) :
    (fs.store l a).store l b = fs.store l b := by
  cases fs with
  | mk nodes cwd euid egid umask =>
    simp only [FS.store, FS.mk.injEq, and_true]
    funext l'
    by_cases hl : l' = l <;> simp [hl]

theorem FS.mayOpen_rdonly (fs : FS) (u g m : Nat) :
    fs.mayOpen u g m O_RDONLY = fs.permits u g m 2 := by
  unfold FS.mayOpen
  have h1 : (O_RDONLY &&& 3 == 1) = false := by decide
  have h2 : (O_RDONLY &&& 3 == 0 && O_RDONLY &&& O_TRUNC == 0) = true := by decide
  rw [h1, h2]
  simp

theorem FS.mayOpen_rdwr (fs : FS) (u g m : Nat) :
    fs.mayOpen u g m (O_RDWR ||| O_CLOEXEC) = (fs.permits u g m 2 && fs.permits u g m 1) := by
  unfold FS.mayOpen
  have h1 : ((O_RDWR ||| O_CLOEXEC) &&& 3 == 1) = false := by decide
  have h2 : ((O_RDWR ||| O_CLOEXEC) &&& 3 == 0 && (O_RDWR ||| O_CLOEXEC) &&& O_TRUNC == 0)
      = false := by decide
  rw [h1, h2]
  simp

theorem FS.mayOpen_create (fs : FS) (u g m : Nat) :
    fs.mayOpen u g m (O_RDWR ||| O_CREATE ||| O_TRUNC)
      = (fs.permits u g m 2 && fs.permits u g m 1) := by
  unfold FS.mayOpen
  have h1 : ((O_RDWR ||| O_CREATE ||| O_TRUNC) &&& 3 == 1) = false := by decide
  have h2 : ((O_RDWR ||| O_CREATE ||| O_TRUNC) &&& 3 == 0 &&
      (O_RDWR ||| O_CREATE ||| O_TRUNC) &&& O_TRUNC == 0) = false := by decide
  rw [h1, h2]
  simp

theorem FS.open_rdonly (fs : FS) (name : GoString) :
    fs.OpenFile name O_RDONLY 0 =
      match fs.namei name with
      | .error e => (.error e, fs)
      | .ok loc =>
        match fs.nodes loc with
        | some (.dir u g m) =>
          if fs.permits u g m 2 then (.ok loc, fs) else (.error .EACCES, fs)
        | some (.file u g m _) =>
          if name.getLast? = some '/' then (.error .ENOTDIR, fs)
          else if fs.permits u g m 2 then (.ok loc, fs) else (.error .EACCES, fs)
        | none => (.error .ENOENT, fs) := by
  unfold FS.OpenFile
  have h1 : ¬ (O_RDONLY &&& 3 ≠ 0) := by decide
  have h2 : ¬ (O_RDONLY &&& O_TRUNC ≠ 0) := by decide
  have h3 : ¬ (O_RDONLY &&& O_CREATE ≠ 0) := by decide
  cases fs.namei name with
  | error e => rfl
  | ok loc =>
    simp only []
    cases fs.nodes loc with
    | none => simp only [if_neg h3]
    | some nd =>
      cases nd with
      | dir u g m => simp only [if_neg h1]
      | file u g m d => simp only [if_neg h2, FS.mayOpen_rdonly]

theorem FS.open_create (fs : FS) (name : GoString) :
    fs.OpenFile name (O_RDWR ||| O_CREATE ||| O_TRUNC) 0o666 =
      match fs.namei name with
      | .error e => (.error e, fs)
      | .ok loc =>
        match fs.nodes loc with
        | some (.dir _ _ _) => (.error .EISDIR, fs)
        | some (.file u g m _) =>
          if name.getLast? = some '/' then (.error .ENOTDIR, fs)
          else if (fs.permits u g m 2 && fs.permits u g m 1) = true then
            (.ok loc, fs.store loc (.file u g m []))
          else (.error .EACCES, fs)
        | none =>
          if name.getLast? = some '/' then (.error .EISDIR, fs)
          else
            match fs.create loc (.file fs.euid fs.egid (0o666 ^^^ (0o666 &&& fs.umask)) []) with
            | (some e, fs1) => (.error e, fs1)
            | (none, fs1) => (.ok loc, fs1) := by
  unfold FS.OpenFile
  have h1 : (O_RDWR ||| O_CREATE ||| O_TRUNC) &&& 3 ≠ 0 := by decide
  have h2 : (O_RDWR ||| O_CREATE ||| O_TRUNC) &&& O_TRUNC ≠ 0 := by decide
  have h3 : (O_RDWR ||| O_CREATE ||| O_TRUNC) &&& O_CREATE ≠ 0 := by decide
  cases fs.namei name with
  | error e => rfl
  | ok loc =>
    simp only []
    cases fs.nodes loc with
    | none => simp only [if_pos h3] <;> rfl
    | some nd =>
      cases nd with
      | dir u g m => simp only [if_pos h1]
      | file u g m d => simp only [if_pos h2, FS.mayOpen_create]

theorem FS.create_ok (fs : FS) (loc : Loc) (n : Node) (fs' : FS)
    (h : fs.create loc n = (none, fs')) : fs' = fs.store loc n := by
  unfold FS.create at h
  cases hp : fs.nodes loc.dropLast with
  | none => rw [hp] at h; cases h
  | some nd =>
    rw [hp] at h
    cases nd with
    | file u g m d => cases h
    | dir u g m =>
      simp only [] at h
      split at h
      · cases h; rfl
      · cases h

theorem FS.create_err (fs : FS) (loc : Loc) (n : Node) (e : Errno) (fs' : FS)
    (h : fs.create loc n = (some e, fs')) : fs' = fs := by
  unfold FS.create at h
  cases hp : fs.nodes loc.dropLast with
  | none => rw [hp] at h; cases h; rfl
  | some nd =>
    rw [hp] at h
    cases nd with
    | file u g m d => cases h; rfl
    | dir u g m =>
      simp only [] at h
      split at h
      · cases h
      · cases h; rfl

theorem FS.open_rdonly_ok (fs : FS) (name : GoString) (s : Loc) (fs1 : FS)
    (h : fs.OpenFile name O_RDONLY 0 = (.ok s, fs1)) :
    fs1 = fs ∧ fs.namei name = .ok s ∧
      ((∃ u g m, fs.nodes s = some (.dir u g m)) ∨
        (name.getLast? ≠ some '/' ∧
          ∃ u g m d, fs.nodes s = some (.file u g m d) ∧ fs.permits u g m 2 = true)) := by
  rw [FS.open_rdonly] at h
  cases hn : fs.namei name with
  | error e => rw [hn] at h; cases h
  | ok loc =>
    rw [hn] at h
    simp only [] at h
    cases hl : fs.nodes loc with
    | none => rw [hl] at h; cases h
    | some nd =>
      rw [hl] at h
      cases nd with
      | dir u g m =>
        simp only [] at h
        split at h
        · cases h
          exact ⟨rfl, rfl, Or.inl ⟨u, g, m, hl⟩⟩
        · cases h
      | file u g m d =>
        simp only [] at h
        split at h
        · cases h
        · rename_i hsl
          split at h
          · rename_i hr
            cases h
            exact ⟨rfl, rfl, Or.inr ⟨hsl, u, g, m, d, hl, hr⟩⟩
          · cases h

theorem FS.open_rdonly_file (fs : FS) (name : GoString) (s : Loc) (u g m : Nat) (d : List Nat)
    (hn : fs.namei name = .ok s) (hsl : name.getLast? ≠ some '/')
    (hf : fs.nodes s = some (.file u g m d)) (hr : fs.permits u g m 2 = true) :
    fs.OpenFile name O_RDONLY 0 = (.ok s, fs) := by
  rw [FS.open_rdonly, hn]
  simp only [hf, if_neg hsl, hr, if_true]

theorem FS.open_create_ok (fs : FS) (name : GoString) (d : Loc) (fsC : FS)
    (h : fs.OpenFile name (O_RDWR ||| O_CREATE ||| O_TRUNC) 0o666 = (.ok d, fsC)) :
    fs.namei name = .ok d ∧ name.getLast? ≠ some '/' ∧
      (∀ u g m, fs.nodes d ≠ some (.dir u g m)) ∧
      ∃ ud gd mC, fsC = fs.store d (.file ud gd mC []) ∧
        ((fs.nodes d = none ∧ ud = fs.euid ∧ gd = fs.egid) ∨
          ∃ dd, fs.nodes d = some (.file ud gd mC dd)) := by
  rw [FS.open_create] at h
  cases hn : fs.namei name with
  | error e => rw [hn] at h; cases h
  | ok loc =>
    rw [hn] at h
    simp only [] at h
    cases hl : fs.nodes loc with
    | none =>
      rw [hl] at h
      simp only [] at h
      split at h
      · cases h
      · rename_i hsl
        rcases hc : fs.create loc (.file fs.euid fs.egid (0o666 ^^^ (0o666 &&& fs.umask)) [])
          with ⟨_ | e, fs1⟩
        · rw [hc] at h
          simp only [] at h
          cases h
          refine ⟨rfl, hsl, ?_, fs.euid, fs.egid, _, FS.create_ok fs _ _ _ hc,
            Or.inl ⟨hl, rfl, rfl⟩⟩
          intro u g m
          rw [hl]
          simp
        · rw [hc] at h; cases h
    | some nd =>
      rw [hl] at h
      cases nd with
      | dir u g m => cases h
      | file u g m dd =>
        simp only [] at h
        split at h
        · cases h
        · rename_i hsl
          split at h
          · cases h
            refine ⟨rfl, hsl, ?_, u, g, m, rfl, Or.inr ⟨dd, hl⟩⟩
            intro u' g' m'
            rw [hl]
            simp
          · cases h

theorem FS.open_create_file (fs : FS) (name : GoString) (ld : Loc) (u g m : Nat) (d : List Nat)
    (hn : fs.namei name = .ok ld) (hsl : name.getLast? ≠ some '/')
    (hf : fs.nodes ld = some (.file u g m d)) (hr : fs.permits u g m 2 = true)
    (hw : fs.permits u g m 1 = true) :
    fs.OpenFile name (O_RDWR ||| O_CREATE ||| O_TRUNC) 0o666
      = (.ok ld, fs.store ld (.file u g m [])) := by
  rw [FS.open_create, hn]
  simp only [hf, if_neg hsl, hr, hw, Bool.and_self, if_true]

theorem FS.open_rdwr_ok (fs : FS) (name : GoString) (perm : Nat) (f : Loc)
    (h : (fs.OpenFile name (O_RDWR ||| O_CLOEXEC) perm).1 = .ok f) :
    fs.namei name = .ok f ∧ name.getLast? ≠ some '/' ∧
      ∃ u g m d, fs.nodes f = some (.file u g m d) ∧ fs.permits u g m 2 = true ∧
        fs.permits u g m 1 = true := by
  have h1 : (O_RDWR ||| O_CLOEXEC) &&& 3 ≠ 0 := by decide
  have h2 : ¬ ((O_RDWR ||| O_CLOEXEC) &&& O_CREATE ≠ 0) := by decide
  unfold FS.OpenFile at h
  cases hn : fs.namei name with
  | error e => rw [hn] at h; cases h
  | ok loc =>
    rw [hn] at h
    simp only [] at h
    cases hl : fs.nodes loc with
    | none => rw [hl] at h; simp only [if_neg h2] at h; cases h
    | some nd =>
      rw [hl] at h
      cases nd with
      | dir u g m => simp only [if_pos h1] at h; cases h
      | file u g m d =>
        simp only [FS.mayOpen_rdwr] at h
        split at h
        · cases h
        · rename_i hsl
          split at h
          · rename_i hp
            cases h
            simp only [Bool.and_eq_true] at hp
            exact ⟨rfl, hsl, u, g, m, d, hl, hp.1, hp.2⟩
          · cases h

theorem FS.open_rdwr_file (fs : FS) (name : GoString) (perm : Nat) (f : Loc) (u g m : Nat)
    (d : List Nat) (hn : fs.namei name = .ok f) (hsl : name.getLast? ≠ some '/')
    (hf : fs.nodes f = some (.file u g m d)) (hr : fs.permits u g m 2 = true)
    (hw : fs.permits u g m 1 = true) :
    fs.OpenFile name (O_RDWR ||| O_CLOEXEC) perm = (.ok f, fs) := by
  have h3 : ¬ ((O_RDWR ||| O_CLOEXEC) &&& O_TRUNC ≠ 0) := by decide
  unfold FS.OpenFile
  rw [hn]
  simp only [hf, if_neg hsl, FS.mayOpen_rdwr, hr, hw, Bool.and_self, if_true, if_neg h3]

theorem FS.stat_of_node (fs : FS) (p : GoString) (loc : Loc) (nd : Node)
    (hn : fs.namei p = .ok loc) (hl : fs.nodes loc = some nd) : fs.Stat p = .ok nd := by
  unfold FS.Stat
  rw [hn]
  simp only [hl]

theorem FS.chmod_file (fs : FS) (p : GoString) (loc : Loc) (u g m : Nat) (d : List Nat)
    (mode : Nat) (hn : fs.namei p = .ok loc) (hl : fs.nodes loc = some (.file u g m d)) :
    fs.Chmod p mode =
      if fs.euid = 0 ∨ fs.euid = u then (none, fs.store loc (.file u g mode d))
      else (some .EPERM, fs) := by
  unfold FS.Chmod
  rw [hn]
  simp only [hl]

theorem FS.CopyFile_eval (fs : FS) (src dst : GoString) (ls ld : Loc)
    (us gs ms : Nat) (ds : List Nat) (ud gd mC : Nat)
    (hns : fs.namei src = .ok ls) (hls : fs.nodes ls = some (.file us gs ms ds))
    (hsl : src.getLast? ≠ some '/') (hr : fs.permits us gs ms 2 = true)
    (hnd : fs.namei dst = .ok ld) (hnodir : ∀ u g m, fs.nodes ld ≠ some (.dir u g m))
    (hopen : fs.OpenFile dst (O_RDWR ||| O_CREATE ||| O_TRUNC) 0o666
      = (.ok ld, fs.store ld (.file ud gd mC [])))
    (hsame : ls = ld → ud = us ∧ gd = gs ∧ mC = ms) :
    fs.CopyFile src dst =
      if fs.euid = 0 ∨ fs.euid = ud then
        (none, fs.store ld (.file ud gd ms (if ls = ld then [] else ds)))
      else (some .EPERM, fs.store ld (.file ud gd mC (if ls = ld then [] else ds))) := by
  unfold FS.CopyFile
  rw [FS.open_rdonly_file fs src ls us gs ms ds hns hsl hls hr]
  simp only []
  rw [hopen]
  simp only []
  have hd : (fs.store ld (.file ud gd mC [])).nodes ld = some (.file ud gd mC []) := by
    simp [FS.store]
  have hs : (fs.store ld (.file ud gd mC [])).nodes ls
      = some (.file us gs ms (if ls = ld then [] else ds)) := by
    by_cases heq : ls = ld
    · obtain ⟨e1, e2, e3⟩ := hsame heq
      subst heq
      rw [hd, e1, e2, e3]
      simp
    · simp [FS.store, heq, hls]
  rw [hs, hd]
  simp only [FS.store_store]
  have hp : fs.Pres (fs.store ld (.file ud gd mC (if ls = ld then [] else ds))) :=
    FS.store_pres_file fs ld _ _ _ _ hnodir
  have hd3 : (fs.store ld (.file ud gd mC (if ls = ld then [] else ds))).nodes ld
      = some (.file ud gd mC (if ls = ld then [] else ds)) := by
    simp [FS.store]
  have hs3 : (fs.store ld (.file ud gd mC (if ls = ld then [] else ds))).nodes ls
      = some (.file us gs ms (if ls = ld then [] else ds)) := by
    by_cases heq : ls = ld
    · obtain ⟨e1, e2, e3⟩ := hsame heq
      subst heq
      rw [hd3, e1, e2, e3]
    · simp [FS.store, heq, hls]
  rw [FS.stat_of_node _ src ls _ (hp.namei src ls hns) hs3]
  simp only [Node.Mode]
  rw [FS.chmod_file _ dst ld ud gd mC _ ms (hp.namei dst ld hnd) hd3]
  simp only [FS.store_store]
  rfl

theorem FS.CopyFile_ok (fs : FS) (src dst : GoString) (fs' : FS)
    (h : fs.CopyFile src dst = (none, fs')) :
    ∃ ls ld us gs ms ds ud gd,
      fs.namei src = .ok ls ∧ fs.nodes ls = some (.file us gs ms ds) ∧
      src.getLast? ≠ some '/' ∧ fs.permits us gs ms 2 = true ∧
      fs.namei dst = .ok ld ∧ dst.getLast? ≠ some '/' ∧
      (∀ u g m, fs.nodes ld ≠ some (.dir u g m)) ∧
      (ls = ld → ud = us ∧ gd = gs) ∧
      (fs.euid = 0 ∨ fs.euid = ud) ∧
      fs' = fs.store ld (.file ud gd ms (if ls = ld then [] else ds)) := by
  rcases ho : fs.OpenFile src O_RDONLY 0 with ⟨_ | s, fs1⟩
  · unfold FS.CopyFile at h
    rw [ho] at h
    cases h
  · obtain ⟨e1, hns, hnode⟩ := FS.open_rdonly_ok fs src s fs1 ho
    subst e1
    rcases hc : fs1.OpenFile dst (O_RDWR ||| O_CREATE ||| O_TRUNC) 0o666 with ⟨_ | d, fsC⟩
    · unfold FS.CopyFile at h
      rw [ho] at h
      simp only [] at h
      rw [hc] at h
      cases h
    · obtain ⟨hnd, hdsl, hnodir, ud, gd, mC, hfsC, hcase⟩ := FS.open_create_ok fs1 dst d fsC hc
      rcases hnode with ⟨u, g, m, hdir⟩ | ⟨hsl, us, gs, ms, ds, hls, hr⟩
      · exfalso
        have hne : s ≠ d := by
          intro heq
          subst heq
          exact hnodir u g m hdir
        unfold FS.CopyFile at h
        rw [ho] at h
        simp only [] at h
        rw [hc] at h
        simp only [] at h
        have : fsC.nodes s = some (.dir u g m) := by
          rw [hfsC]
          simp [FS.store, hne, hdir]
        rw [this] at h
        cases h
      · have hsame : s = d → ud = us ∧ gd = gs ∧ mC = ms := by
          intro heq
          subst heq
          rcases hcase with ⟨hnone, _, _⟩ | ⟨dd, hdd⟩
          · rw [hnone] at hls; cases hls
          · rw [hdd] at hls
            cases hls
            exact ⟨rfl, rfl, rfl⟩
        rw [hfsC] at hc
        rw [FS.CopyFile_eval fs1 src dst s d us gs ms ds ud gd mC hns hls hsl hr hnd hnodir hc
          hsame] at h
        split at h
        · rename_i hown
          cases h
          exact ⟨s, d, us, gs, ms, ds, ud, gd, hns, hls, hsl, hr, hnd, hdsl, hnodir,
            fun heq => ⟨(hsame heq).1, (hsame heq).2.1⟩, hown, rfl⟩
        · cases h

theorem FS.CopyFile_pres (fs : FS) (src dst : GoString) (fs' : FS)
    (h : fs.CopyFile src dst = (none, fs')) : fs.Pres fs' := by
  obtain ⟨ls, ld, us, gs, ms, ds, ud, gd, _, _, _, _, _, _, hnd, _, _, hfs⟩ :=
    FS.CopyFile_ok fs src dst fs' h
  rw [hfs]
  exact FS.store_pres_file fs ld _ _ _ _ hnd

theorem FS.permits_owner (fs : FS) (u g m b : Nat) (hown : fs.euid = 0 ∨ fs.euid = u)
    (hbit : fs.euid = 0 ∨ m.testBit (b + 6) = true) : fs.permits u g m b = true := by
  unfold FS.permits
  by_cases h0 : fs.euid = 0
  · simp [h0]
  · rcases hown with h | h
    · exact absurd h h0
    · rcases hbit with hb | hb
      · exact absurd hb h0
      · simp [h, hb]

theorem FS.store_permits (fs : FS) (l : Loc) (n : Node) (u g m b : Nat) :
    (fs.store l n).permits u g m b = fs.permits u g m b := rfl

theorem FS.CopyFile_idem (fs : FS) (src dst : GoString) (fs' : FS)
    (h : fs.CopyFile src dst = (none, fs'))
    (hmode : fs.euid = 0 ∨ ∃ u g m d, fs.Stat src = .ok (.file u g m d) ∧
      m.testBit 8 = true ∧ m.testBit 7 = true) :
    fs'.CopyFile src dst = (none, fs') := by
  have hp := FS.CopyFile_pres fs src dst fs' h
  obtain ⟨ls, ld, us, gs, ms, ds, ud, gd, hns, hls, hsl, hr, hnd, hdsl, hnodir, hsame, hown, hfs⟩ :=
    FS.CopyFile_ok fs src dst fs' h
  have hbits : ∀ b, (b = 1 ∨ b = 2) → fs.euid = 0 ∨ ms.testBit (b + 6) = true := by
    intro b hb
    rcases hmode with h0 | ⟨u, g, m, d, hst, h8, h7⟩
    · exact Or.inl h0
    · rw [FS.stat_of_node fs src ls _ hns hls] at hst
      cases hst
      rcases hb with hb | hb
      · subst hb; exact Or.inr h7
      · subst hb; exact Or.inr h8
  have hld' : fs'.nodes ld = some (.file ud gd ms (if ls = ld then [] else ds)) := by
    rw [hfs]; simp [FS.store]
  have hls' : fs'.nodes ls = some (.file us gs ms (if ls = ld then [] else ds)) := by
    by_cases heq : ls = ld
    · obtain ⟨e1, e2⟩ := hsame heq
      rw [← e1, ← e2]
      simp only [heq] at hld' ⊢
      exact hld'
    · rw [hfs]; simp [FS.store, heq, hls]
  have hperm : ∀ b, (b = 1 ∨ b = 2) → fs'.permits ud gd ms b = true := by
    intro b hb
    rw [hfs, FS.store_permits]
    exact FS.permits_owner fs ud gd ms b hown (hbits b hb)
  have hr' : fs'.permits us gs ms 2 = true := by
    rw [hfs, FS.store_permits]
    exact hr
  have hopen := FS.open_create_file fs' dst ld ud gd ms _ (hp.namei dst ld hnd) hdsl hld'
    (hperm 2 (Or.inr rfl)) (hperm 1 (Or.inl rfl))
  have hnodir' : ∀ u g m, fs'.nodes ld ≠ some (.dir u g m) := by
    intro u g m
    rw [hld']
    simp
  rw [FS.CopyFile_eval fs' src dst ls ld us gs ms _ ud gd ms (hp.namei src ls hns) hls' hsl hr'
    (hp.namei dst ld hnd) hnodir' hopen
    (fun heq => ⟨(hsame heq).1, (hsame heq).2, rfl⟩)]
  have hown' : fs'.euid = 0 ∨ fs'.euid = ud := by
    rw [hfs]
    exact hown
  rw [if_pos hown']
  have hdata : (if ls = ld then ([] : List Nat) else if ls = ld then [] else ds)
      = if ls = ld then [] else ds := by
    split <;> rfl
  rw [hdata, FS.store_self fs' ld _ hld']

theorem installWith_success_st {σ ε F T : Type} (dtb : GoString) (sys : Sys σ ε F)
    (options : InstallOptions T) (w : World σ F) (f : F) (s1 s2 s3 s4 : σ)
    (h1 : sys.OpenFile options.InstallDisk (O_RDWR ||| O_CLOEXEC) 0o666 w.st = (.ok f, s1))
    (h2 : sys.Sync f s1 = (none, s2))
    (h3 : sys.MkdirAll (filepath.Dir (dstPath dtb options.MountPrefix)) 0o600 s2 = (none, s3))
    (h4 : sys.CopyFile (srcPath dtb options.ArtifactsPath) (dstPath dtb options.MountPrefix) s3
      = (none, s4)) :
    (installWith dtb sys options w).2.st = (sys.Close f s4).2 := by
  unfold srcPath dstPath at *
  unfold installWith os.OpenFile File.Sync os.MkdirAll copy.File File.Close
  simp only [h1, h2, h3, h4]

theorem FS.Grew.node {perm : Nat} {a b : FS} (h : FS.Grew perm a b) (l : Loc) (nd : Node)
    (hl : a.nodes l = some nd) : b.nodes l = some nd := by
  rcases h.2.2.2.2 l with h1 | ⟨h1, _⟩
  · rw [h1, hl]
  · rw [hl] at h1; cases h1

theorem FS.Grew.stat {perm : Nat} {a b : FS} (h : FS.Grew perm a b) (p : GoString) (nd : Node)
    (hs : a.Stat p = .ok nd) : b.Stat p = .ok nd := by
  unfold FS.Stat at hs
  cases hn : a.namei p with
  | error e => rw [hn] at hs; cases hs
  | ok loc =>
    rw [hn] at hs
    simp only [] at hs
    cases hl : a.nodes loc with
    | none => rw [hl] at hs; cases hs
    | some n =>
      rw [hl] at hs
      cases hs
      exact FS.stat_of_node b p loc _ (h.pres.namei p loc hn) (h.node loc _ hl)

theorem posix_install_idem {T : Type} (dtb : GoString) (options : InstallOptions T) (fs : FS)
    (log log' : List (Call Loc))
    (h : (installWith dtb posix options ⟨fs, log⟩).1 = none)
    (hmode : fs.euid = 0 ∨ ∃ u g m d,
      fs.Stat (srcPath dtb options.ArtifactsPath) = .ok (.file u g m d) ∧
        m.testBit 8 = true ∧ m.testBit 7 = true) :
    (installWith dtb posix options
        ⟨(installWith dtb posix options ⟨fs, log⟩).2.st, log'⟩).1 = none ∧
      (installWith dtb posix options
        ⟨(installWith dtb posix options ⟨fs, log⟩).2.st, log'⟩).2.st
        = (installWith dtb posix options ⟨fs, log⟩).2.st := by
  obtain ⟨f, s1, s2, s3, s4, h1, h2, h3, h4⟩ := (installWith_none_iff dtb posix options _).1 h
  have hst := installWith_success_st dtb posix options ⟨fs, log⟩ f s1 s2 s3 s4 h1 h2 h3 h4
  have hclose : ∀ s : FS, (posix.Close f s).2 = s := fun _ => rfl
  rw [hclose] at hst
  rw [hst]
  have e1 : s1 = fs := by
    have := congrArg Prod.snd h1
    simpa [posix, posix_open_rdwr_st] using this.symm
  subst e1
  have e2 : s2 = s1 := by
    have := congrArg Prod.snd h2
    simpa [posix] using this.symm
  subst e2
  have h3' : s2.MkdirAll (filepath.Dir (dstPath dtb options.MountPrefix)) 0o600 = (none, s3) := h3
  have h4' : s3.CopyFile (srcPath dtb options.ArtifactsPath) (dstPath dtb options.MountPrefix)
      = (none, s4) := h4
  have hg : FS.Grew 0o600 s2 s3 := by
    have := FS.mkdirAllFuel_grew 0o600
      ((filepath.Dir (dstPath dtb options.MountPrefix)).length + 1) s2
      (filepath.Dir (dstPath dtb options.MountPrefix))
    unfold FS.MkdirAll at h3'
    rw [h3'] at this
    exact this
  have hmode3 : s3.euid = 0 ∨ ∃ u g m d,
      s3.Stat (srcPath dtb options.ArtifactsPath) = .ok (.file u g m d) ∧
        m.testBit 8 = true ∧ m.testBit 7 = true := by
    rcases hmode with h0 | ⟨u, g, m, d, hs, h8, h7⟩
    · exact Or.inl (hg.2.1.trans h0)
    · exact Or.inr ⟨u, g, m, d, hg.stat _ _ hs, h8, h7⟩
  have hp34 := FS.CopyFile_pres s3 _ _ s4 h4'
  have hp : s2.Pres s4 := FS.pres_trans hg.pres hp34
  obtain ⟨ls, ld, us, gs, ms, ds, ud, gd, hns, hls, hsl, hr, hnd, hdsl, hnodir, hsame, hown, hfs⟩ :=
    FS.CopyFile_ok s3 _ _ s4 h4'
  have g1 : posix.OpenFile options.InstallDisk (O_RDWR ||| O_CLOEXEC) 0o666 s4 = (.ok f, s4) := by
    obtain ⟨hnf, hfsl, u, g, m, d, hf, hfr, hfw⟩ :=
      FS.open_rdwr_ok s2 options.InstallDisk 0o666 f (congrArg Prod.fst h1)
    have hf3 := hg.node f _ hf
    by_cases heq : f = ld
    · have hld4 : s4.nodes f = some (.file ud gd ms (if ls = ld then [] else ds)) := by
        rw [hfs, heq]; simp [FS.store]
      have hbits : ∀ b, (b = 1 ∨ b = 2) → s3.euid = 0 ∨ ms.testBit (b + 6) = true := by
        intro b hb
        rcases hmode3 with h0 | ⟨u, g, m, d, hst, h8, h7⟩
        · exact Or.inl h0
        · rw [FS.stat_of_node s3 _ ls _ hns hls] at hst
          cases hst
          rcases hb with hb | hb
          · subst hb; exact Or.inr h7
          · subst hb; exact Or.inr h8
      have hperm : ∀ b, (b = 1 ∨ b = 2) → s4.permits ud gd ms b = true := by
        intro b hb
        rw [hfs, FS.store_permits]
        exact FS.permits_owner s3 ud gd ms b hown (hbits b hb)
      exact FS.open_rdwr_file s4 _ 0o666 f ud gd ms _ (hp.namei _ f hnf) hfsl hld4
        (hperm 2 (Or.inr rfl)) (hperm 1 (Or.inl rfl))
    · have hf4 : s4.nodes f = some (.file u g m d) := by
        rw [hfs]; simp [FS.store, heq, hf3]
      have hpe : ∀ b, s4.permits u g m b = s2.permits u g m b := fun b => hp.permits u g m b
      exact FS.open_rdwr_file s4 _ 0o666 f u g m d (hp.namei _ f hnf) hfsl hf4
        (by rw [hpe]; exact hfr) (by rw [hpe]; exact hfw)
  have g2 : posix.Sync f s4 = (none, s4) := rfl
  obtain ⟨nd, hnd', hdir⟩ := FS.mkdirAllFuel_stat 0o600 _ s2 _ s3 h3'
  have g3 : posix.MkdirAll (filepath.Dir (dstPath dtb options.MountPrefix)) 0o600 s4
      = (none, s4) :=
    FS.MkdirAll_fast s4 _ _ nd (hp34.stat_dir _ nd hnd' hdir) hdir
  have g4 : posix.CopyFile (srcPath dtb options.ArtifactsPath)
      (dstPath dtb options.MountPrefix) s4 = (none, s4) :=
    FS.CopyFile_idem s3 _ _ s4 h4' hmode3
  refine ⟨(installWith_none_iff dtb posix options _).2 ⟨f, s4, s4, s4, s4, g1, g2, g3, g4⟩, ?_⟩
  rw [installWith_success_st dtb posix options ⟨s4, log'⟩ f s4 s4 s4 s4 g1 g2 g3 g4]
  rfl

/-! ### Path resolution of cleaned paths -/

theorem head_rbuf (rooted : Bool) (st : Nat × List Name) (hst : ValidSt rooted st)
    (hne : rbuf rooted st ≠ []) (Y : List Char) :
    decide (((rbuf rooted st).reverse ++ Y).head? = some '/') = rooted := by
  obtain ⟨k, ns⟩ := st
  cases rooted
  · have hl := rbuf_false_last k ns hst
    cases hb : (rbuf false (k, ns)).reverse with
    | nil => simp at hb; exact absurd hb hne
    | cons a b =>
      have : (rbuf false (k, ns)).getLast? = some a := by
        rw [← List.head?_reverse, hb]; rfl
      rw [this] at hl
      have ha : a ≠ '/' := fun h => hl (by rw [h])
      simp [ha]
  · obtain ⟨X, hX⟩ := rbuf_true_last k ns
    rw [hX]
    simp

theorem splitPath_canon (rooted : Bool) (st : Nat × List Name) (hst : ValidSt rooted st)
    (T : List Char) (hT : T = [] ∨ T = ['/']) :
    splitPath ((rbuf rooted st).reverse ++ T) = compsOf st := by
  obtain ⟨k, ns⟩ := st
  rcases hT with rfl | rfl
  · rw [List.append_nil]; exact splitPath_rbuf rooted k ns hst
  · rw [splitPath_append, splitPath_nil, List.append_nil]
    exact splitPath_rbuf rooted k ns hst

theorem namei_canon (fs : FS) (rooted : Bool) (st : Nat × List Name) (hst : ValidSt rooted st)
    (hne : rbuf rooted st ≠ []) (T : List Char) (hT : T = [] ∨ T = ['/']) :
    fs.namei ((rbuf rooted st).reverse ++ T)
      = fs.walk (if rooted = true then [] else fs.cwd) (compsOf st) := by
  have hh := head_rbuf rooted st hst hne T
  have hs := splitPath_canon rooted st hst T hT
  unfold FS.namei
  cases hp : (rbuf rooted st).reverse ++ T with
  | nil =>
    exfalso
    have : (rbuf rooted st).reverse = [] := (List.append_eq_nil.1 hp).1
    exact hne (by simpa using this)
  | cons c rest =>
    rw [hp] at hh hs
    simp only []
    rw [hs]
    cases rooted
    · have : c ≠ '/' := by simpa using hh
      simp [this]
    · have : c = '/' := by simpa using hh
      simp [this]

theorem parentOf_elem (X e T : List Char) (he : IsElem e) (hT : T = [] ∨ T = ['/'])
    (hX : X = [] ∨ X.head? = some '/') :
    parentOf (X.reverse ++ e ++ T) = X.reverse := by
  unfold parentOf
  have hrev : (X.reverse ++ e ++ T).reverse = T.reverse ++ (e.reverse ++ X) := by simp
  rw [hrev]
  have he' : ∀ c ∈ e.reverse, c ≠ '/' := fun c hc h => he.2 (h ▸ List.mem_reverse.1 hc)
  have hne : e.reverse ≠ [] := by simpa using he.1
  have h1 : (T.reverse ++ (e.reverse ++ X)).dropWhile (· = '/') = e.reverse ++ X := by
    cases her : e.reverse with
    | nil => exact absurd her hne
    | cons a b =>
      have ha : a ≠ '/' := he' a (by rw [her]; exact List.mem_cons_self _ _)
      rcases hT with rfl | rfl
      · simp [List.dropWhile, ha]
      · simp [List.dropWhile, ha]
  rw [h1]
  have h2 : (e.reverse ++ X).dropWhile (· ≠ '/') = X := by
    rcases hX with rfl | hX
    · simp only [List.append_nil]
      rw [List.dropWhile_eq_nil_iff]
      intro c hc
      simpa using he' c hc
    · cases X with
      | nil => simp at hX
      | cons x X' =>
        have : x = '/' := by simpa using hX
        subst this
        exact dropWhile_append_of_all e.reverse X' he'
  rw [h2]

theorem walk_snoc (fs : FS) (cs : List Name) (n : Name) :
    ∀ (start loc : Loc), fs.walk start (cs ++ [n]) = .ok loc →
      ∃ lp, fs.walk start cs = .ok lp ∧ loc = stepLoc lp n := by
  induction cs with
  | nil =>
    intro start loc h
    simp only [List.nil_append] at h
    unfold FS.walk at h
    cases hs : fs.searchable start with
    | some e => rw [hs] at h; cases h
    | none =>
      rw [hs] at h
      simp only [] at h
      unfold FS.walk at h
      cases h
      exact ⟨start, rfl, rfl⟩
  | cons c cs ih =>
    intro start loc h
    rw [List.cons_append] at h
    unfold FS.walk at h ⊢
    cases hs : fs.searchable start with
    | some e => rw [hs] at h; cases h
    | none =>
      rw [hs] at h
      exact ih _ _ h

theorem stepLoc_name (l : Loc) (n : Name) (hn : IsName n) : stepLoc l n = l ++ [n] := by
  simp only [stepLoc, if_neg hn.2.2, if_neg hn.2.1]

theorem walk_dots (fs : FS) (k : Nat) :
    ∀ (start loc : Loc), fs.walk start (List.replicate k ['.', '.']) = .ok loc →
      loc = List.dropLast^[k] start := by
  induction k with
  | zero =>
    intro start loc h
    unfold FS.walk at h
    cases h
    rfl
  | succ k ih =>
    intro start loc h
    rw [List.replicate_succ] at h
    unfold FS.walk at h
    cases hs : fs.searchable start with
    | some e => rw [hs] at h; cases h
    | none =>
      rw [hs] at h
      simp only [] at h
      have := ih _ _ h
      rw [this, Function.iterate_succ_apply]
      rfl

/-! ### `MkdirAll` creates directories only on the way to its argument -/

theorem FS.Mkdir_ok_parent (fs : FS) (p : GoString) (perm : Nat) (fs' : FS)
    (h : fs.Mkdir p perm = (none, fs')) :
    ∃ loc, fs.namei p = .ok loc ∧ fs.nodes loc = none ∧ fs.nodes loc.dropLast ≠ none := by
  unfold FS.Mkdir at h
  cases hn : fs.namei p with
  | error e => rw [hn] at h; cases h
  | ok loc =>
    rw [hn] at h
    simp only [] at h
    cases hl : fs.nodes loc with
    | some n => rw [hl] at h; cases h
    | none =>
      rw [hl] at h
      simp only [] at h
      unfold FS.create at h
      cases hp : fs.nodes loc.dropLast with
      | none => rw [hp] at h; cases h
      | some nd => exact ⟨loc, rfl, hl, by rw [hp]; simp⟩

theorem FS.Mkdir_err_st (fs : FS) (p : GoString) (perm : Nat) (e : Errno) (fs' : FS)
    (h : fs.Mkdir p perm = (some e, fs')) : fs' = fs := by
  unfold FS.Mkdir at h
  cases hn : fs.namei p with
  | error e' => rw [hn] at h; cases h; rfl
  | ok loc =>
    rw [hn] at h
    simp only [] at h
    cases hl : fs.nodes loc with
    | some n => rw [hl] at h; cases h; rfl
    | none =>
      rw [hl] at h
      exact FS.create_err fs loc _ e fs' h

theorem FS.mkdirAllFuel_unchanged (fuel : Nat) (fs : FS) (p : GoString) (perm : Nat)
    (hrec : (if 0 < (parentOf p).length then FS.mkdirAllFuel fuel fs (parentOf p) perm
      else (none, fs)).2 = fs)
    (hno : ∀ loc, fs.namei p = .ok loc → fs.nodes loc = none → fs.nodes loc.dropLast = none) :
    (FS.mkdirAllFuel (fuel + 1) fs p perm).2 = fs := by
  unfold FS.mkdirAllFuel
  cases fs.Stat p with
  | ok nd => simp only []; split <;> rfl
  | error e =>
    simp only []
    rcases hrr : (if 0 < (parentOf p).length then FS.mkdirAllFuel fuel fs (parentOf p) perm
          else (none, fs)) with ⟨_ | e1, fs1⟩
    · rw [hrr] at hrec
      simp only [] at hrec ⊢
      subst hrec
      rcases hmm : fs1.Mkdir p perm with ⟨_ | e2, fs2⟩
      · exfalso
        obtain ⟨loc, h1, h2, h3⟩ := FS.Mkdir_ok_parent fs1 p perm fs2 hmm
        exact h3 (hno loc h1 h2)
      · have := FS.Mkdir_err_st fs1 p perm e2 fs2 hmm
        subst this
        simp only []
        cases fs2.Stat p with
        | ok nd => simp only []; split <;> rfl
        | error e => rfl
    · rw [hrr] at hrec
      exact hrec

theorem FS.mkdirAllFuel_zero_st (fs : FS) (p : GoString) (perm : Nat) :
    (FS.mkdirAllFuel 0 fs p perm).2 = fs := by
  unfold FS.mkdirAllFuel
  rfl

theorem FS.mkdirAllFuel_succ_ok (fuel : Nat) (fs : FS) (p : GoString) (perm : Nat) (fs' : FS)
    (h : FS.mkdirAllFuel (fuel + 1) fs p perm = (none, fs')) :
    fs' = fs ∨ ∃ fs1,
      (if 0 < (parentOf p).length then FS.mkdirAllFuel fuel fs (parentOf p) perm
        else (none, fs)) = (none, fs1) ∧
      (fs' = fs1 ∨ fs1.Mkdir p perm = (none, fs')) := by
  unfold FS.mkdirAllFuel at h
  cases hs : fs.Stat p with
  | ok nd =>
    rw [hs] at h
    simp only [] at h
    split at h
    · cases h; exact Or.inl rfl
    · cases h
  | error e =>
    rw [hs] at h
    simp only [] at h
    rcases hrr : (if 0 < (parentOf p).length then FS.mkdirAllFuel fuel fs (parentOf p) perm
          else (none, fs)) with ⟨_ | e1, fs1⟩
    · rw [hrr] at h
      simp only [] at h
      right
      refine ⟨fs1, rfl, ?_⟩
      rcases hmm : fs1.Mkdir p perm with ⟨_ | e2, fs2⟩
      · rw [hmm] at h
        simp only [] at h
        cases h
        exact Or.inr rfl
      · rw [hmm] at h
        simp only [] at h
        have e := FS.Mkdir_err_st fs1 p perm e2 fs2 hmm
        subst e
        left
        cases hs2 : fs2.Stat p with
        | ok nd =>
          rw [hs2] at h
          simp only [] at h
          split at h
          · cases h; rfl
          · cases h
        | error e => rw [hs2] at h; cases h
    · rw [hrr] at h
      cases h

theorem mkdirAll_root_unchanged (fs : FS) (perm fuel : Nat) (T : List Char)
    (hT : T = [] ∨ T = ['/']) :
    (FS.mkdirAllFuel fuel fs ('/' :: T) perm).2 = fs := by
  cases fuel with
  | zero => exact FS.mkdirAllFuel_zero_st fs _ perm
  | succ fuel =>
    have hpar : parentOf ('/' :: T) = [] := by
      rcases hT with rfl | rfl <;> decide
    have hsp : splitPath ('/' :: T) = [] := by
      rcases hT with rfl | rfl <;> decide
    apply FS.mkdirAllFuel_unchanged
    · rw [hpar]; rfl
    · intro loc hn hl
      unfold FS.namei at hn
      simp only [if_true, hsp] at hn
      unfold FS.walk at hn
      cases hn
      exact hl

theorem dots_succ_reverse (k : Nat) :
    ∃ X, (X = [] ∨ X.head? = some '/') ∧ (dots (k + 1)).reverse = X.reverse ++ ['.', '.'] ∧
      (k = 0 → X = []) ∧ (∀ j, k = j + 1 → X.reverse = (dots (j + 1)).reverse ++ ['/']) := by
  cases k with
  | zero => exact ⟨[], Or.inl rfl, rfl, fun _ => rfl, fun j h => by omega⟩
  | succ j =>
    refine ⟨'/' :: dots (j + 1), Or.inr rfl, ?_, fun h => by omega, fun i h => ?_⟩
    · have hpos : 0 < (dots (j + 1)).length := by simp [dots]
      rw [dots, if_pos hpos]
      simp
    · have : i = j := by omega
      subst this
      simp

theorem mkdirAll_dots_unchanged (fs : FS) (perm : Nat)
    (hcwd : ∀ j, fs.nodes (List.dropLast^[j] fs.cwd) ≠ none) :
    ∀ (k fuel : Nat) (T : List Char), (T = [] ∨ T = ['/']) →
      (FS.mkdirAllFuel fuel fs ((dots (k + 1)).reverse ++ T) perm).2 = fs := by
  intro k
  induction k with
  | zero =>
    intro fuel T hT
    cases fuel with
    | zero => exact FS.mkdirAllFuel_zero_st fs _ perm
    | succ fuel =>
      obtain ⟨X, hX, hrev, hX0, _⟩ := dots_succ_reverse 0
      have hX' := hX0 rfl
      subst hX'
      have hpar : parentOf ((dots 1).reverse ++ T) = [] := by
        rw [hrev]
        exact parentOf_elem [] ['.', '.'] T ⟨by simp, by decide⟩ hT (Or.inl rfl)
      apply FS.mkdirAllFuel_unchanged
      · rw [hpar]; rfl
      · intro loc hn hl
        exfalso
        have hv : ValidSt false (1, []) := ⟨by simp, by simp⟩
        have hc := namei_canon fs false (1, []) hv (by simp [rbuf, dots]) T hT
        have hb : rbuf false (1, []) = dots 1 := rfl
        rw [hb] at hc
        rw [hc] at hn
        simp only [compsOf, List.reverse_nil, List.append_nil, Bool.false_eq_true, if_false] at hn
        have := walk_dots fs 1 _ _ hn
        exact hcwd 1 (this ▸ hl)
  | succ k ih =>
    intro fuel T hT
    cases fuel with
    | zero => exact FS.mkdirAllFuel_zero_st fs _ perm
    | succ fuel =>
      obtain ⟨X, hX, hrev, _, hXs⟩ := dots_succ_reverse (k + 1)
      have hXr := hXs k rfl
      have hpar : parentOf ((dots (k + 1 + 1)).reverse ++ T) = (dots (k + 1)).reverse ++ ['/'] := by
        rw [hrev, ← hXr]
        exact parentOf_elem X ['.', '.'] T ⟨by simp, by decide⟩ hT hX
      apply FS.mkdirAllFuel_unchanged
      · rw [hpar]
        have hpos : 0 < ((dots (k + 1)).reverse ++ ['/']).length := by simp
        rw [if_pos hpos]
        exact ih fuel ['/'] (Or.inr rfl)
      · intro loc hn hl
        exfalso
        have hv : ValidSt false (k + 1 + 1, []) := ⟨by simp, by simp⟩
        have hc := namei_canon fs false (k + 1 + 1, []) hv (by simp [rbuf, dots]) T hT
        have hb : rbuf false (k + 1 + 1, []) = dots (k + 1 + 1) := rfl
        rw [hb] at hc
        rw [hc] at hn
        simp only [compsOf, List.reverse_nil, List.append_nil, Bool.false_eq_true, if_false] at hn
        have := walk_dots fs (k + 1 + 1) _ _ hn
        exact hcwd (k + 1 + 1) (this ▸ hl)

theorem compsOf_cons (k : Nat) (n : Name) (ns : List Name) :
    compsOf (k, n :: ns) = compsOf (k, ns) ++ [n] := by
  simp [compsOf]

theorem FS.namei_of_stat (fs : FS) (p : GoString) (nd : Node) (h : fs.Stat p = .ok nd) :
    ∃ loc, fs.namei p = .ok loc := by
  unfold FS.Stat at h
  cases hn : fs.namei p with
  | error e => rw [hn] at h; cases h
  | ok loc => exact ⟨loc, rfl⟩

theorem mkdirAll_local (perm : Nat) (fs : FS) (r : Bool) (k : Nat)
    (hcwd : r = false → ∀ j, fs.nodes (List.dropLast^[j] fs.cwd) ≠ none) :
    ∀ (ns : List Name) (T : List Char) (fuel : Nat) (fs' : FS),
      NormalSt r (k, ns) → (T = [] ∨ T = ['/']) → rbuf r (k, ns) ≠ [] →
      FS.mkdirAllFuel fuel fs ((rbuf r (k, ns)).reverse ++ T) perm = (none, fs') →
      ∀ l, fs'.nodes l ≠ fs.nodes l →
        ∃ loc, fs'.namei ((rbuf r (k, ns)).reverse ++ T) = .ok loc ∧ l <+: loc := by
  intro ns
  induction ns with
  | nil =>
    intro T fuel fs' hN hT hne h l hl
    exfalso
    apply hl
    have hfs : fs' = fs := by
      have h2 := congrArg Prod.snd h
      simp only [] at h2
      rw [← h2]
      cases r with
      | true =>
        have hb : (rbuf true (k, [])).reverse ++ T = '/' :: T := rfl
        rw [hb]
        exact mkdirAll_root_unchanged fs perm fuel T hT
      | false =>
        have hb : rbuf false (k, []) = dots k := rfl
        rw [hb] at hne ⊢
        cases k with
        | zero => exact absurd rfl hne
        | succ k => exact mkdirAll_dots_unchanged fs perm (hcwd rfl) k fuel T hT
    rw [hfs]
  | cons n ns ih =>
    intro T fuel fs' hN hT hne h l hl
    have hn : IsName n := hN.2 n (List.mem_cons_self _ _)
    have hN' : NormalSt r (k, ns) := ⟨hN.1, fun m hm => hN.2 m (List.mem_cons_of_mem _ hm)⟩
    obtain ⟨nd, hstat, _⟩ := FS.mkdirAllFuel_stat perm fuel fs _ fs' h
    obtain ⟨loc, hloc⟩ := FS.namei_of_stat fs' _ nd hstat
    refine ⟨loc, hloc, ?_⟩
    have hc := namei_canon fs' r (k, n :: ns) hN.valid hne T hT
    rw [hc, compsOf_cons] at hloc
    obtain ⟨lp, hlp, hloceq⟩ := walk_snoc fs' _ n _ _ hloc
    rw [stepLoc_name lp n hn] at hloceq
    cases fuel with
    | zero => unfold FS.mkdirAllFuel at h; cases h
    | succ fuel =>
      rcases FS.mkdirAllFuel_succ_ok fuel fs _ perm fs' h with hfs | ⟨fs1, hrec, hcase⟩
      · exact absurd (by rw [hfs]) hl
      · have hPres1 : fs1.Pres fs' := by
          rcases hcase with hfs | hmk
          · rw [hfs]; exact FS.pres_refl fs1
          · have := FS.Mkdir_grew fs1 ((rbuf r (k, n :: ns)).reverse ++ T) perm
            rw [hmk] at this
            exact this.pres
        -- changes of the recursive call lie on the way to the parent
        have hA : ∀ l, fs1.nodes l ≠ fs.nodes l → l <+: lp := by
          by_cases hsep : (r = true ∧ (rbuf r (k, ns)).length ≠ 1) ∨
              (r = false ∧ (rbuf r (k, ns)).length ≠ 0)
          · have hB : rbuf r (k, ns) ≠ [] := by
              intro hB
              rw [hB] at hsep
              rcases hsep with ⟨hr, _⟩ | ⟨_, h0⟩
              · subst hr
                obtain ⟨X, hX⟩ := rbuf_true_last k ns
                rw [hB] at hX
                simp at hX
              · exact h0 rfl
            have hpath : (rbuf r (k, n :: ns)).reverse ++ T
                = ('/' :: rbuf r (k, ns)).reverse ++ n ++ T := by
              rw [rbuf_cons]; unfold push; rw [if_pos hsep]; simp
            have hpar : parentOf ((rbuf r (k, n :: ns)).reverse ++ T)
                = (rbuf r (k, ns)).reverse ++ ['/'] := by
              rw [hpath, parentOf_elem ('/' :: rbuf r (k, ns)) n T hn.1 hT (Or.inr rfl)]
              simp
            rw [hpar, if_pos (by simp)] at hrec
            intro l' hl'
            obtain ⟨lp1, hlp1, hpre⟩ := ih ['/'] fuel fs1 hN' (Or.inr rfl) hB hrec l' hl'
            rw [namei_canon fs1 r (k, ns) hN'.valid hB ['/'] (Or.inr rfl)] at hlp1
            have h2 := hPres1.walk _ _ _ hlp1
            rw [← hPres1.1] at h2
            rw [hlp] at h2
            cases h2
            exact hpre
          · obtain ⟨hns, hk⟩ := rbuf_nosep_nil r k ns hN'.valid hsep
            subst hns hk
            have hpath : (rbuf r (0, [n])).reverse ++ T
                = (rbuf r (0, [])).reverse ++ n ++ T := by
              rw [rbuf_cons]; unfold push; rw [if_neg hsep]; simp
            have hX : rbuf r (0, []) = [] ∨ (rbuf r (0, [])).head? = some '/' := by
              cases r
              · left; rfl
              · right; rfl
            have hpar : parentOf ((rbuf r (0, [n])).reverse ++ T) = (rbuf r (0, [])).reverse := by
              rw [hpath, parentOf_elem (rbuf r (0, [])) n T hn.1 hT hX]
            rw [hpar] at hrec
            have hfs1 : fs1 = fs := by
              have h2 := congrArg Prod.snd hrec
              simp only [] at h2
              rw [← h2]
              cases r
              · rfl
              · have hb : (rbuf true (0, [])).reverse = '/' :: [] := rfl
                rw [hb, if_pos (by simp)]
                exact mkdirAll_root_unchanged fs perm fuel [] (Or.inl rfl)
            intro l' hl'
            exact absurd (by rw [hfs1]) hl'
        by_cases hchg : fs1.nodes l = fs.nodes l
        · rcases hcase with hfs | hmk
          · exact absurd (by rw [hfs, hchg]) hl
          · obtain ⟨loc0, hn0, hl0, hfs⟩ := FS.Mkdir_ok fs1 _ perm fs' hmk
            have hll : l = loc0 := by
              by_contra hne'
              apply hl
              rw [hfs, ← hchg]
              simp [FS.store, hne']
            have h3 := hPres1.namei _ _ hn0
            rw [hc, compsOf_cons, hloc] at h3
            cases h3
            rw [hll]
        · rw [hloceq]
          exact (hA l hchg).trans (List.prefix_append lp [n])

theorem FS.CopyFile_missing (fs : FS) (src dst : GoString) (e : Errno)
    (h : fs.Stat src = .error e) : ∃ e', fs.CopyFile src dst = (some e', fs) := by
  unfold FS.CopyFile
  rw [FS.open_rdonly]
  unfold FS.Stat at h
  cases hn : fs.namei src with
  | error e1 => exact ⟨e1, rfl⟩
  | ok ls =>
    rw [hn] at h
    simp only [] at h ⊢
    cases hl : fs.nodes ls with
    | none => exact ⟨.ENOENT, rfl⟩
    | some nd => rw [hl] at h; cases h

theorem installWith_copyFailed {σ ε F T : Type} (dtb : GoString) (sys : Sys σ ε F)
    (options : InstallOptions T) (w : World σ F) (f : F) (s1 s2 s3 s4 : σ) (e : ε)
    (h1 : sys.OpenFile options.InstallDisk (O_RDWR ||| O_CLOEXEC) 0o666 w.st = (.ok f, s1))
    (h2 : sys.Sync f s1 = (none, s2))
    (h3 : sys.MkdirAll (filepath.Dir (dstPath dtb options.MountPrefix)) 0o600 s2 = (none, s3))
    (h4 : sys.CopyFile (srcPath dtb options.ArtifactsPath) (dstPath dtb options.MountPrefix) s3
      = (some e, s4)) :
    (installWith dtb sys options w).1 = some e ∧
      (installWith dtb sys options w).2.st = (sys.Close f s4).2 ∧
      (installWith dtb sys options w).2.log = w.log ++
        [.openFile options.InstallDisk (O_RDWR ||| O_CLOEXEC) 0o666, .sync f,
          .mkdirAll (filepath.Dir (dstPath dtb options.MountPrefix)) 0o600,
          .copyFile (srcPath dtb options.ArtifactsPath) (dstPath dtb options.MountPrefix),
          .close f] := by
  unfold srcPath dstPath at *
  unfold installWith os.OpenFile File.Sync os.MkdirAll copy.File File.Close
  simp only [h1, h2, h3, h4, List.append_assoc, List.cons_append, List.nil_append, and_self]

theorem posix_copy_failure {T : Type} (file : Name) (hfile : IsName file)
    (options : InstallOptions T) (fs : FS) (log : List (Call Loc)) (hcwd : fs.CwdExists)
    (hopen : ∃ f, (fs.OpenFile options.InstallDisk (O_RDWR ||| O_CLOEXEC) 0o666).1 = .ok f)
    (hmk : (fs.MkdirAll (filepath.Dir (dstPath ("nvidia/".toList ++ file) options.MountPrefix))
      0o600).1 = none)
    (hsrc : ∃ e, (fs.MkdirAll (filepath.Dir (dstPath ("nvidia/".toList ++ file)
        options.MountPrefix)) 0o600).2.Stat
      (srcPath ("nvidia/".toList ++ file) options.ArtifactsPath) = .error e) :
    (∃ e f, (installWith ("nvidia/".toList ++ file) posix options ⟨fs, log⟩).1 = some e ∧
      ((fs.MkdirAll (filepath.Dir (dstPath ("nvidia/".toList ++ file) options.MountPrefix))
        0o600).2.CopyFile (srcPath ("nvidia/".toList ++ file) options.ArtifactsPath)
        (dstPath ("nvidia/".toList ++ file) options.MountPrefix)).1 = some e ∧
      (installWith ("nvidia/".toList ++ file) posix options ⟨fs, log⟩).2.log = log ++
        [.openFile options.InstallDisk (O_RDWR ||| O_CLOEXEC) 0o666, .sync f,
          .mkdirAll (filepath.Dir (dstPath ("nvidia/".toList ++ file) options.MountPrefix)) 0o600,
          .copyFile (srcPath ("nvidia/".toList ++ file) options.ArtifactsPath)
            (dstPath ("nvidia/".toList ++ file) options.MountPrefix),
          .close f]) ∧
      FS.Grew 0o600 fs (installWith ("nvidia/".toList ++ file) posix options ⟨fs, log⟩).2.st ∧
      ∀ l, (installWith ("nvidia/".toList ++ file) posix options ⟨fs, log⟩).2.st.nodes l
          ≠ fs.nodes l →
        ∃ loc, (installWith ("nvidia/".toList ++ file) posix options ⟨fs, log⟩).2.st.namei
            (filepath.Dir (dstPath ("nvidia/".toList ++ file) options.MountPrefix)) = .ok loc ∧
          l <+: loc := by
  obtain ⟨f, hopen⟩ := hopen
  obtain ⟨e0, hsrc⟩ := hsrc
  have h1 : posix.OpenFile options.InstallDisk (O_RDWR ||| O_CLOEXEC) 0o666 fs = (.ok f, fs) :=
    Prod.ext hopen (posix_open_rdwr_st fs options.InstallDisk 0o666)
  have h2 : posix.Sync f fs = (none, fs) := rfl
  rcases hm : fs.MkdirAll (filepath.Dir (dstPath ("nvidia/".toList ++ file) options.MountPrefix))
    0o600 with ⟨r3, fs3⟩
  rw [hm] at hmk hsrc
  simp only [] at hmk hsrc
  subst hmk
  have h3 : posix.MkdirAll (filepath.Dir (dstPath ("nvidia/".toList ++ file) options.MountPrefix))
      0o600 fs = (none, fs3) := hm
  obtain ⟨e, h4'⟩ := FS.CopyFile_missing fs3 _
    (dstPath ("nvidia/".toList ++ file) options.MountPrefix) e0 hsrc
  have h4 : posix.CopyFile (srcPath ("nvidia/".toList ++ file) options.ArtifactsPath)
      (dstPath ("nvidia/".toList ++ file) options.MountPrefix) fs3 = (some e, fs3) := h4'
  obtain ⟨r1, r2, r3⟩ := installWith_copyFailed _ posix options ⟨fs, log⟩ f fs fs fs3 fs3 e
    h1 h2 h3 h4
  have hst : (installWith ("nvidia/".toList ++ file) posix options ⟨fs, log⟩).2.st = fs3 := r2
  rw [hst]
  unfold FS.MkdirAll at hm
  refine ⟨⟨e, f, r1, congrArg Prod.fst h4', r3⟩, ?_, ?_⟩
  · have := FS.mkdirAllFuel_grew 0o600
      ((filepath.Dir (dstPath ("nvidia/".toList ++ file) options.MountPrefix)).length + 1) fs
      (filepath.Dir (dstPath ("nvidia/".toList ++ file) options.MountPrefix))
    rw [hm] at this
    exact this
  · rw [Dir_dstPath file hfile options.MountPrefix] at hm ⊢
    have hN := dstDir_normal options.MountPrefix
    have hne := rbuf_ne_nil (dstRooted options.MountPrefix)
      (stOf (dstRooted options.MountPrefix) options.MountPrefix).1 "nvidia".toList
      ("dtb".toList :: "EFI".toList :: "boot".toList ::
        (stOf (dstRooted options.MountPrefix) options.MountPrefix).2) isName_nvidia.1
    have hloc := mkdirAll_local 0o600 fs (dstRooted options.MountPrefix)
      (stOf (dstRooted options.MountPrefix) options.MountPrefix).1 (fun _ => hcwd)
      ("nvidia".toList :: "dtb".toList :: "EFI".toList :: "boot".toList ::
        (stOf (dstRooted options.MountPrefix) options.MountPrefix).2) [] _ fs3 hN (Or.inl rfl) hne
      (by rw [List.append_nil]; exact hm)
    intro l hl
    have := hloc l hl
    rw [List.append_nil] at this
    exact this

theorem imgFS_cwdExists (euid : Nat) : (imgFS euid).CwdExists := by
  intro j
  have h : List.dropLast^[j] (imgFS euid).cwd = [] := by
    induction j with
    | zero => rfl
    | succ j ih => rw [Function.iterate_succ_apply', ih]; rfl
  rw [h]
  simp [imgFS]

/-! ### The fuel of `MkdirAll` suffices -/

theorem dropWhile_length_le (q : Char → Bool) (l : List Char) :
    (l.dropWhile q).length ≤ l.length :=
  List.Sublist.length_le (List.dropWhile_sublist q)

theorem parentOf_length_lt (p : GoString) (h : 0 < (parentOf p).length) :
    (parentOf p).length < p.length := by
  unfold parentOf at h ⊢
  rw [List.length_reverse] at h ⊢
  have h1 := dropWhile_length_le (· = '/') p.reverse
  rw [List.length_reverse] at h1
  cases hq : p.reverse.dropWhile (· = '/') with
  | nil => rw [hq] at h; simp at h
  | cons c q' =>
    rw [hq] at h1
    have hc : c ≠ '/' := by
      intro hc
      have := List.head?_dropWhile_not (· = '/') p.reverse
      rw [hq] at this
      simp [hc] at this
    have h2 : (c :: q').dropWhile (· ≠ '/') = q'.dropWhile (· ≠ '/') := by
      simp [List.dropWhile, hc]
    rw [h2]
    have h3 := dropWhile_length_le (· ≠ '/') q'
    simp only [List.length_cons] at h1
    omega

theorem mkdirAllFuel_enough (perm : Nat) (fuel : Nat) :
    ∀ (fuel' : Nat) (fs : FS) (p : GoString), p.length < fuel → p.length < fuel' →
      FS.mkdirAllFuel fuel fs p perm = FS.mkdirAllFuel fuel' fs p perm := by
  induction fuel with
  | zero => intro fuel' fs p h; omega
  | succ fuel ih =>
    intro fuel' fs p h h'
    cases fuel' with
    | zero => omega
    | succ fuel' =>
      have hrec : (if 0 < (parentOf p).length then FS.mkdirAllFuel fuel fs (parentOf p) perm
            else (none, fs))
          = (if 0 < (parentOf p).length then FS.mkdirAllFuel fuel' fs (parentOf p) perm
            else (none, fs)) := by
        by_cases hp : 0 < (parentOf p).length
        · have := parentOf_length_lt p hp
          rw [if_pos hp, if_pos hp]
          exact ih fuel' fs (parentOf p) (by omega) (by omega)
        · rw [if_neg hp, if_neg hp]
      unfold FS.mkdirAllFuel
      rw [hrec]

/-! ### Cleaning a path does not change where it leads -/

theorem walk_cons_ok (fs : FS) (cur loc : Loc) (c : Name) (cs : List Name)
    (h : fs.walk cur (c :: cs) = .ok loc) :
    fs.searchable cur = none ∧ fs.walk (stepLoc cur c) cs = .ok loc := by
  unfold FS.walk at h
  cases hs : fs.searchable cur with
  | some e => rw [hs] at h; cases h
  | none => rw [hs] at h; exact ⟨rfl, h⟩

theorem walk_cons_eq (fs : FS) (cur : Loc) (c : Name) (cs : List Name)
    (h : fs.searchable cur = none) : fs.walk cur (c :: cs) = fs.walk (stepLoc cur c) cs := by
  conv_lhs => unfold FS.walk
  rw [h]

theorem walk_append (fs : FS) (cs rest : List Name) :
    ∀ (start l : Loc), fs.walk start cs = .ok l → fs.walk start (cs ++ rest) = fs.walk l rest := by
  induction cs with
  | nil =>
    intro start l h
    unfold FS.walk at h
    cases h
    rfl
  | cons c cs ih =>
    intro start l h
    obtain ⟨hs, hw⟩ := walk_cons_ok fs start l c cs h
    rw [List.cons_append, walk_cons_eq fs start c _ hs]
    exact ih _ _ hw

theorem walk_single (fs : FS) (l : Loc) (c : Name) (h : fs.searchable l = none) :
    fs.walk l [c] = .ok (stepLoc l c) := by
  rw [walk_cons_eq fs l c [] h]
  rfl

theorem reach_walk {fs : FS} {start : Loc} {rooted : Bool} {k : Nat} :
    ∀ (ns : List Name) (cur : Loc), (∀ n ∈ ns, IsName n) → Reach fs start rooted k ns cur →
      fs.walk start (compsOf (k, ns)) = .ok cur := by
  intro ns
  induction ns with
  | nil =>
    intro cur _ h
    simpa [compsOf] using h.1
  | cons n ns ih =>
    intro cur hn h
    obtain ⟨prev, hcur, hprev, hs⟩ := h
    rw [compsOf_cons, walk_append fs _ [n] start prev
      (ih prev (fun m hm => hn m (List.mem_cons_of_mem _ hm)) hprev),
      walk_single fs prev n hs, stepLoc_name prev n (hn n (List.mem_cons_self _ _)), hcur]

theorem reach_step {fs : FS} {start : Loc} {rooted : Bool} (k : Nat) (ns : List Name)
    (cur : Loc) (c : Name) (h : Reach fs start rooted k ns cur)
    (hs : fs.searchable cur = none) :
    Reach fs start rooted (stepComp rooted (k, ns) c).1 (stepComp rooted (k, ns) c).2
      (stepLoc cur c) := by
  unfold stepComp stepLoc
  by_cases h1 : c = ['.']
  · have h1' : c ≠ ['.', '.'] := by rw [h1]; decide
    simp only [if_pos h1, if_neg h1']
    exact h
  · simp only [if_neg h1]
    by_cases h2 : c = ['.', '.']
    · simp only [if_pos h2]
      cases ns with
      | nil =>
        obtain ⟨hw, hr⟩ := h
        cases rooted with
        | true =>
          have hc : cur = [] := hr rfl
          subst hc
          simp only [if_true]
          exact ⟨hw, fun _ => rfl⟩
        | false =>
          simp only [Bool.false_eq_true, if_false]
          refine ⟨?_, fun h => by cases h⟩
          rw [List.replicate_succ', walk_append fs _ _ start cur hw, walk_single fs cur _ hs]
          rfl
      | cons n ns =>
        obtain ⟨prev, hcur, hprev, _⟩ := h
        subst hcur
        simpa using hprev
    · simp only [if_neg h2]
      exact ⟨cur, rfl, h, hs⟩

theorem reach_foldl {fs : FS} {start : Loc} {rooted : Bool} (cs : List Name) :
    ∀ (k : Nat) (ns : List Name) (cur lm : Loc), Reach fs start rooted k ns cur →
      fs.walk cur cs = .ok lm →
      Reach fs start rooted (cs.foldl (stepComp rooted) (k, ns)).1
        (cs.foldl (stepComp rooted) (k, ns)).2 lm := by
  induction cs with
  | nil =>
    intro k ns cur lm h hw
    unfold FS.walk at hw
    cases hw
    exact h
  | cons c cs ih =>
    intro k ns cur lm h hw
    obtain ⟨hs, hw'⟩ := walk_cons_ok fs cur lm c cs hw
    exact ih _ _ _ lm (reach_step k ns cur c h hs) hw'

theorem walk_clean (fs : FS) (rooted : Bool) (m : GoString) (lm : Loc)
    (h : fs.walk (if rooted = true then [] else fs.cwd) (splitPath m) = .ok lm) :
    fs.walk (if rooted = true then [] else fs.cwd) (compsOf (stOf rooted m)) = .ok lm := by
  have h0 : Reach fs (if rooted = true then [] else fs.cwd) rooted 0 []
      (if rooted = true then [] else fs.cwd) := by
    refine ⟨rfl, ?_⟩
    intro hr
    simp [hr]
  have := reach_foldl (splitPath m) 0 [] _ lm h0 h
  exact reach_walk _ lm (stOf_normal rooted m).2 this

/-! ### The run of a privileged process -/

theorem FS.permits_root (fs : FS) (h : fs.euid = 0) (u g m b : Nat) :
    fs.permits u g m b = true := by
  simp [FS.permits, h]

theorem FS.searchable_root (fs : FS) (h : fs.euid = 0) (l : Loc)
    (hd : ∃ u g m, fs.nodes l = some (.dir u g m)) : fs.searchable l = none := by
  obtain ⟨u, g, m, hd⟩ := hd
  simp [FS.searchable, hd, FS.permits_root fs h]

theorem compsOf_append (k : Nat) (news ns0 : List Name) :
    compsOf (k, news ++ ns0) = compsOf (k, ns0) ++ news.reverse := by
  simp [compsOf]

theorem FS.mkdirAllFuel_fast (fuel : Nat) (fs : FS) (p : GoString) (perm : Nat) (nd : Node)
    (hs : fs.Stat p = .ok nd) (hd : nd.IsDir = true) :
    FS.mkdirAllFuel (fuel + 1) fs p perm = (none, fs) := by
  unfold FS.mkdirAllFuel
  rw [hs]
  simp [hd]

theorem FS.mkdirAllFuel_slow (fuel : Nat) (fs fs1 fs2 : FS) (p : GoString) (perm : Nat)
    (e : Errno) (hs : fs.Stat p = .error e)
    (hrec : (if 0 < (parentOf p).length then FS.mkdirAllFuel fuel fs (parentOf p) perm
      else (none, fs)) = (none, fs1))
    (hmk : fs1.Mkdir p perm = (none, fs2)) :
    FS.mkdirAllFuel (fuel + 1) fs p perm = (none, fs2) := by
  unfold FS.mkdirAllFuel
  rw [hs]
  simp only []
  rw [hrec]
  simp only []
  rw [hmk]

theorem stat_fresh_fail (fs : FS) (lm : Loc) (hempty : ∀ x l, fs.nodes (lm ++ x :: l) = none)
    (x : Name) (xs : List Name) (hx : IsName x) (start : Loc) (cs : List Name)
    (hw : fs.walk start cs = .ok lm) (p : GoString)
    (hp : fs.namei p = fs.walk start (cs ++ x :: xs)) :
    ∃ e, fs.Stat p = .error e := by
  unfold FS.Stat
  rw [hp, walk_append fs cs _ start lm hw]
  cases hs : fs.searchable lm with
  | some e =>
    refine ⟨e, ?_⟩
    unfold FS.walk
    rw [hs]
  | none =>
    rw [walk_cons_eq fs lm x xs hs, stepLoc_name lm x hx]
    have hnone : fs.nodes (lm ++ [x]) = none := hempty x []
    cases xs with
    | nil =>
      refine ⟨.ENOENT, ?_⟩
      unfold FS.walk
      simp only [hnone]
    | cons y ys =>
      refine ⟨.ENOENT, ?_⟩
      unfold FS.walk
      simp [FS.searchable, hnone]

theorem rbuf_eq_nil (r : Bool) (k : Nat) (ns : List Name) (hst : ValidSt r (k, ns))
    (h : rbuf r (k, ns) = []) : r = false ∧ k = 0 ∧ ns = [] := by
  cases ns with
  | cons n ns => exact absurd h (rbuf_ne_nil r k n ns (hst.2 n (List.mem_cons_self _ _)))
  | nil =>
    cases r with
    | true => simp [rbuf] at h
    | false => exact ⟨rfl, dots_eq_nil k (by simpa [rbuf] using h), rfl⟩

theorem parentOf_push (r : Bool) (k : Nat) (n : Name) (ns : List Name) (T : List Char)
    (hst : ValidSt r (k, n :: ns)) (hT : T = [] ∨ T = ['/']) :
    ∃ T', (T' = [] ∨ T' = ['/']) ∧
      parentOf ((rbuf r (k, n :: ns)).reverse ++ T) = (rbuf r (k, ns)).reverse ++ T' ∧
      ((rbuf r (k, ns)).reverse ++ T').length < ((rbuf r (k, n :: ns)).reverse ++ T).length ∧
      (rbuf r (k, ns) = [] → T' = []) := by
  have hn : IsElem n := hst.2 n (List.mem_cons_self _ _)
  have hst' : ValidSt r (k, ns) := ⟨hst.1, fun m hm => hst.2 m (List.mem_cons_of_mem _ hm)⟩
  have hnpos : 0 < n.length := List.length_pos.2 hn.1
  by_cases hsep : (r = true ∧ (rbuf r (k, ns)).length ≠ 1) ∨
      (r = false ∧ (rbuf r (k, ns)).length ≠ 0)
  · have hpath : (rbuf r (k, n :: ns)).reverse ++ T
        = ('/' :: rbuf r (k, ns)).reverse ++ n ++ T := by
      rw [rbuf_cons]; unfold push; rw [if_pos hsep]; simp
    refine ⟨['/'], Or.inr rfl, ?_, ?_, ?_⟩
    · rw [hpath, parentOf_elem ('/' :: rbuf r (k, ns)) n T hn hT (Or.inr rfl)]
      simp
    · rw [hpath]; simp; omega
    · intro hB
      exfalso
      rw [hB] at hsep
      rcases hsep with ⟨hr, _⟩ | ⟨_, h0⟩
      · have := (rbuf_eq_nil r k ns hst' hB).1
        rw [hr] at this
        cases this
      · exact h0 rfl
  · obtain ⟨hns, hk⟩ := rbuf_nosep_nil r k ns hst' hsep
    subst hns hk
    have hpath : (rbuf r (0, [n])).reverse ++ T = (rbuf r (0, [])).reverse ++ n ++ T := by
      rw [rbuf_cons]; unfold push; rw [if_neg hsep]; simp
    have hX : rbuf r (0, []) = [] ∨ (rbuf r (0, [])).head? = some '/' := by
      cases r
      · left; rfl
      · right; rfl
    refine ⟨[], Or.inl rfl, ?_, ?_, fun _ => rfl⟩
    · rw [hpath, parentOf_elem (rbuf r (0, [])) n T hn hT hX]
      simp
    · rw [hpath]; simp; omega

theorem not_prefix_snoc (L : Loc) (n : Name) : ¬ (L ++ [n]) <+: L := by
  intro h
  have := h.length_le
  simp at this

theorem mkdirAll_fresh (perm : Nat) (fs : FS) (r : Bool) (k : Nat) (ns0 : List Name) (lm : Loc)
    (hroot : fs.euid = 0)
    (hw : fs.walk (if r = true then [] else fs.cwd) (compsOf (k, ns0)) = .ok lm)
    (hdir : ∃ u g m, fs.nodes lm = some (.dir u g m))
    (hempty : ∀ x l, fs.nodes (lm ++ x :: l) = none) :
    ∀ (news : List Name) (T : List Char) (fuel : Nat),
      NormalSt r (k, news ++ ns0) → (T = [] ∨ T = ['/']) → rbuf r (k, news ++ ns0) ≠ [] →
      ((rbuf r (k, news ++ ns0)).reverse ++ T).length < fuel →
      ∃ fs', FS.mkdirAllFuel fuel fs ((rbuf r (k, news ++ ns0)).reverse ++ T) perm
          = (none, fs') ∧
        FS.Grew perm fs fs' ∧
        fs'.walk lm news.reverse = .ok (lm ++ news.reverse) ∧
        (∃ u g m, fs'.nodes (lm ++ news.reverse) = some (.dir u g m)) ∧
        ∀ l, ¬ l <+: (lm ++ news.reverse) → fs'.nodes l = fs.nodes l := by
  intro news
  induction news with
  | nil =>
    intro T fuel hN hT hne hlen
    cases fuel with
    | zero => omega
    | succ fuel =>
      obtain ⟨u, g, m, hd⟩ := hdir
      have hs : fs.Stat ((rbuf r (k, [] ++ ns0)).reverse ++ T) = .ok (.dir u g m) := by
        unfold FS.Stat
        rw [namei_canon fs r (k, [] ++ ns0) hN.valid hne T hT]
        simp only [List.nil_append, hw, hd]
      refine ⟨fs, FS.mkdirAllFuel_fast fuel fs _ perm _ hs rfl, FS.grew_refl perm fs, ?_,
        ⟨u, g, m, by simpa using hd⟩, fun _ _ => rfl⟩
      simp [FS.walk]
  | cons n news ih =>
    intro T fuel hN hT hne hlen
    simp only [List.cons_append] at hN hne hlen ⊢
    have hn : IsName n := hN.2 n (List.mem_cons_self _ _)
    have hN' : NormalSt r (k, news ++ ns0) :=
      ⟨hN.1, fun m hm => hN.2 m (List.mem_cons_of_mem _ hm)⟩
    cases fuel with
    | zero => omega
    | succ fuel =>
      obtain ⟨T', hT', hpar, hparlen, hBnil⟩ := parentOf_push r k n (news ++ ns0) T hN.valid hT
      -- the recursive call
      have hrec : ∃ fs1,
          (if 0 < (parentOf ((rbuf r (k, n :: (news ++ ns0))).reverse ++ T)).length then
              FS.mkdirAllFuel fuel fs (parentOf ((rbuf r (k, n :: (news ++ ns0))).reverse ++ T)) perm
            else (none, fs)) = (none, fs1) ∧
          FS.Grew perm fs fs1 ∧
          fs1.walk lm news.reverse = .ok (lm ++ news.reverse) ∧
          (∃ u g m, fs1.nodes (lm ++ news.reverse) = some (.dir u g m)) ∧
          ∀ l, ¬ l <+: (lm ++ news.reverse) → fs1.nodes l = fs.nodes l := by
        rw [hpar]
        by_cases hB : rbuf r (k, news ++ ns0) = []
        · obtain ⟨_, _, hnil⟩ := rbuf_eq_nil r k (news ++ ns0) hN'.valid hB
          have hnews : news = [] := (List.append_eq_nil.1 hnil).1
          subst hnews
          have hT'' := hBnil hB
          subst hT''
          rw [hB]
          refine ⟨fs, by simp, FS.grew_refl perm fs, by simp [FS.walk], ?_, fun _ _ => rfl⟩
          simpa using hdir
        · have hpos : 0 < ((rbuf r (k, news ++ ns0)).reverse ++ T').length := by
            have : 0 < (rbuf r (k, news ++ ns0)).length := List.length_pos.2 hB
            simp; omega
          rw [if_pos hpos]
          exact ih T' fuel hN' hT' hB (by omega)
      obtain ⟨fs1, hrec, hg1, hw1, hd1, hloc1⟩ := hrec
      have hp1 := hg1.pres
      -- the path in fs and in fs1
      have hcomps : compsOf (k, n :: (news ++ ns0))
          = compsOf (k, ns0) ++ (news.reverse ++ [n]) := by
        rw [compsOf_cons, compsOf_append]; simp
      have hsearch1 : fs1.searchable (lm ++ news.reverse) = none :=
        FS.searchable_root fs1 (hp1.2.1.trans hroot) _ hd1
      have hfree : fs.nodes (lm ++ news.reverse ++ [n]) = none := by
        cases hr : news.reverse with
        | nil => simpa using hempty n []
        | cons x xs => simpa using hempty x (xs ++ [n])
      have hfree1 : fs1.nodes (lm ++ news.reverse ++ [n]) = none := by
        rw [hloc1 _ (not_prefix_snoc _ n)]
        exact hfree
      have hnamei1 : fs1.namei ((rbuf r (k, n :: (news ++ ns0))).reverse ++ T)
          = .ok (lm ++ news.reverse ++ [n]) := by
        rw [namei_canon fs1 r (k, n :: (news ++ ns0)) hN.valid hne T hT, hcomps, hp1.1,
          walk_append fs1 _ _ _ lm (hp1.walk _ _ _ hw), ← List.append_assoc] at *
        rw [walk_append fs1 _ _ lm _ hw1, walk_single fs1 _ n hsearch1,
          stepLoc_name _ n hn]
      have hstat : ∃ e, fs.Stat ((rbuf r (k, n :: (news ++ ns0))).reverse ++ T) = .error e := by
        have hp : fs.namei ((rbuf r (k, n :: (news ++ ns0))).reverse ++ T)
            = fs.walk (if r = true then [] else fs.cwd) (compsOf (k, ns0) ++ (news.reverse ++ [n])) := by
          rw [namei_canon fs r (k, n :: (news ++ ns0)) hN.valid hne T hT, hcomps]
        cases hr : news.reverse with
        | nil =>
          rw [hr] at hp
          exact stat_fresh_fail fs lm hempty n [] hn _ _ hw _ hp
        | cons x xs =>
          rw [hr] at hp
          have hx : IsName x := by
            have : x ∈ news.reverse := by rw [hr]; exact List.mem_cons_self _ _
            exact hN'.2 x (List.mem_append_left _ (List.mem_reverse.1 this))
          exact stat_fresh_fail fs lm hempty x (xs ++ [n]) hx _ _ hw _ hp
      obtain ⟨e, hstat⟩ := hstat
      obtain ⟨u, g, m, hd1'⟩ := hd1
      have hmk : fs1.Mkdir ((rbuf r (k, n :: (news ++ ns0))).reverse ++ T) perm
          = (none, fs1.store (lm ++ news.reverse ++ [n])
              (.dir fs1.euid fs1.egid (perm ^^^ (perm &&& fs1.umask)))) := by
        unfold FS.Mkdir
        rw [hnamei1]
        simp only [hfree1]
        unfold FS.create
        rw [List.dropLast_concat, hd1']
        simp only [FS.permits_root fs1 (hp1.2.1.trans hroot), if_true]
      have hg2 := FS.store_grew perm fs1 (lm ++ news.reverse ++ [n]) hfree1
      have hp2 := hg2.pres
      refine ⟨_, FS.mkdirAllFuel_slow fuel fs fs1 _ _ perm e hstat hrec hmk,
        FS.grew_trans hg1 hg2, ?_, ?_, ?_⟩
      · rw [List.reverse_cons, walk_append _ _ _ lm _ (hp2.walk _ _ _ hw1),
          walk_single _ _ n (hp2.searchable _ hsearch1), stepLoc_name _ n hn, List.append_assoc]
      · refine ⟨fs1.euid, fs1.egid, perm ^^^ (perm &&& fs1.umask), ?_⟩
        simp [FS.store]
      · intro l hl
        have hne' : l ≠ lm ++ news.reverse ++ [n] := by
          intro h
          apply hl
          rw [h]
          simp
        have hnp : ¬ l <+: (lm ++ news.reverse) := by
          intro h
          apply hl
          rw [List.reverse_cons, ← List.append_assoc]
          exact h.trans (List.prefix_append _ _)
        rw [← hloc1 l hnp]
        have hne'' : l ≠ lm ++ (news.reverse ++ [n]) := by
          rw [← List.append_assoc]; exact hne'
        simp [FS.store, hne'']

theorem FS.stat_ok (fs : FS) (p : GoString) (nd : Node) (h : fs.Stat p = .ok nd) :
    ∃ loc, fs.namei p = .ok loc ∧ fs.nodes loc = some nd := by
  unfold FS.Stat at h
  cases hn : fs.namei p with
  | error e => rw [hn] at h; cases h
  | ok loc =>
    rw [hn] at h
    simp only [] at h
    cases hl : fs.nodes loc with
    | none => rw [hl] at h; cases h
    | some n => rw [hl] at h; cases h; exact ⟨loc, rfl, hl⟩

theorem FS.stat_of_namei (fs : FS) (p : GoString) (loc : Loc) (nd : Node)
    (hn : fs.namei p = .ok loc) (hl : fs.nodes loc = some nd) : fs.Stat p = .ok nd := by
  unfold FS.Stat
  rw [hn]
  simp only [hl]

theorem namei_walk_rooted (fs : FS) (m : GoString) (lm : Loc) (h : fs.namei m = .ok lm) :
    fs.walk (if dstRooted m = true then [] else fs.cwd) (splitPath m) = .ok lm := by
  unfold FS.namei at h
  cases m with
  | nil => cases h
  | cons c rest =>
    simp only [] at h
    by_cases hc : c = '/'
    · simpa [dstRooted, hc] using h
    · simpa [dstRooted, hc] using h

theorem posix_install_privileged {T : Type} (file : Name) (hfile : IsName file)
    (options : InstallOptions T) (fs : FS) (log : List (Call Loc)) (us gs ms : Nat)
    (B : List Nat) (lm : Loc) (hroot : fs.euid = 0)
    (hopen : ∃ f, (fs.OpenFile options.InstallDisk (O_RDWR ||| O_CLOEXEC) 0o666).1 = .ok f)
    (hsrc : fs.Stat (srcPath ("nvidia/".toList ++ file) options.ArtifactsPath)
      = .ok (.file us gs ms B))
    (hmnt : fs.namei options.MountPrefix = .ok lm)
    (hdir : ∃ u g m, fs.nodes lm = some (.dir u g m))
    (hempty : ∀ x l, fs.nodes (lm ++ x :: l) = none) :
    (installWith ("nvidia/".toList ++ file) posix options ⟨fs, log⟩).1 = none ∧
      (installWith ("nvidia/".toList ++ file) posix options ⟨fs, log⟩).2.st.Stat
        (dstPath ("nvidia/".toList ++ file) options.MountPrefix)
          = .ok (.file fs.euid fs.egid ms B) := by
  obtain ⟨f, hopen⟩ := hopen
  have h1 : posix.OpenFile options.InstallDisk (O_RDWR ||| O_CLOEXEC) 0o666 fs = (.ok f, fs) :=
    Prod.ext hopen (posix_open_rdwr_st fs options.InstallDisk 0o666)
  have h2 : posix.Sync f fs = (none, fs) := rfl
  -- the mount prefix, cleaned
  have hw := walk_clean fs (dstRooted options.MountPrefix) options.MountPrefix lm
    (namei_walk_rooted fs _ lm hmnt)
  have hN := dstDir_normal options.MountPrefix
  have hNf : NormalSt (dstRooted options.MountPrefix)
      ((stOf (dstRooted options.MountPrefix) options.MountPrefix).1,
        file :: "nvidia".toList :: "dtb".toList :: "EFI".toList :: "boot".toList ::
          (stOf (dstRooted options.MountPrefix) options.MountPrefix).2) :=
    normalSt_cons _ _ _ _ hfile hN
  generalize hst : stOf (dstRooted options.MountPrefix) options.MountPrefix = st at hw hN hNf
  obtain ⟨k, ns0⟩ := st
  have hDir := Dir_dstPath file hfile options.MountPrefix
  have hdst := dstPath_eq file hfile options.MountPrefix
  rw [hst] at hDir hdst
  simp only [] at hDir hdst hN hNf
  -- the directory creation
  have hne := rbuf_ne_nil (dstRooted options.MountPrefix) k "nvidia".toList
    ("dtb".toList :: "EFI".toList :: "boot".toList :: ns0) isName_nvidia.1
  obtain ⟨fs3, hmk, hg3, hw3, hd3, hloc3⟩ := mkdirAll_fresh 0o600 fs
    (dstRooted options.MountPrefix) k ns0 lm hroot hw hdir hempty
    ["nvidia".toList, "dtb".toList, "EFI".toList, "boot".toList] []
    (((rbuf (dstRooted options.MountPrefix) (k, "nvidia".toList :: "dtb".toList ::
      "EFI".toList :: "boot".toList :: ns0)).reverse ++ []).length + 1) hN (Or.inl rfl) hne
    (Nat.lt_succ_self _)
  simp only [List.append_nil, List.cons_append, List.nil_append] at hmk
  have h3 : posix.MkdirAll
      (filepath.Dir (dstPath ("nvidia/".toList ++ file) options.MountPrefix)) 0o600 fs
      = (none, fs3) := by
    rw [hDir]
    exact hmk
  have hp3 := hg3.pres
  have hroot3 : fs3.euid = 0 := hp3.2.1.trans hroot
  -- the destination
  have hL : ["nvidia".toList, "dtb".toList, "EFI".toList, "boot".toList].reverse
      = ["boot".toList, "EFI".toList, "dtb".toList, "nvidia".toList] := rfl
  rw [hL] at hw3 hd3 hloc3
  have hnd : fs3.namei (dstPath ("nvidia/".toList ++ file) options.MountPrefix)
      = .ok (lm ++ ["boot".toList, "EFI".toList, "dtb".toList, "nvidia".toList] ++ [file]) := by
    rw [hdst]
    have hc := namei_canon fs3 (dstRooted options.MountPrefix)
      (k, file :: "nvidia".toList :: "dtb".toList :: "EFI".toList :: "boot".toList :: ns0)
      hNf.valid (rbuf_ne_nil _ k file _ hfile.1) [] (Or.inl rfl)
    rw [List.append_nil] at hc
    have hcomps : compsOf (k, file :: "nvidia".toList :: "dtb".toList :: "EFI".toList ::
        "boot".toList :: ns0)
        = compsOf (k, ns0) ++
          (["boot".toList, "EFI".toList, "dtb".toList, "nvidia".toList] ++ [file]) := by
      simp [compsOf]
    rw [hc, hcomps, hp3.1, walk_append fs3 _ _ _ lm (hp3.walk _ _ _ hw),
      walk_append fs3 _ _ lm _ hw3, walk_single fs3 _ file (FS.searchable_root fs3 hroot3 _ hd3),
      stepLoc_name _ file hfile]
  have hfree : fs3.nodes (lm ++ ["boot".toList, "EFI".toList, "dtb".toList, "nvidia".toList]
      ++ [file]) = none := by
    rw [hloc3 _ (not_prefix_snoc _ file)]
    simpa using hempty "boot".toList ["EFI".toList, "dtb".toList, "nvidia".toList, file]
  -- the source
  obtain ⟨ls, hns, hls⟩ := FS.stat_ok fs _ _ hsrc
  have hns3 := hp3.namei _ _ hns
  have hls3 : fs3.nodes ls = some (.file us gs ms B) := hg3.node ls _ hls
  have hneq : ls ≠ lm ++ ["boot".toList, "EFI".toList, "dtb".toList, "nvidia".toList] ++ [file] := by
    intro h
    rw [h, hfree] at hls3
    cases hls3
  obtain ⟨u, g, md, hd3'⟩ := hd3
  have hopen4 : fs3.OpenFile (dstPath ("nvidia/".toList ++ file) options.MountPrefix)
      (O_RDWR ||| O_CREATE ||| O_TRUNC) 0o666
      = (.ok (lm ++ ["boot".toList, "EFI".toList, "dtb".toList, "nvidia".toList] ++ [file]),
          fs3.store (lm ++ ["boot".toList, "EFI".toList, "dtb".toList, "nvidia".toList] ++ [file])
            (.file fs3.euid fs3.egid (0o666 ^^^ (0o666 &&& fs3.umask)) [])) := by
    rw [FS.open_create, hnd]
    simp only [hfree, if_neg (dstPath_getLast file hfile options.MountPrefix)]
    unfold FS.create
    rw [List.dropLast_concat, hd3']
    simp only [FS.permits_root fs3 hroot3, if_true]
  have h4 : posix.CopyFile (srcPath ("nvidia/".toList ++ file) options.ArtifactsPath)
      (dstPath ("nvidia/".toList ++ file) options.MountPrefix) fs3
      = (none, fs3.store (lm ++ ["boot".toList, "EFI".toList, "dtb".toList, "nvidia".toList]
          ++ [file]) (.file fs3.euid fs3.egid ms B)) := by
    show fs3.CopyFile _ _ = _
    rw [FS.CopyFile_eval fs3 _ _ ls _ us gs ms B fs3.euid fs3.egid _ hns3 hls3
      (srcPath_getLast file hfile options.ArtifactsPath) (FS.permits_root fs3 hroot3 _ _ _ _) hnd
      (by intro u g m; rw [hfree]; simp) hopen4 (fun heq => absurd heq hneq),
      if_pos (Or.inl hroot3), if_neg hneq]
  refine ⟨(installWith_none_iff _ posix options _).2 ⟨f, fs, fs, fs3, _, h1, h2, h3, h4⟩, ?_⟩
  rw [installWith_success_st _ posix options ⟨fs, log⟩ f fs fs fs3 _ h1 h2 h3 h4]
  have hcl : ∀ s : FS, (posix.Close f s).2 = s := fun _ => rfl
  rw [hcl, ← hp3.2.1, ← hp3.2.2.1]
  have hp4 := FS.store_pres_file fs3
    (lm ++ ["boot".toList, "EFI".toList, "dtb".toList, "nvidia".toList] ++ [file])
    fs3.euid fs3.egid ms B (by intro u g m; rw [hfree]; simp)
  refine FS.stat_of_namei _ _ _ _ (hp4.namei _ _ hnd) ?_
  show (if _ = _ then _ else _) = _
  rw [if_pos rfl]

/-- The end-to-end scenario for a privileged process.  On the file-system model, when
the process has effective user 0, the disk opens, the source file
`Join(artifactsPath, "arm64/dtb", dtb)` exists with contents `B`, and the mount prefix
names an existing directory with nothing below it: `Install` returns `nil` and the file
`Join(mountPrefix, "/boot/EFI/dtb", dtb)` exists afterwards with contents exactly `B`; it
belongs to the process and has the mode of the source. -/
theorem install_privileged_ok (fs : FS) (log : List (Call Loc)) (u g m : Nat) (B : List Nat)
    (lm : Loc)
    (a : InstallOptions jetson_agx_orin.jetsonAGXOrinExtraOptions)
    (n : InstallOptions jetson_orin_nano.jetsonOrinNanoExtraOptions) :
    (fs.euid = 0 →
      (∃ f, (fs.OpenFile a.InstallDisk (O_RDWR ||| O_CLOEXEC) 0o666).1 = .ok f) →
      fs.Stat (srcPath jetson_agx_orin.dtb a.ArtifactsPath) = .ok (.file u g m B) →
      fs.namei a.MountPrefix = .ok lm →
      (∃ u g m, fs.nodes lm = some (.dir u g m)) →
      (∀ x l, fs.nodes (lm ++ x :: l) = none) →
      (jetson_agx_orin.JetsonAGXOrinInstaller.Install posix a ⟨fs, log⟩).1 = none ∧
        (jetson_agx_orin.JetsonAGXOrinInstaller.Install posix a ⟨fs, log⟩).2.st.Stat
          (dstPath jetson_agx_orin.dtb a.MountPrefix) = .ok (.file fs.euid fs.egid m B)) ∧
    (fs.euid = 0 →
      (∃ f, (fs.OpenFile n.InstallDisk (O_RDWR ||| O_CLOEXEC) 0o666).1 = .ok f) →
      fs.Stat (srcPath jetson_orin_nano.dtb n.ArtifactsPath) = .ok (.file u g m B) →
      fs.namei n.MountPrefix = .ok lm →
      (∃ u g m, fs.nodes lm = some (.dir u g m)) →
      (∀ x l, fs.nodes (lm ++ x :: l) = none) →
      (jetson_orin_nano.JetsonOrinNanoInstaller.Install posix n ⟨fs, log⟩).1 = none ∧
        (jetson_orin_nano.JetsonOrinNanoInstaller.Install posix n ⟨fs, log⟩).2.st.Stat
          (dstPath jetson_orin_nano.dtb n.MountPrefix)
            = .ok (.file fs.euid fs.egid m B)) := by
  constructor
  · intro hroot hopen hsrc hmnt hdir hempty
    simp only [agx_Install_eq]
    rw [agx_dtb_eq] at hsrc ⊢
    exact posix_install_privileged _ isName_agx_file a fs log u g m B lm hroot hopen hsrc hmnt
      hdir hempty
  · intro hroot hopen hsrc hmnt hdir hempty
    simp only [nano_Install_eq]
    rw [nano_dtb_eq] at hsrc ⊢
    exact posix_install_privileged _ isName_nano_file n fs log u g m B lm hroot hopen hsrc hmnt
      hdir hempty

/-- Witness of the privileged end-to-end scenario on the example file system. -/
theorem install_privileged_ok_witness :
    (imgFS 0).euid = 0 ∧
    (imgFS 0).namei "/mnt".toList = .ok ["mnt".toList] ∧
    (jetson_agx_orin.JetsonAGXOrinInstaller.Install posix
        (imgOptions _ {} "/disk.img") ⟨imgFS 0, []⟩).2.st.Stat
      (dstPath jetson_agx_orin.dtb "/mnt".toList) = .ok (.file 0 0 0o644 [1, 2, 3]) :=
  ⟨rfl, rfl,
    ((install_privileged_ok (imgFS 0) [] 1000 1000 0o644 [1, 2, 3] ["mnt".toList]
      (imgOptions _ {} "/disk.img")
      (imgOptions jetson_orin_nano.jetsonOrinNanoExtraOptions {} "/disk.img")).1
        rfl ⟨["disk.img".toList], rfl⟩ rfl rfl ⟨1000, 1000, 0o755, rfl⟩
        (fun x l => by simp [imgFS])).2⟩

/-! ## The claims -/

/-- C1 on the example file system: the disk image opens and syncs, the source device
trees exist with bytes `1, 2, 3` and `4, 5, 6` (readable by the process), and `/mnt` is
an empty directory that the unprivileged process owns and may write and search.
Neither `Install` returns `nil`: both return `EACCES`, and the destination file does not
exist afterwards.  The same runs by a privileged process return `nil` and leave the
bytes at the destination. -/
theorem install_unprivileged_fails :
    ((imgFS 1000).OpenFile "/disk.img".toList (O_RDWR ||| O_CLOEXEC) 0o666).1
      = .ok ["disk.img".toList] ∧
    (imgFS 1000).Stat (srcPath jetson_agx_orin.dtb "/art".toList)
      = .ok (.file 1000 1000 0o644 [1, 2, 3]) ∧
    (imgFS 1000).Stat (srcPath jetson_orin_nano.dtb "/art".toList)
      = .ok (.file 1000 1000 0o644 [4, 5, 6]) ∧
    (imgFS 1000).Stat "/mnt".toList = .ok (.dir 1000 1000 0o755) ∧
    (imgFS 1000).permits 1000 1000 0o755 1 = true ∧
    (imgFS 1000).permits 1000 1000 0o755 0 = true ∧
    (∀ x l, (imgFS 1000).nodes ("mnt".toList :: x :: l) = none) ∧
    (jetson_agx_orin.JetsonAGXOrinInstaller.Install posix
        (imgOptions _ {} "/disk.img") ⟨imgFS 1000, []⟩).1 = some .EACCES ∧
    (jetson_agx_orin.JetsonAGXOrinInstaller.Install posix
        (imgOptions _ {} "/disk.img") ⟨imgFS 1000, []⟩).2.st.Stat
      (dstPath jetson_agx_orin.dtb "/mnt".toList) = .error .EACCES ∧
    (jetson_agx_orin.JetsonAGXOrinInstaller.Install posix
        (imgOptions _ {} "/disk.img") ⟨imgFS 1000, []⟩).2.st.nodes
      ["mnt".toList, "boot".toList, "EFI".toList, "dtb".toList, "nvidia".toList,
        "tegra234-p3701-0000+p3737-0000.dtb".toList] = none ∧
    (jetson_orin_nano.JetsonOrinNanoInstaller.Install posix
        (imgOptions _ {} "/disk.img") ⟨imgFS 1000, []⟩).1 = some .EACCES ∧
    (jetson_orin_nano.JetsonOrinNanoInstaller.Install posix
        (imgOptions _ {} "/disk.img") ⟨imgFS 1000, []⟩).2.st.nodes
      ["mnt".toList, "boot".toList, "EFI".toList, "dtb".toList, "nvidia".toList,
        "tegra234-p3768-0000+p3767-0000.dtb".toList] = none ∧
    (jetson_agx_orin.JetsonAGXOrinInstaller.Install posix
        (imgOptions _ {} "/disk.img") ⟨imgFS 0, []⟩).1 = none ∧
    (jetson_agx_orin.JetsonAGXOrinInstaller.Install posix
        (imgOptions _ {} "/disk.img") ⟨imgFS 0, []⟩).2.st.Stat
      (dstPath jetson_agx_orin.dtb "/mnt".toList) = .ok (.file 0 0 0o644 [1, 2, 3]) ∧
    (jetson_orin_nano.JetsonOrinNanoInstaller.Install posix
        (imgOptions _ {} "/disk.img") ⟨imgFS 0, []⟩).1 = none ∧
    (jetson_orin_nano.JetsonOrinNanoInstaller.Install posix
        (imgOptions _ {} "/disk.img") ⟨imgFS 0, []⟩).2.st.Stat
      (dstPath jetson_orin_nano.dtb "/mnt".toList) = .ok (.file 0 0 0o644 [4, 5, 6]) := by
  refine ⟨rfl, rfl, rfl, rfl, by decide, by decide, ?_, by decide, rfl, by decide, by decide,
    by decide, by decide, rfl, by decide, rfl⟩
  intro x l
  simp [imgFS]

/-- C2: `GetOptions` ignores its argument, never fails and returns the board's fixed
name and kernel arguments, in order: eight for the AGX Orin, six for the Orin Nano. -/
theorem getOptions_fixed :
    (∀ extra, jetson_agx_orin.JetsonAGXOrinInstaller.GetOptions extra =
      ({ Name := "jetson_agx_orin"
         KernelArgs := ["console=tty0", "console=ttyS0,115200",
           "sysctl.kernel.kexec_load_disabled=1", "talos.dashboard.disabled=1",
           "tegra_fbmem=0x2000000@0x278000000", "lut_mem=0x2008@0x276000000",
           "nvdec_enabled", "nvidia_drm.modeset=1"] }, none)) ∧
    (∀ extra,
      (jetson_agx_orin.JetsonAGXOrinInstaller.GetOptions extra).1.KernelArgs.length = 8) ∧
    (∀ extra, jetson_orin_nano.JetsonOrinNanoInstaller.GetOptions extra =
      ({ Name := "jetson_orin_nano"
         KernelArgs := ["console=tty0", "console=ttyS0,115200",
           "sysctl.kernel.kexec_load_disabled=1", "talos.dashboard.disabled=1",
           "tegra_fbmem=0x800000@0x278800000", "lut_mem=0x2008@0x278000000"] }, none)) ∧
    (∀ extra,
      (jetson_orin_nano.JetsonOrinNanoInstaller.GetOptions extra).1.KernelArgs.length = 6) :=
  ⟨fun _ => rfl, fun _ => rfl, fun _ => rfl, fun _ => rfl⟩

/-- C3: the paths `Install` uses.  Whatever the system does and whatever `artifactsPath`
and `mountPrefix` are, the calls of a run are made with `src = Join(artifactsPath,
"arm64/dtb", dtb)`, `dst = Join(mountPrefix, "/boot/EFI/dtb", dtb)` and `Dir(dst)`;
`src` ends with `arm64/dtb/` followed by the board's `dtb`, `dst` ends with
`boot/EFI/dtb/` followed by the same `dtb` (so both end with `dtb` itself), and `dst` is
`Dir(dst)`, a separator and the file name of the device tree. -/
theorem install_paths {σ ε F : Type} (sys : Sys σ ε F) (w : World σ F)
    (a : InstallOptions jetson_agx_orin.jetsonAGXOrinExtraOptions)
    (n : InstallOptions jetson_orin_nano.jetsonOrinNanoExtraOptions) :
    ((jetson_agx_orin.JetsonAGXOrinInstaller.Install sys a w).2.log
        = w.log ++ callsOf a.InstallDisk
            (filepath.Dir (dstPath jetson_agx_orin.dtb a.MountPrefix))
            (srcPath jetson_agx_orin.dtb a.ArtifactsPath)
            (dstPath jetson_agx_orin.dtb a.MountPrefix)
            (outcomeOf sys a.InstallDisk
              (filepath.Dir (dstPath jetson_agx_orin.dtb a.MountPrefix))
              (srcPath jetson_agx_orin.dtb a.ArtifactsPath)
              (dstPath jetson_agx_orin.dtb a.MountPrefix) w.st) ∧
      ("arm64/dtb/".toList ++ jetson_agx_orin.dtb)
        <:+ srcPath jetson_agx_orin.dtb a.ArtifactsPath ∧
      ("boot/EFI/dtb/".toList ++ jetson_agx_orin.dtb)
        <:+ dstPath jetson_agx_orin.dtb a.MountPrefix ∧
      jetson_agx_orin.dtb <:+ srcPath jetson_agx_orin.dtb a.ArtifactsPath ∧
      jetson_agx_orin.dtb <:+ dstPath jetson_agx_orin.dtb a.MountPrefix ∧
      dstPath jetson_agx_orin.dtb a.MountPrefix
        = filepath.Dir (dstPath jetson_agx_orin.dtb a.MountPrefix)
            ++ "/tegra234-p3701-0000+p3737-0000.dtb".toList) ∧
    ((jetson_orin_nano.JetsonOrinNanoInstaller.Install sys n w).2.log
        = w.log ++ callsOf n.InstallDisk
            (filepath.Dir (dstPath jetson_orin_nano.dtb n.MountPrefix))
            (srcPath jetson_orin_nano.dtb n.ArtifactsPath)
            (dstPath jetson_orin_nano.dtb n.MountPrefix)
            (outcomeOf sys n.InstallDisk
              (filepath.Dir (dstPath jetson_orin_nano.dtb n.MountPrefix))
              (srcPath jetson_orin_nano.dtb n.ArtifactsPath)
              (dstPath jetson_orin_nano.dtb n.MountPrefix) w.st) ∧
      ("arm64/dtb/".toList ++ jetson_orin_nano.dtb)
        <:+ srcPath jetson_orin_nano.dtb n.ArtifactsPath ∧
      ("boot/EFI/dtb/".toList ++ jetson_orin_nano.dtb)
        <:+ dstPath jetson_orin_nano.dtb n.MountPrefix ∧
      jetson_orin_nano.dtb <:+ srcPath jetson_orin_nano.dtb n.ArtifactsPath ∧
      jetson_orin_nano.dtb <:+ dstPath jetson_orin_nano.dtb n.MountPrefix ∧
      dstPath jetson_orin_nano.dtb n.MountPrefix
        = filepath.Dir (dstPath jetson_orin_nano.dtb n.MountPrefix)
            ++ "/tegra234-p3768-0000+p3767-0000.dtb".toList) := by
  refine ⟨⟨?_, ?_, ?_, ?_, ?_, ?_⟩, ⟨?_, ?_, ?_, ?_, ?_, ?_⟩⟩
  · rw [agx_Install_eq]; exact installWith_log _ sys a w
  · rw [agx_dtb_eq]; exact srcPath_suffix _ isName_agx_file _
  · rw [agx_dtb_eq]; exact dstPath_suffix _ isName_agx_file _
  · rw [agx_dtb_eq]; exact suffix_of_dtb _ _ _ (srcPath_suffix _ isName_agx_file _)
  · rw [agx_dtb_eq]; exact suffix_of_dtb _ _ _ (dstPath_suffix _ isName_agx_file _)
  · rw [agx_dtb_eq]; exact dstPath_eq_Dir _ isName_agx_file _
  · rw [nano_Install_eq]; exact installWith_log _ sys n w
  · rw [nano_dtb_eq]; exact srcPath_suffix _ isName_nano_file _
  · rw [nano_dtb_eq]; exact dstPath_suffix _ isName_nano_file _
  · rw [nano_dtb_eq]; exact suffix_of_dtb _ _ _ (srcPath_suffix _ isName_nano_file _)
  · rw [nano_dtb_eq]; exact suffix_of_dtb _ _ _ (dstPath_suffix _ isName_nano_file _)
  · rw [nano_dtb_eq]; exact dstPath_eq_Dir _ isName_nano_file _

/-- C4: on every system and for every outcome of its calls, `Install` returns exactly
the error of the first step that fails in the order open, sync, mkdir, copy; it returns
`nil` if and only if all four steps succeed; and the result does not depend on what
`Close` does or returns. -/
theorem install_returns_first_error {σ ε F : Type} (sys : Sys σ ε F) (w : World σ F)
    (a : InstallOptions jetson_agx_orin.jetsonAGXOrinExtraOptions)
    (n : InstallOptions jetson_orin_nano.jetsonOrinNanoExtraOptions) :
    ((jetson_agx_orin.JetsonAGXOrinInstaller.Install sys a w).1
        = (stepsOutcome jetson_agx_orin.dtb sys a w.st).firstError ∧
      ((jetson_agx_orin.JetsonAGXOrinInstaller.Install sys a w).1 = none ↔
        ∃ f s1 s2 s3 s4,
          sys.OpenFile a.InstallDisk (O_RDWR ||| O_CLOEXEC) 0o666 w.st = (.ok f, s1) ∧
          sys.Sync f s1 = (none, s2) ∧
          sys.MkdirAll (filepath.Dir (dstPath jetson_agx_orin.dtb a.MountPrefix)) 0o600 s2
            = (none, s3) ∧
          sys.CopyFile (srcPath jetson_agx_orin.dtb a.ArtifactsPath)
            (dstPath jetson_agx_orin.dtb a.MountPrefix) s3 = (none, s4)) ∧
      ∀ close' : F → σ → Option ε × σ,
        (jetson_agx_orin.JetsonAGXOrinInstaller.Install { sys with Close := close' } a w).1
          = (jetson_agx_orin.JetsonAGXOrinInstaller.Install sys a w).1) ∧
    ((jetson_orin_nano.JetsonOrinNanoInstaller.Install sys n w).1
        = (stepsOutcome jetson_orin_nano.dtb sys n w.st).firstError ∧
      ((jetson_orin_nano.JetsonOrinNanoInstaller.Install sys n w).1 = none ↔
        ∃ f s1 s2 s3 s4,
          sys.OpenFile n.InstallDisk (O_RDWR ||| O_CLOEXEC) 0o666 w.st = (.ok f, s1) ∧
          sys.Sync f s1 = (none, s2) ∧
          sys.MkdirAll (filepath.Dir (dstPath jetson_orin_nano.dtb n.MountPrefix)) 0o600 s2
            = (none, s3) ∧
          sys.CopyFile (srcPath jetson_orin_nano.dtb n.ArtifactsPath)
            (dstPath jetson_orin_nano.dtb n.MountPrefix) s3 = (none, s4)) ∧
      ∀ close' : F → σ → Option ε × σ,
        (jetson_orin_nano.JetsonOrinNanoInstaller.Install { sys with Close := close' } n w).1
          = (jetson_orin_nano.JetsonOrinNanoInstaller.Install sys n w).1) := by
  refine ⟨⟨?_, ?_, ?_⟩, ⟨?_, ?_, ?_⟩⟩
  · rw [agx_Install_eq]; exact installWith_error _ sys a w
  · rw [agx_Install_eq]; exact installWith_none_iff _ sys a w
  · intro close'
    rw [agx_Install_eq, agx_Install_eq, installWith_error, installWith_error]
    rfl
  · rw [nano_Install_eq]; exact installWith_error _ sys n w
  · rw [nano_Install_eq]; exact installWith_none_iff _ sys n w
  · intro close'
    rw [nano_Install_eq, nano_Install_eq, installWith_error, installWith_error]
    rfl

/-- C5: on every system a run makes the calls open (read-write, close-on-exec, no
create flag), sync, create-directories of `Dir(dst)`, copy of `src` to `dst`, each at
most once, in this order, and none of them after one has failed (`callsOf`); the state
it leaves is the effect of exactly these calls.  On the file-system model, a run in
which the open or the sync fails leaves the file system as it was: nothing under the
mount prefix changes and the disk is not created. -/
theorem install_steps_in_order {σ ε F : Type} (sys : Sys σ ε F) (w : World σ F)
    (a : InstallOptions jetson_agx_orin.jetsonAGXOrinExtraOptions)
    (n : InstallOptions jetson_orin_nano.jetsonOrinNanoExtraOptions)
    (fs : FS) (log : List (Call Loc)) :
    ((O_RDWR ||| O_CLOEXEC) &&& 3 = O_RDWR ∧ (O_RDWR ||| O_CLOEXEC) &&& O_CLOEXEC = O_CLOEXEC ∧
      (O_RDWR ||| O_CLOEXEC) &&& O_CREATE = 0) ∧
    ((jetson_agx_orin.JetsonAGXOrinInstaller.Install sys a w).2.log
        = w.log ++ stepsCalls jetson_agx_orin.dtb a (stepsOutcome jetson_agx_orin.dtb sys a w.st) ∧
      (jetson_agx_orin.JetsonAGXOrinInstaller.Install sys a w).2.st
        = sys.effects
            (stepsCalls jetson_agx_orin.dtb a (stepsOutcome jetson_agx_orin.dtb sys a w.st)) w.st ∧
      ((stepsOutcome jetson_agx_orin.dtb posix a fs).synced = false →
        (jetson_agx_orin.JetsonAGXOrinInstaller.Install posix a ⟨fs, log⟩).2.st = fs)) ∧
    ((jetson_orin_nano.JetsonOrinNanoInstaller.Install sys n w).2.log
        = w.log ++
          stepsCalls jetson_orin_nano.dtb n (stepsOutcome jetson_orin_nano.dtb sys n w.st) ∧
      (jetson_orin_nano.JetsonOrinNanoInstaller.Install sys n w).2.st
        = sys.effects
            (stepsCalls jetson_orin_nano.dtb n (stepsOutcome jetson_orin_nano.dtb sys n w.st))
            w.st ∧
      ((stepsOutcome jetson_orin_nano.dtb posix n fs).synced = false →
        (jetson_orin_nano.JetsonOrinNanoInstaller.Install posix n ⟨fs, log⟩).2.st = fs)) := by
  refine ⟨⟨by decide, by decide, by decide⟩, ⟨?_, ?_, ?_⟩, ⟨?_, ?_, ?_⟩⟩
  · rw [agx_Install_eq]; exact installWith_log _ sys a w
  · rw [agx_Install_eq]; exact installWith_st _ sys a w
  · intro h; rw [agx_Install_eq]; exact posix_unsynced_st _ a fs log h
  · rw [nano_Install_eq]; exact installWith_log _ sys n w
  · rw [nano_Install_eq]; exact installWith_st _ sys n w
  · intro h; rw [nano_Install_eq]; exact posix_unsynced_st _ n fs log h

/-- Witness of C5: with a disk that does not exist the open fails, the only call is the
open, and the file system is left as it was (in particular the disk is not created). -/
theorem install_steps_in_order_witness :
    (jetson_agx_orin.JetsonAGXOrinInstaller.Install posix
        (imgOptions _ {} "/nodisk.img") ⟨imgFS 0, []⟩).2.log
      = [.openFile "/nodisk.img".toList (O_RDWR ||| O_CLOEXEC) 0o666] ∧
    (jetson_agx_orin.JetsonAGXOrinInstaller.Install posix
        (imgOptions _ {} "/nodisk.img") ⟨imgFS 0, []⟩).2.st = imgFS 0 ∧
    (jetson_orin_nano.JetsonOrinNanoInstaller.Install posix
        (imgOptions _ {} "/nodisk.img") ⟨imgFS 0, []⟩).2.st = imgFS 0 :=
  ⟨by decide,
    (install_steps_in_order posix ⟨imgFS 0, []⟩ (imgOptions _ {} "/nodisk.img")
      (imgOptions _ {} "/nodisk.img") (imgFS 0) []).2.1.2.2 (by decide),
    (install_steps_in_order posix ⟨imgFS 0, []⟩ (imgOptions _ {} "/nodisk.img")
      (imgOptions _ {} "/nodisk.img") (imgFS 0) []).2.2.2.2 (by decide)⟩

/-- C6, as stated, fails for an unprivileged process and a read-only source.  On the
example file system the destination directory exists, the device trees have mode `0o444`
and the process is user 1000.  The first run of `Install` succeeds: the destination file
is created, filled and given the mode of the source, `0o444`.  The second run with the
same options does not succeed: the copy cannot open the destination for writing and
`Install` returns `EACCES`. -/
theorem second_install_denied :
    (preparedFS 0o444).Stat (srcPath jetson_agx_orin.dtb "/art".toList)
      = .ok (.file 1000 1000 0o444 [1, 2, 3]) ∧
    (jetson_agx_orin.JetsonAGXOrinInstaller.Install posix
        (imgOptions _ {} "/disk.img") ⟨preparedFS 0o444, []⟩).1 = none ∧
    (jetson_agx_orin.JetsonAGXOrinInstaller.Install posix
        (imgOptions _ {} "/disk.img") ⟨preparedFS 0o444, []⟩).2.st.Stat
      (dstPath jetson_agx_orin.dtb "/mnt".toList) = .ok (.file 1000 1000 0o444 [1, 2, 3]) ∧
    (jetson_agx_orin.JetsonAGXOrinInstaller.Install posix (imgOptions _ {} "/disk.img")
        ⟨(jetson_agx_orin.JetsonAGXOrinInstaller.Install posix
          (imgOptions _ {} "/disk.img") ⟨preparedFS 0o444, []⟩).2.st, []⟩).1 = some .EACCES ∧
    (jetson_orin_nano.JetsonOrinNanoInstaller.Install posix
        (imgOptions _ {} "/disk.img") ⟨preparedFS 0o444, []⟩).1 = none ∧
    (jetson_orin_nano.JetsonOrinNanoInstaller.Install posix (imgOptions _ {} "/disk.img")
        ⟨(jetson_orin_nano.JetsonOrinNanoInstaller.Install posix
          (imgOptions _ {} "/disk.img") ⟨preparedFS 0o444, []⟩).2.st, []⟩).1 = some .EACCES := by
  refine ⟨rfl, by decide, rfl, by decide, by decide, by decide⟩

/-- C6, amended.  On the file-system model `Install` is idempotent when the process can
open again the destination it wrote.  From every state from which a run of `Install`
succeeds, if the process is privileged (effective user 0) or the mode of the source file
has the owner read and owner write bits (the copy gives the destination the mode of the
source), a second run with the same options on the resulting state succeeds too and
leaves the whole file system (directories, files, their modes and contents) exactly as
the first run left it. -/
theorem install_idempotent (fs : FS) (log log' : List (Call Loc))
    (a : InstallOptions jetson_agx_orin.jetsonAGXOrinExtraOptions)
    (n : InstallOptions jetson_orin_nano.jetsonOrinNanoExtraOptions) :
    ((jetson_agx_orin.JetsonAGXOrinInstaller.Install posix a ⟨fs, log⟩).1 = none →
      (fs.euid = 0 ∨ ∃ u g m d,
        fs.Stat (srcPath jetson_agx_orin.dtb a.ArtifactsPath) = .ok (.file u g m d) ∧
          m.testBit 8 = true ∧ m.testBit 7 = true) →
      (jetson_agx_orin.JetsonAGXOrinInstaller.Install posix a
        ⟨(jetson_agx_orin.JetsonAGXOrinInstaller.Install posix a ⟨fs, log⟩).2.st, log'⟩).1
          = none ∧
      (jetson_agx_orin.JetsonAGXOrinInstaller.Install posix a
        ⟨(jetson_agx_orin.JetsonAGXOrinInstaller.Install posix a ⟨fs, log⟩).2.st, log'⟩).2.st
          = (jetson_agx_orin.JetsonAGXOrinInstaller.Install posix a ⟨fs, log⟩).2.st) ∧
    ((jetson_orin_nano.JetsonOrinNanoInstaller.Install posix n ⟨fs, log⟩).1 = none →
      (fs.euid = 0 ∨ ∃ u g m d,
        fs.Stat (srcPath jetson_orin_nano.dtb n.ArtifactsPath) = .ok (.file u g m d) ∧
          m.testBit 8 = true ∧ m.testBit 7 = true) →
      (jetson_orin_nano.JetsonOrinNanoInstaller.Install posix n
        ⟨(jetson_orin_nano.JetsonOrinNanoInstaller.Install posix n ⟨fs, log⟩).2.st, log'⟩).1
          = none ∧
      (jetson_orin_nano.JetsonOrinNanoInstaller.Install posix n
        ⟨(jetson_orin_nano.JetsonOrinNanoInstaller.Install posix n ⟨fs, log⟩).2.st, log'⟩).2.st
          = (jetson_orin_nano.JetsonOrinNanoInstaller.Install posix n ⟨fs, log⟩).2.st) := by
  constructor
  · intro h hmode
    simp only [agx_Install_eq] at h ⊢
    exact posix_install_idem _ a fs log log' h hmode
  · intro h hmode
    simp only [nano_Install_eq] at h ⊢
    exact posix_install_idem _ n fs log log' h hmode

/-- Witness of the amended C6: on the example file system with the destination directory
present and device trees of mode `0o644`, the run of the AGX Orin installer by the
unprivileged owner succeeds, and so does a second run, which changes nothing. -/
theorem install_idempotent_witness :
    (jetson_agx_orin.JetsonAGXOrinInstaller.Install posix
        (imgOptions _ {} "/disk.img") ⟨preparedFS 0o644, []⟩).1 = none ∧
    (preparedFS 0o644).Stat (srcPath jetson_agx_orin.dtb "/art".toList)
      = .ok (.file 1000 1000 0o644 [1, 2, 3]) ∧
    (jetson_agx_orin.JetsonAGXOrinInstaller.Install posix (imgOptions _ {} "/disk.img")
        ⟨(jetson_agx_orin.JetsonAGXOrinInstaller.Install posix
          (imgOptions _ {} "/disk.img") ⟨preparedFS 0o644, []⟩).2.st, []⟩).1 = none ∧
    (jetson_agx_orin.JetsonAGXOrinInstaller.Install posix (imgOptions _ {} "/disk.img")
        ⟨(jetson_agx_orin.JetsonAGXOrinInstaller.Install posix
          (imgOptions _ {} "/disk.img") ⟨preparedFS 0o644, []⟩).2.st, []⟩).2.st
      = (jetson_agx_orin.JetsonAGXOrinInstaller.Install posix
          (imgOptions _ {} "/disk.img") ⟨preparedFS 0o644, []⟩).2.st :=
  ⟨by decide, rfl,
    (install_idempotent (preparedFS 0o644) [] [] (imgOptions _ {} "/disk.img")
      (imgOptions jetson_orin_nano.jetsonOrinNanoExtraOptions {} "/disk.img")).1
        (by decide) (Or.inr ⟨1000, 1000, 0o644, [1, 2, 3], rfl, by decide, by decide⟩)⟩

/-- C7, as stated, fails when the destination lies under the artifacts path: here both
are `/mnt`.  The disk opens, the directories are created, the source does not exist,
`Install` returns the error of the copy, and the new directory `/mnt/boot`, which did
not exist before, is under the artifacts path. -/
theorem artifacts_tree_changed :
    ((imgFS 0).OpenFile "/disk.img".toList (O_RDWR ||| O_CLOEXEC) 0o666).1
      = .ok ["disk.img".toList] ∧
    ((imgFS 0).MkdirAll (filepath.Dir (dstPath jetson_agx_orin.dtb "/mnt".toList)) 0o600).1
      = none ∧
    (imgFS 0).Stat (srcPath jetson_agx_orin.dtb "/mnt".toList) = .error .ENOENT ∧
    (jetson_agx_orin.JetsonAGXOrinInstaller.Install posix
        (imgOptionsAt _ {} "/disk.img" "/mnt") ⟨imgFS 0, []⟩).1 = some .ENOENT ∧
    (imgFS 0).namei "/mnt".toList = .ok ["mnt".toList] ∧
    ["mnt".toList] <+: ["mnt".toList, "boot".toList] ∧
    (imgFS 0).nodes ["mnt".toList, "boot".toList] = none ∧
    (jetson_agx_orin.JetsonAGXOrinInstaller.Install posix
        (imgOptionsAt _ {} "/disk.img" "/mnt") ⟨imgFS 0, []⟩).2.st.nodes
      ["mnt".toList, "boot".toList] = some (.dir 0 0 0o600) := by
  refine ⟨rfl, by decide, rfl, by decide, rfl, by decide, by decide, by decide⟩

/-- C7, amended.  On the file-system model, when the working directory exists, the disk
opens (the sync always succeeds), the creation of the destination directory succeeds and
the source does not exist when the copy starts: `Install` returns the error of the copy
(not `nil`); its calls are open, sync, create-directories, copy, close, so the disk is
only opened, synced and closed; and the file system differs from the initial one only by
new directories (mode `0o600 &^ umask`, owned by the process) at `Dir(dst)` or at
ancestors of it.  No existing file or directory is changed and no file is created. -/
theorem copy_failure_frame (fs : FS) (log : List (Call Loc))
    (a : InstallOptions jetson_agx_orin.jetsonAGXOrinExtraOptions)
    (n : InstallOptions jetson_orin_nano.jetsonOrinNanoExtraOptions) :
    (fs.CwdExists →
      (∃ f, (fs.OpenFile a.InstallDisk (O_RDWR ||| O_CLOEXEC) 0o666).1 = .ok f) →
      (fs.MkdirAll (filepath.Dir (dstPath jetson_agx_orin.dtb a.MountPrefix)) 0o600).1 = none →
      (∃ e, (fs.MkdirAll (filepath.Dir (dstPath jetson_agx_orin.dtb a.MountPrefix)) 0o600).2.Stat
        (srcPath jetson_agx_orin.dtb a.ArtifactsPath) = .error e) →
      (∃ e f, (jetson_agx_orin.JetsonAGXOrinInstaller.Install posix a ⟨fs, log⟩).1 = some e ∧
        ((fs.MkdirAll (filepath.Dir (dstPath jetson_agx_orin.dtb a.MountPrefix))
          0o600).2.CopyFile (srcPath jetson_agx_orin.dtb a.ArtifactsPath)
          (dstPath jetson_agx_orin.dtb a.MountPrefix)).1 = some e ∧
        (jetson_agx_orin.JetsonAGXOrinInstaller.Install posix a ⟨fs, log⟩).2.log = log ++
          [.openFile a.InstallDisk (O_RDWR ||| O_CLOEXEC) 0o666, .sync f,
            .mkdirAll (filepath.Dir (dstPath jetson_agx_orin.dtb a.MountPrefix)) 0o600,
            .copyFile (srcPath jetson_agx_orin.dtb a.ArtifactsPath)
              (dstPath jetson_agx_orin.dtb a.MountPrefix),
            .close f]) ∧
      FS.Grew 0o600 fs (jetson_agx_orin.JetsonAGXOrinInstaller.Install posix a ⟨fs, log⟩).2.st ∧
      ∀ l, (jetson_agx_orin.JetsonAGXOrinInstaller.Install posix a ⟨fs, log⟩).2.st.nodes l
          ≠ fs.nodes l →
        ∃ loc, (jetson_agx_orin.JetsonAGXOrinInstaller.Install posix a ⟨fs, log⟩).2.st.namei
            (filepath.Dir (dstPath jetson_agx_orin.dtb a.MountPrefix)) = .ok loc ∧
          l <+: loc) ∧
    (fs.CwdExists →
      (∃ f, (fs.OpenFile n.InstallDisk (O_RDWR ||| O_CLOEXEC) 0o666).1 = .ok f) →
      (fs.MkdirAll (filepath.Dir (dstPath jetson_orin_nano.dtb n.MountPrefix)) 0o600).1 = none →
      (∃ e, (fs.MkdirAll (filepath.Dir (dstPath jetson_orin_nano.dtb n.MountPrefix)) 0o600).2.Stat
        (srcPath jetson_orin_nano.dtb n.ArtifactsPath) = .error e) →
      (∃ e f, (jetson_orin_nano.JetsonOrinNanoInstaller.Install posix n ⟨fs, log⟩).1 = some e ∧
        ((fs.MkdirAll (filepath.Dir (dstPath jetson_orin_nano.dtb n.MountPrefix))
          0o600).2.CopyFile (srcPath jetson_orin_nano.dtb n.ArtifactsPath)
          (dstPath jetson_orin_nano.dtb n.MountPrefix)).1 = some e ∧
        (jetson_orin_nano.JetsonOrinNanoInstaller.Install posix n ⟨fs, log⟩).2.log = log ++
          [.openFile n.InstallDisk (O_RDWR ||| O_CLOEXEC) 0o666, .sync f,
            .mkdirAll (filepath.Dir (dstPath jetson_orin_nano.dtb n.MountPrefix)) 0o600,
            .copyFile (srcPath jetson_orin_nano.dtb n.ArtifactsPath)
              (dstPath jetson_orin_nano.dtb n.MountPrefix),
            .close f]) ∧
      FS.Grew 0o600 fs (jetson_orin_nano.JetsonOrinNanoInstaller.Install posix n ⟨fs, log⟩).2.st ∧
      ∀ l, (jetson_orin_nano.JetsonOrinNanoInstaller.Install posix n ⟨fs, log⟩).2.st.nodes l
          ≠ fs.nodes l →
        ∃ loc, (jetson_orin_nano.JetsonOrinNanoInstaller.Install posix n ⟨fs, log⟩).2.st.namei
            (filepath.Dir (dstPath jetson_orin_nano.dtb n.MountPrefix)) = .ok loc ∧
          l <+: loc) := by
  constructor
  · intro hcwd hopen hmk hsrc
    simp only [agx_Install_eq]
    rw [agx_dtb_eq] at hmk hsrc ⊢
    exact posix_copy_failure _ isName_agx_file a fs log hcwd hopen hmk hsrc
  · intro hcwd hopen hmk hsrc
    simp only [nano_Install_eq]
    rw [nano_dtb_eq] at hmk hsrc ⊢
    exact posix_copy_failure _ isName_nano_file n fs log hcwd hopen hmk hsrc

/-- Witness of the amended C7: on the example file system, with the artifacts expected
under the missing directory `/nowhere`, the run fails in the copy and every location
that changed is `/mnt/boot/EFI/dtb/nvidia` or an ancestor of it. -/
theorem copy_failure_frame_witness :
    (imgFS 0).CwdExists ∧
    (∃ e, ((imgFS 0).MkdirAll (filepath.Dir (dstPath jetson_agx_orin.dtb "/mnt".toList))
        0o600).2.Stat (srcPath jetson_agx_orin.dtb "/nowhere".toList) = .error e) ∧
    ∀ l, (jetson_agx_orin.JetsonAGXOrinInstaller.Install posix
          (imgOptionsAt _ {} "/disk.img" "/nowhere") ⟨imgFS 0, []⟩).2.st.nodes l
        ≠ (imgFS 0).nodes l →
      ∃ loc, (jetson_agx_orin.JetsonAGXOrinInstaller.Install posix
          (imgOptionsAt _ {} "/disk.img" "/nowhere") ⟨imgFS 0, []⟩).2.st.namei
            (filepath.Dir (dstPath jetson_agx_orin.dtb "/mnt".toList)) = .ok loc ∧
        l <+: loc :=
  ⟨imgFS_cwdExists 0, ⟨.ENOENT, rfl⟩,
    ((copy_failure_frame (imgFS 0) [] (imgOptionsAt _ {} "/disk.img" "/nowhere")
      (imgOptionsAt jetson_orin_nano.jetsonOrinNanoExtraOptions {} "/disk.img" "/nowhere")).1
        (imgFS_cwdExists 0) ⟨["disk.img".toList], rfl⟩ (by decide) ⟨.ENOENT, rfl⟩).2.2⟩

/-- C8 on the example file system: an unprivileged process owns the empty directory
`/mnt`.  `Install` passes the mode `0o600` to the directory creation: it has the owner
write bit but not the owner search bit.  The first missing directory `/mnt/boot` is
created with that mode, the process may not create `/mnt/boot/EFI` inside it, the
directory creation fails with `EACCES` and the copy is never attempted. -/
theorem mkdir_mode_not_searchable :
    (jetson_agx_orin.JetsonAGXOrinInstaller.Install posix
        (imgOptions _ {} "/disk.img") ⟨imgFS 1000, []⟩).2.log
      = [.openFile "/disk.img".toList (O_RDWR ||| O_CLOEXEC) 0o666,
         .sync ["disk.img".toList],
         .mkdirAll "/mnt/boot/EFI/dtb/nvidia".toList 0o600,
         .close ["disk.img".toList]] ∧
    (jetson_orin_nano.JetsonOrinNanoInstaller.Install posix
        (imgOptions _ {} "/disk.img") ⟨imgFS 1000, []⟩).2.log
      = [.openFile "/disk.img".toList (O_RDWR ||| O_CLOEXEC) 0o666,
         .sync ["disk.img".toList],
         .mkdirAll "/mnt/boot/EFI/dtb/nvidia".toList 0o600,
         .close ["disk.img".toList]] ∧
    Nat.testBit 0o600 7 = true ∧ Nat.testBit 0o600 6 = false ∧
    (jetson_agx_orin.JetsonAGXOrinInstaller.Install posix
        (imgOptions _ {} "/disk.img") ⟨imgFS 1000, []⟩).1 = some .EACCES ∧
    (jetson_orin_nano.JetsonOrinNanoInstaller.Install posix
        (imgOptions _ {} "/disk.img") ⟨imgFS 1000, []⟩).1 = some .EACCES ∧
    (jetson_agx_orin.JetsonAGXOrinInstaller.Install posix
        (imgOptions _ {} "/disk.img") ⟨imgFS 1000, []⟩).2.st.nodes
      ["mnt".toList, "boot".toList] = some (.dir 1000 1000 0o600) ∧
    (jetson_agx_orin.JetsonAGXOrinInstaller.Install posix
        (imgOptions _ {} "/disk.img") ⟨imgFS 1000, []⟩).2.st.nodes
      ["mnt".toList, "boot".toList, "EFI".toList] = none ∧
    ((imgFS 1000).MkdirAll "/mnt/boot/EFI/dtb/nvidia".toList 0o700).1 = none := by
  refine ⟨by decide, by decide, by decide, by decide, by decide, by decide, by decide,
    by decide, by decide⟩

/-- C9: the disk handle is released on every exit path.  On every system, the calls of
a run contain exactly one `Close` when the open succeeded, of the handle the open
returned, and it is the last call before `Install` returns; when the open failed (the
only case without a handle) the run contains no `Close`. -/
theorem install_closes_handle {σ ε F : Type} (sys : Sys σ ε F) (w : World σ F)
    (a : InstallOptions jetson_agx_orin.jetsonAGXOrinExtraOptions)
    (n : InstallOptions jetson_orin_nano.jetsonOrinNanoExtraOptions) :
    (∃ calls, (jetson_agx_orin.JetsonAGXOrinInstaller.Install sys a w).2.log = w.log ++ calls ∧
      (match (stepsOutcome jetson_agx_orin.dtb sys a w.st).handle with
        | some f => calls.filter Call.isClose = [.close f] ∧ calls.getLast? = some (.close f)
        | none => calls.filter Call.isClose = []) ∧
      ((stepsOutcome jetson_agx_orin.dtb sys a w.st).handle = none ↔
        ∃ err s1, sys.OpenFile a.InstallDisk (O_RDWR ||| O_CLOEXEC) 0o666 w.st
          = (.error err, s1))) ∧
    (∃ calls, (jetson_orin_nano.JetsonOrinNanoInstaller.Install sys n w).2.log = w.log ++ calls ∧
      (match (stepsOutcome jetson_orin_nano.dtb sys n w.st).handle with
        | some f => calls.filter Call.isClose = [.close f] ∧ calls.getLast? = some (.close f)
        | none => calls.filter Call.isClose = []) ∧
      ((stepsOutcome jetson_orin_nano.dtb sys n w.st).handle = none ↔
        ∃ err s1, sys.OpenFile n.InstallDisk (O_RDWR ||| O_CLOEXEC) 0o666 w.st
          = (.error err, s1))) := by
  constructor
  · refine ⟨stepsCalls jetson_agx_orin.dtb a (stepsOutcome jetson_agx_orin.dtb sys a w.st), ?_,
      callsOf_close _ _ _ _ _, outcomeOf_handle_none _ _ _ _ _ _⟩
    rw [agx_Install_eq]; exact installWith_log _ sys a w
  · refine ⟨stepsCalls jetson_orin_nano.dtb n (stepsOutcome jetson_orin_nano.dtb sys n w.st), ?_,
      callsOf_close _ _ _ _ _, outcomeOf_handle_none _ _ _ _ _ _⟩
    rw [nano_Install_eq]; exact installWith_log _ sys n w

/-- C10, as stated, fails: in the run of the AGX Orin installer by a privileged process
on the example file system every step succeeds, and the call after the sync is the
directory creation; the close comes last, after the copy. -/
theorem close_not_next_after_sync :
    (jetson_agx_orin.JetsonAGXOrinInstaller.Install posix
        (imgOptions _ {} "/disk.img") ⟨imgFS 0, []⟩).1 = none ∧
    (jetson_agx_orin.JetsonAGXOrinInstaller.Install posix
        (imgOptions _ {} "/disk.img") ⟨imgFS 0, []⟩).2.log
      = [.openFile "/disk.img".toList (O_RDWR ||| O_CLOEXEC) 0o666,
         .sync ["disk.img".toList],
         .mkdirAll "/mnt/boot/EFI/dtb/nvidia".toList 0o600,
         .copyFile "/art/arm64/dtb/nvidia/tegra234-p3701-0000+p3737-0000.dtb".toList
           "/mnt/boot/EFI/dtb/nvidia/tegra234-p3701-0000+p3737-0000.dtb".toList,
         .close ["disk.img".toList]] ∧
    ¬ ∃ f, nextAfterSync (jetson_agx_orin.JetsonAGXOrinInstaller.Install posix
        (imgOptions _ {} "/disk.img") ⟨imgFS 0, []⟩).2.log = some (.close f) := by
  have hlog : (jetson_agx_orin.JetsonAGXOrinInstaller.Install posix
        (imgOptions _ {} "/disk.img") ⟨imgFS 0, []⟩).2.log
      = [.openFile "/disk.img".toList (O_RDWR ||| O_CLOEXEC) 0o666,
         .sync ["disk.img".toList],
         .mkdirAll "/mnt/boot/EFI/dtb/nvidia".toList 0o600,
         .copyFile "/art/arm64/dtb/nvidia/tegra234-p3701-0000+p3737-0000.dtb".toList
           "/mnt/boot/EFI/dtb/nvidia/tegra234-p3701-0000+p3737-0000.dtb".toList,
         .close ["disk.img".toList]] := by decide
  refine ⟨by decide, hlog, ?_⟩
  rw [hlog]
  rintro ⟨f, hf⟩
  simp [nextAfterSync] at hf

/-- C10, amended: the disk handle is released when `Install` returns.  On every system,
in every run in which the open and the sync succeed, the call after the sync is the
creation of the destination directory, and the close of the handle is the last call,
after the directory creation and, when it is attempted, the copy. -/
theorem close_is_last_call {σ ε F : Type} (sys : Sys σ ε F) (w : World σ F)
    (a : InstallOptions jetson_agx_orin.jetsonAGXOrinExtraOptions)
    (n : InstallOptions jetson_orin_nano.jetsonOrinNanoExtraOptions) :
    ((stepsOutcome jetson_agx_orin.dtb sys a w.st).synced = true →
      ∃ calls, (jetson_agx_orin.JetsonAGXOrinInstaller.Install sys a w).2.log = w.log ++ calls ∧
        nextAfterSync calls
          = some (.mkdirAll (filepath.Dir (dstPath jetson_agx_orin.dtb a.MountPrefix)) 0o600) ∧
        ∃ f mid, calls
            = [.openFile a.InstallDisk (O_RDWR ||| O_CLOEXEC) 0o666, .sync f,
                .mkdirAll (filepath.Dir (dstPath jetson_agx_orin.dtb a.MountPrefix)) 0o600]
              ++ mid ++ [.close f] ∧
          (mid = [] ∨ mid = [.copyFile (srcPath jetson_agx_orin.dtb a.ArtifactsPath)
            (dstPath jetson_agx_orin.dtb a.MountPrefix)])) ∧
    ((stepsOutcome jetson_orin_nano.dtb sys n w.st).synced = true →
      ∃ calls, (jetson_orin_nano.JetsonOrinNanoInstaller.Install sys n w).2.log = w.log ++ calls ∧
        nextAfterSync calls
          = some (.mkdirAll (filepath.Dir (dstPath jetson_orin_nano.dtb n.MountPrefix)) 0o600) ∧
        ∃ f mid, calls
            = [.openFile n.InstallDisk (O_RDWR ||| O_CLOEXEC) 0o666, .sync f,
                .mkdirAll (filepath.Dir (dstPath jetson_orin_nano.dtb n.MountPrefix)) 0o600]
              ++ mid ++ [.close f] ∧
          (mid = [] ∨ mid = [.copyFile (srcPath jetson_orin_nano.dtb n.ArtifactsPath)
            (dstPath jetson_orin_nano.dtb n.MountPrefix)])) := by
  constructor
  · intro h
    refine ⟨stepsCalls jetson_agx_orin.dtb a (stepsOutcome jetson_agx_orin.dtb sys a w.st), ?_,
      callsOf_synced _ _ _ _ _ h⟩
    rw [agx_Install_eq]; exact installWith_log _ sys a w
  · intro h
    refine ⟨stepsCalls jetson_orin_nano.dtb n (stepsOutcome jetson_orin_nano.dtb sys n w.st), ?_,
      callsOf_synced _ _ _ _ _ h⟩
    rw [nano_Install_eq]; exact installWith_log _ sys n w

/-- Witness of the amended C10 on the example file system. -/
theorem close_is_last_call_witness :
    (stepsOutcome jetson_agx_orin.dtb posix
        (imgOptions jetson_agx_orin.jetsonAGXOrinExtraOptions {} "/disk.img")
        (imgFS 0)).synced = true ∧
    ∃ calls, (jetson_agx_orin.JetsonAGXOrinInstaller.Install posix
        (imgOptions _ {} "/disk.img") ⟨imgFS 0, []⟩).2.log = [] ++ calls ∧
      nextAfterSync calls
        = some (.mkdirAll (filepath.Dir (dstPath jetson_agx_orin.dtb "/mnt".toList)) 0o600) :=
  ⟨by decide,
    let ⟨calls, h1, h2, _⟩ := (close_is_last_call posix ⟨imgFS 0, []⟩
      (imgOptions _ {} "/disk.img")
      (imgOptions jetson_orin_nano.jetsonOrinNanoExtraOptions {} "/disk.img")).1 (by decide)
    ⟨calls, h1, h2⟩⟩

end SbcJetson
